import Mathlib

/-!
MapReduce coordinator: scheduling and fault-recovery state machine

A shallow embedding of `src/mr/rpc.go`, `src/mr/coordinator.go` and
`src/mr/worker.go`.

Modelling conventions
* Go `int` is `Int`.  The only arithmetic on the completion counters is `++`,
  executed while a record leaves `InProgress`; in every state built by
  `MakeCoordinator` the counters are bounded by the slice lengths, so 64-bit
  wrap-around never occurs and is not modelled.
* `time.Time` is an `Int` count of nanoseconds; `time.Now()` is an explicit
  argument `now` of the operation that reads the clock.  One sweep pass reads
  the clock once.
* `time.Duration` is a signed 64-bit nanosecond count; `Time.Sub` saturates.
* A slice is a `List`; indexing outside `0 .. len-1` is a run-time panic,
  rendered as `none`.  Memory is unbounded: `make` panics on a negative length
  only.
* `TaskInfo.Task` is a `*Task` in the source.  `MakeCoordinator` stores a fresh
  non-nil descriptor in every record and nothing writes through or replaces the
  pointer afterwards, so the pointer is embedded as the value it points to.
* Every operation runs under `c.mu`, so each one is a single atomic transition.
  The RPC server and the goroutine started by `MakeCoordinator` are the
  environment: they appear as the events of `step`.
-/

namespace MapReduce

/-- The enumeration `TaskStatus` of `coordinator.go`. -/
inductive TaskStatus where
  | Idle
  | InProgress
  | Completed
  deriving DecidableEq, Repr

/-- The enumeration `TaskType` of `rpc.go`. -/
inductive TaskType where
  | MapTask
  | ReduceTask
  | NoTask
  | ExitTask
  deriving DecidableEq, Repr

/-- The struct `Task` of `rpc.go` (field `Type` is spelled `Typ`). -/
structure Task where
  Typ : TaskType
  Id : Int
  FileName : String
  NReduce : Int
  NMap : Int
  deriving DecidableEq, Repr

/-- The struct `TaskInfo` of `coordinator.go`. -/
structure TaskInfo where
  Status : TaskStatus
  StartTime : Int
  Task : Task
  deriving DecidableEq, Repr

/-- The struct `Coordinator` of `coordinator.go`, without the mutex. -/
structure Coordinator where
  mapTasks : List TaskInfo
  reduceTasks : List TaskInfo
  nMap : Int
  nReduce : Int
  mapTasksCompleted : Int
  reduceTasksCompleted : Int
  deriving DecidableEq, Repr

/-- The struct `RequestTaskReply` of `rpc.go`. -/
structure RequestTaskReply where
  Task : Task
  deriving DecidableEq, Repr

/-- The struct `ReportTaskArgs` of `rpc.go`. -/
structure ReportTaskArgs where
  TaskId : Int
  TaskType : TaskType
  deriving DecidableEq, Repr

/-- Go's `error` interface value: `none` is `nil`. -/
abbrev error := Option String

/-- The composite literal `&Task{Type: ty}`: every other field is zero. -/
def taskOfType (ty : TaskType) : Task :=
  { Typ := ty, Id := 0, FileName := "", NReduce := 0, NMap := 0 }

/-- The slice index expression `s[i]` for a Go `int` index: `none` is the
index-out-of-range panic. -/
def index (s : List TaskInfo) (i : Int) : Option TaskInfo :=
  if 0 ≤ i then s[i.toNat]? else none

/-- The scan of `RequestTask` over one record slice: the first record whose
status is `Idle` becomes `InProgress`, is stamped with `now`, and its task is
returned; `none` when the loop runs to its end. -/
def assignIdle (now : Int) : List TaskInfo → Option (List TaskInfo × Task)
  | [] => none
  | t :: ts =>
    if t.Status = TaskStatus.Idle then
      some ({ t with Status := TaskStatus.InProgress, StartTime := now } :: ts, t.Task)
    else
      match assignIdle now ts with
      | none => none
      | some (ts', task) => some (t :: ts', task)

/-- The method `Coordinator.RequestTask`: new state, reply, returned error. -/
def RequestTask (c : Coordinator) (now : Int) : Coordinator × RequestTaskReply × error :=
  if c.mapTasksCompleted < c.nMap then
    match assignIdle now c.mapTasks with
    | some (ts, task) => ({ c with mapTasks := ts }, { Task := task }, none)
    | none => (c, { Task := taskOfType TaskType.NoTask }, none)
  else if c.reduceTasksCompleted < c.nReduce then
    match assignIdle now c.reduceTasks with
    | some (ts, task) => ({ c with reduceTasks := ts }, { Task := task }, none)
    | none => (c, { Task := taskOfType TaskType.NoTask }, none)
  else
    (c, { Task := taskOfType TaskType.ExitTask }, none)

/-- The method `Coordinator.ReportTask`: `none` is the index-out-of-range panic
of `c.mapTasks[args.TaskId]` or `c.reduceTasks[args.TaskId]`; otherwise the new
state and the returned error. -/
def ReportTask (c : Coordinator) (args : ReportTaskArgs) : Option (Coordinator × error) :=
  if args.TaskType = TaskType.MapTask then
    match index c.mapTasks args.TaskId with
    | none => none
    | some t =>
      if t.Status = TaskStatus.InProgress then
        some ({ c with
                mapTasks := c.mapTasks.set args.TaskId.toNat { t with Status := TaskStatus.Completed }
                mapTasksCompleted := c.mapTasksCompleted + 1 }, none)
      else some (c, none)
  else if args.TaskType = TaskType.ReduceTask then
    match index c.reduceTasks args.TaskId with
    | none => none
    | some t =>
      if t.Status = TaskStatus.InProgress then
        some ({ c with
                reduceTasks := c.reduceTasks.set args.TaskId.toNat { t with Status := TaskStatus.Completed }
                reduceTasksCompleted := c.reduceTasksCompleted + 1 }, none)
      else some (c, none)
  else some (c, none)

/-- The method `Coordinator.Done`. -/
def Done (c : Coordinator) : Bool :=
  if c.reduceTasksCompleted = c.nReduce then true else false

/-- Largest `time.Duration`. -/
def maxDuration : Int := 2 ^ 63 - 1

/-- Smallest `time.Duration`. -/
def minDuration : Int := -(2 ^ 63)

/-- The call `time.Since(start)` when the clock reads `now`: the difference,
saturated to the range of `time.Duration`. -/
def since (now start : Int) : Int :=
  max minDuration (min maxDuration (now - start))

/-- The constant `10 * time.Second` in nanoseconds. -/
def timeout : Int := 10 * 1000000000

/-- The body of one `for i := range` loop of `checkTimeouts` over a record
slice, when the clock reads `now`. -/
def sweepRecords (now : Int) : List TaskInfo → List TaskInfo
  | [] => []
  | t :: ts =>
    (if t.Status = TaskStatus.InProgress ∧ since now t.StartTime > timeout then
      { t with Status := TaskStatus.Idle }
    else t) :: sweepRecords now ts

/-- One iteration of the endless loop of `Coordinator.checkTimeouts`, between
`c.mu.Lock()` and `c.mu.Unlock()`. -/
def checkTimeouts (c : Coordinator) (now : Int) : Coordinator :=
  { c with
    mapTasks := sweepRecords now c.mapTasks
    reduceTasks := sweepRecords now c.reduceTasks }

/-- The slice `c.mapTasks` as `make` and the first loop of `MakeCoordinator`
leave it, from loop index `i` on: one map record per remaining file name. -/
def makeMapTasks (nReduce : Int) : List String → Int → List TaskInfo
  | [], _ => []
  | filename :: rest, i =>
    { Status := TaskStatus.Idle, StartTime := 0,
      Task := { Typ := TaskType.MapTask, Id := i, FileName := filename,
                NReduce := nReduce, NMap := 0 } } :: makeMapTasks nReduce rest (i + 1)

/-- The slice `c.reduceTasks` as `make` and the second loop of `MakeCoordinator`
leave it: `count` further reduce records from loop index `i` on. -/
def makeReduceTasks (nMap : Int) : Nat → Int → List TaskInfo
  | 0, _ => []
  | count + 1, i =>
    { Status := TaskStatus.Idle, StartTime := 0,
      Task := { Typ := TaskType.ReduceTask, Id := i, FileName := "",
                NReduce := 0, NMap := nMap } } :: makeReduceTasks nMap count (i + 1)

/-- The function `MakeCoordinator`, up to the start of the server and of the
sweep goroutine: `none` is the panic of `make([]TaskInfo, nReduce)` on a
negative length. -/
def MakeCoordinator (files : List String) (nReduce : Int) : Option Coordinator :=
  if nReduce < 0 then none
  else some
    { mapTasks := makeMapTasks nReduce files 0
      reduceTasks := makeReduceTasks files.length nReduce.toNat 0
      nMap := files.length
      nReduce := nReduce
      mapTasksCompleted := 0
      reduceTasksCompleted := 0 }

/-- One atomic transition of the coordinator, as seen from outside. -/
inductive Event where
  | request (now : Int)
  | report (args : ReportTaskArgs)
  | sweep (now : Int)
  deriving DecidableEq, Repr

/-- The state after one event; `none` when the event panics. -/
def step (c : Coordinator) : Event → Option Coordinator
  | Event.request now => some (RequestTask c now).1
  | Event.report args => (ReportTask c args).map Prod.fst
  | Event.sweep now => some (checkTimeouts c now)

/-- The state after a sequence of events; `none` when one of them panics. -/
def run (c : Coordinator) : List Event → Option Coordinator
  | [] => some c
  | e :: es =>
    match step c e with
    | none => none
    | some c' => run c' es

/-- The states the coordinator built from `files` and `nReduce` can be in. -/
def Reachable (files : List String) (nReduce : Int) (c : Coordinator) : Prop :=
  ∃ c0 evs, MakeCoordinator files nReduce = some c0 ∧ run c0 evs = some c

/-- Number of records with status `Completed`. -/
def countCompleted : List TaskInfo → Nat
  | [] => 0
  | t :: ts => (if t.Status = TaskStatus.Completed then 1 else 0) + countCompleted ts

/-- What one sweep pass does to a single record. -/
def sweepRecord (now : Int) (t : TaskInfo) : TaskInfo :=
  if t.Status = TaskStatus.InProgress ∧ since now t.StartTime > timeout then
    { t with Status := TaskStatus.Idle }
  else t

/-- The record written by a successful scan. -/
def claimed (now : Int) (t : TaskInfo) : TaskInfo :=
  { t with Status := TaskStatus.InProgress, StartTime := now }

/-- Index `i` holds the first `Idle` record of `l`, namely `t`. -/
def FirstIdle (l : List TaskInfo) (i : Nat) (t : TaskInfo) : Prop :=
  l[i]? = some t ∧ t.Status = TaskStatus.Idle ∧
    ∀ j t', j < i → l[j]? = some t' → t'.Status ≠ TaskStatus.Idle

/-- The record written by an accepted report. -/
def completed (t : TaskInfo) : TaskInfo :=
  { t with Status := TaskStatus.Completed }

/-- What holds of every state the coordinator built from `files` and `nReduce`
can be in. -/
structure Inv (files : List String) (nReduce : Int) (c : Coordinator) : Prop where
  nMap_eq : c.nMap = files.length
  nReduce_eq : c.nReduce = nReduce
  mapLen : c.mapTasks.length = files.length
  reduceLen : (c.reduceTasks.length : Int) = nReduce
  mapCount : c.mapTasksCompleted = countCompleted c.mapTasks
  reduceCount : c.reduceTasksCompleted = countCompleted c.reduceTasks
  mapDesc : ∀ (i : Nat) (t : TaskInfo), c.mapTasks[i]? = some t →
    t.Task.Typ = TaskType.MapTask ∧ t.Task.Id = (i : Int)
  reduceDesc : ∀ (i : Nat) (t : TaskInfo), c.reduceTasks[i]? = some t →
    t.Task.Typ = TaskType.ReduceTask ∧ t.Task.Id = (i : Int)
  barrier : c.mapTasksCompleted < c.nMap → ∀ t ∈ c.reduceTasks, t.Status = TaskStatus.Idle

/-- The completion counter that reports of kind `ty` increment. -/
def counterOf (ty : TaskType) (c : Coordinator) : Int :=
  match ty with
  | TaskType.MapTask => c.mapTasksCompleted
  | TaskType.ReduceTask => c.reduceTasksCompleted
  | _ => 0

/-- The record slice that tasks of kind `ty` live in. -/
def recordsOf (ty : TaskType) (c : Coordinator) : List TaskInfo :=
  match ty with
  | TaskType.MapTask => c.mapTasks
  | TaskType.ReduceTask => c.reduceTasks
  | _ => []

/-- Along the run of `evs` from `c`, the sum over the events that are exactly
the report `args` of the change they make to the completion counter of the
reported kind.  The run stops at the first event that panics. -/
def reportGain (args : ReportTaskArgs) (c : Coordinator) : List Event → Int
  | [] => 0
  | e :: es =>
    match step c e with
    | none => 0
    | some c' =>
      (if e = Event.report args then
        counterOf args.TaskType c' - counterOf args.TaskType c
      else 0) + reportGain args c' es

/-- The map record of the one-file job `["a.txt"]` with one reduce task. -/
def sampleMapRecord (st : TaskStatus) (start : Int) : TaskInfo :=
  { Status := st, StartTime := start,
    Task := { Typ := TaskType.MapTask, Id := 0, FileName := "a.txt", NReduce := 1, NMap := 0 } }

/-- The reduce record of the one-file job `["a.txt"]` with one reduce task. -/
def sampleReduceRecord (st : TaskStatus) (start : Int) : TaskInfo :=
  { Status := st, StartTime := start,
    Task := { Typ := TaskType.ReduceTask, Id := 0, FileName := "", NReduce := 0, NMap := 1 } }

/-- A state of the one-file job `["a.txt"]` with one reduce task. -/
def sampleState (m r : TaskInfo) (mDone rDone : Int) : Coordinator :=
  { mapTasks := [m], reduceTasks := [r], nMap := 1, nReduce := 1,
    mapTasksCompleted := mDone, reduceTasksCompleted := rDone }

/-- The one-file job right after `MakeCoordinator ["a.txt"] 1`. -/
def sampleInit : Coordinator :=
  sampleState (sampleMapRecord TaskStatus.Idle 0) (sampleReduceRecord TaskStatus.Idle 0) 0 0

/-- The one-file job after its map task was handed out at time 0 and reported. -/
def sampleMapDone : Coordinator :=
  sampleState (sampleMapRecord TaskStatus.Completed 0) (sampleReduceRecord TaskStatus.Idle 0) 1 0

/-- A crash scenario on the one-file job: the map task is handed out at time 0
and abandoned, swept after 20 s, handed out again, then reported twice. -/
def crashTrace : List Event :=
  [Event.request 0, Event.sweep 20000000000, Event.request 20000000001,
   Event.report { TaskId := 0, TaskType := TaskType.MapTask },
   Event.report { TaskId := 0, TaskType := TaskType.MapTask }]

/-- The one-file job with its map task handed out at time 0. -/
def sampleMapClaimed : Coordinator :=
  sampleState (sampleMapRecord TaskStatus.InProgress 0) (sampleReduceRecord TaskStatus.Idle 0) 0 0

/-- The one-file job with both its tasks completed. -/
def sampleAllDone : Coordinator :=
  sampleState (sampleMapRecord TaskStatus.Completed 0) (sampleReduceRecord TaskStatus.Completed 5) 1 1

/-- An event that leaves the claim of record `i` of kind `ty`, handed out at
time `t0`, in place: any request, any report of another task, and any sweep
pass that comes no later than 10 s after `t0`. -/
def leavesClaim (ty : TaskType) (i : Nat) (t0 : Int) : Event → Prop
  | Event.request _ => True
  | Event.report args => args ≠ { TaskId := (i : Int), TaskType := ty }
  | Event.sweep now => now - t0 ≤ 10 * 1000000000

/-- A job with two map tasks and one reduce task, right after
`MakeCoordinator ["a.txt", "b.txt"] 1`. -/
def sampleTwoInit : Coordinator :=
  { mapTasks :=
      [{ Status := TaskStatus.Idle, StartTime := 0,
         Task := { Typ := TaskType.MapTask, Id := 0, FileName := "a.txt", NReduce := 1, NMap := 0 } },
       { Status := TaskStatus.Idle, StartTime := 0,
         Task := { Typ := TaskType.MapTask, Id := 1, FileName := "b.txt", NReduce := 1, NMap := 0 } }]
    reduceTasks :=
      [{ Status := TaskStatus.Idle, StartTime := 0,
         Task := { Typ := TaskType.ReduceTask, Id := 0, FileName := "", NReduce := 0, NMap := 2 } }]
    nMap := 2, nReduce := 1, mapTasksCompleted := 0, reduceTasksCompleted := 0 }

/-- The two-file job after map task 0 was handed out at time 3, map task 1 at
time 4, and map task 1 was reported. -/
def sampleTwoCrashed : Coordinator :=
  { sampleTwoInit with
    mapTasks :=
      [{ Status := TaskStatus.InProgress, StartTime := 3,
         Task := { Typ := TaskType.MapTask, Id := 0, FileName := "a.txt", NReduce := 1, NMap := 0 } },
       { Status := TaskStatus.Completed, StartTime := 4,
         Task := { Typ := TaskType.MapTask, Id := 1, FileName := "b.txt", NReduce := 1, NMap := 0 } }]
    mapTasksCompleted := 1 }

/-- Events after map task 0 of the two-file job was handed out at time 3: map
task 1 is handed out at time 4 and reported, and an early sweep runs. -/
def quietEvents : List Event :=
  [Event.request 4, Event.report { TaskId := 1, TaskType := TaskType.MapTask }, Event.sweep 5]

/-- The Map and Reduce tasks returned by the `RequestTask` calls among `evs`,
run from `c`, in call order.  The run stops at the first event that panics. -/
def handouts (c : Coordinator) : List Event → List Task
  | [] => []
  | e :: es =>
    match step c e with
    | none => []
    | some c' =>
      (match e with
        | Event.request now =>
          if (RequestTask c now).2.1.Task.Typ = TaskType.MapTask ∨
              (RequestTask c now).2.1.Task.Typ = TaskType.ReduceTask then
            [(RequestTask c now).2.1.Task]
          else []
        | _ => []) ++ handouts c' es

/-- An event other than a sweep pass. -/
def notSweep : Event → Prop
  | Event.sweep _ => False
  | _ => True

/-- The data-model condition on task ids: two records that hold a task of the
same kind and the same id are the same record of the same slice. -/
def TaskIdsUnique (c : Coordinator) : Prop :=
  ∀ (ty1 ty2 : TaskType) (i j : Nat) (t u : TaskInfo),
    (recordsOf ty1 c)[i]? = some t → (recordsOf ty2 c)[j]? = some u →
    t.Task.Typ = u.Task.Typ → t.Task.Id = u.Task.Id → ty1 = ty2 ∧ i = j

/-- Some `Idle` record of `c` holds `task`. -/
def Available (c : Coordinator) (task : Task) : Prop :=
  ∃ (ty : TaskType) (i : Nat) (t : TaskInfo),
    (recordsOf ty c)[i]? = some t ∧ t.Task = task ∧ t.Status = TaskStatus.Idle

/-- Four requests with a report in between, on the two-file job. -/
def requestBurst : List Event :=
  [Event.request 1, Event.request 2, Event.request 3,
   Event.report { TaskId := 0, TaskType := TaskType.MapTask }, Event.request 4]

/-! The worker: `src/mr/worker.go`.

Modelling conventions of the worker
* The Go `string` of a key or a value is the sequence of its bytes.
* `hash/fnv`, `fmt`, `sort`, `encoding/json` and `os` are not part of the
  repository.  `fnv.New32a` is modelled by its published algorithm and `%d` by
  signed decimal.  `sort.Sort` is a parameter `sort`, of which only the
  contract is used: the result is a permutation of the argument in which no
  element is `Less` than its predecessor.  An intermediate file is seen through
  the decoder: the outcomes of the successive `Decode` calls before `io.EOF`;
  for a file written by `doMap` each outcome is the JSON round trip of a
  record, modelled by `jsonRoundTrip`.
  `os.Open` and `ioutil.ReadFile` are parameters that may fail; creating,
  writing and renaming a file succeed, and so does encoding a record.
* A worker that calls `log.Fatalf` or panics is rendered as `none`.
-/

/-- A Go `string` as the worker uses it: a sequence of bytes. -/
abbrev GoString := List (Fin 256)

/-- The struct `KeyValue` of `worker.go`. -/
structure KeyValue where
  Key : GoString
  Value : GoString
  deriving DecidableEq, Repr

/-- Go's `<` on strings: bytewise lexicographic order. -/
def stringLess : GoString → GoString → Bool
  | _, [] => false
  | [], _ :: _ => true
  | a :: as, b :: bs => if a < b then true else if a = b then stringLess as bs else false

/-- The method `ByKey.Less`, on the elements compared. -/
def Less (x y : KeyValue) : Bool :=
  stringLess x.Key y.Key

/-- The constant `offset32` of `hash/fnv`. -/
def offset32 : Nat := 2166136261

/-- The constant `prime32` of `hash/fnv`. -/
def prime32 : Nat := 16777619

/-- The method `(*sum32a).Write` of `hash/fnv` on a `uint32` state: for each
byte, xor it in, then multiply by `prime32` modulo `2^32`. -/
def sum32aWrite (hash : Nat) : List (Fin 256) → Nat
  | [] => hash
  | c :: data => sum32aWrite (((hash ^^^ c.val) * prime32) % 2 ^ 32) data

/-- The function `ihash` of `worker.go`. -/
def ihash (key : GoString) : Int :=
  ((sum32aWrite offset32 key &&& 0x7fffffff : Nat) : Int)

/-- The 32-bit FNV-1a hash as published: start from the offset basis
2166136261; for each byte, xor the byte into the hash, then multiply the hash
by the FNV prime 16777619, keeping 32 bits. -/
def fnv1a32 (bytes : List (Fin 256)) : Nat :=
  bytes.foldl (fun h b => ((h ^^^ b.val) * 16777619) % 4294967296) 2166136261

/-- The statement `intermediate[reduceIndex] = append(intermediate[reduceIndex], kv)`
of `doMap`: `none` is the index-out-of-range panic. -/
def appendAt (intermediate : List (List KeyValue)) (reduceIndex : Int) (kv : KeyValue) :
    Option (List (List KeyValue)) :=
  if 0 ≤ reduceIndex then
    match intermediate[reduceIndex.toNat]? with
    | some bucket => some (intermediate.set reduceIndex.toNat (bucket ++ [kv]))
    | none => none
  else none

/-- The loop `for _, kv := range kva` of `doMap`: `none` is a panic, either the
integer division by zero of `ihash(kv.Key) % task.NReduce` or the index out of
range.  Go's `%` truncates toward zero. -/
def partitionLoop (NReduce : Int) : List KeyValue → List (List KeyValue) →
    Option (List (List KeyValue))
  | [], intermediate => some intermediate
  | kv :: kva, intermediate =>
    if NReduce = 0 then none
    else
      match appendAt intermediate ((ihash kv.Key).tmod NReduce) kv with
      | none => none
      | some intermediate' => partitionLoop NReduce kva intermediate'

/-- The partitioning of `doMap`: `make([][]KeyValue, task.NReduce)` followed by
the loop over `kva`; `none` is a panic. -/
def partition (kva : List KeyValue) (NReduce : Int) : Option (List (List KeyValue)) :=
  if NReduce < 0 then none
  else partitionLoop NReduce kva (List.replicate NReduce.toNat [])

/-- The verb `%d` of `fmt` on a Go `int`: signed decimal. -/
def formatInt : Int → String
  | Int.ofNat n => Nat.repr n
  | Int.negSucc n => "-" ++ Nat.repr (n + 1)

/-- The call `fmt.Sprintf("mr-%d-%d", a, b)`. -/
def sprintfMr (a b : Int) : String :=
  "mr-" ++ formatInt a ++ "-" ++ formatInt b

/-- The call `fmt.Sprintf("mr-out-%d", a)`. -/
def sprintfMrOut (a : Int) : String :=
  "mr-out-" ++ formatInt a

/-- An intermediate file as `doMap` leaves it: its name after `os.Rename` and
the records encoded into it, in order. -/
structure ShardFile where
  name : String
  records : List KeyValue
  deriving DecidableEq, Repr

/-- The loop `for i := 0; i < task.NReduce; i++` of `doMap` over the buckets,
from loop index `i` on. -/
def writeShards (task : Task) : List (List KeyValue) → Int → List ShardFile
  | [], _ => []
  | bucket :: rest, i =>
    { name := sprintfMr task.Id i, records := bucket } :: writeShards task rest (i + 1)

/-- The function `doMap`: the intermediate files it leaves; `none` when the
worker dies (`log.Fatalf` on an unreadable input, or a panic). -/
def doMap (task : Task) (mapf : String → GoString → List KeyValue)
    (readFile : String → Option GoString) : Option (List ShardFile) :=
  match readFile task.FileName with
  | none => none
  | some content =>
    match partition (mapf task.FileName content) task.NReduce with
    | none => none
    | some intermediate => some (writeShards task intermediate 0)

/-- The inner loop `for { ... dec.Decode(&kv) ... }` of `doReduce` over the
outcomes of the successive `Decode` calls on one file: `some kv` is a decoded
record, `none` a record that cannot be decoded, and the end of the list is
`io.EOF`.  Any error ends the loop. -/
def decodeAll : List (Option KeyValue) → List KeyValue
  | [] => []
  | none :: _ => []
  | some kv :: rest => kv :: decodeAll rest

/-- The loop `for i := 0; i < task.NMap; i++` of `doReduce`, with `count`
iterations left from loop index `i` on: a file that cannot be opened is
skipped. -/
def readShards (task : Task) (openFile : String → Option (List (Option KeyValue))) :
    Nat → Int → List KeyValue
  | 0, _ => []
  | count + 1, i =>
    (match openFile (sprintfMr i task.Id) with
      | none => []
      | some stream => decodeAll stream) ++ readShards task openFile count (i + 1)

/-- The grouping loop `for i < len(intermediate)` of `doReduce` on the part of
the slice from `i` on: one entry per call of `reducef`, holding the key and the
values passed.  `takeWhile` is the inner loop that advances `j`; `fuel` bounds
the number of iterations. -/
def reduceCalls : Nat → List KeyValue → List (GoString × List GoString)
  | 0, _ => []
  | _ + 1, [] => []
  | fuel + 1, kv :: rest =>
    (kv.Key, kv.Value :: (rest.takeWhile (fun x => x.Key = kv.Key)).map KeyValue.Value) ::
      reduceCalls fuel (rest.dropWhile (fun x => x.Key = kv.Key))

/-- The call `fmt.Fprintf(ofile, "%v %v\n", key, output)`: key, one space,
output, newline. -/
def formatLine (key output : GoString) : GoString :=
  key ++ [32] ++ output ++ [10]

/-- The writes of `doReduce` to its output file, one per call of `reducef`. -/
def reduceOutput (reducef : GoString → List GoString → GoString) (sorted : List KeyValue) :
    List GoString :=
  (reduceCalls sorted.length sorted).map (fun p => formatLine p.1 (reducef p.1 p.2))

/-- The output file as `doReduce` leaves it: its name after `os.Rename` and the
lines written, in order. -/
structure OutputFile where
  name : String
  lines : List GoString
  deriving DecidableEq, Repr

/-- The function `doReduce`.  It has no path that ends the worker. -/
def doReduce (task : Task) (reducef : GoString → List GoString → GoString)
    (openFile : String → Option (List (Option KeyValue)))
    (sort : List KeyValue → List KeyValue) : OutputFile :=
  { name := sprintfMrOut task.Id
    lines := reduceOutput reducef (sort (readShards task openFile task.NMap.toNat 0)) }

/-- What one iteration of the loop of `Worker` does after `requestTask`. -/
inductive WorkerEffect where
  | wroteShards (files : List ShardFile)
  | wroteOutput (file : OutputFile)
  | reported (args : ReportTaskArgs)
  | slept
  | returned
  | died
  deriving DecidableEq, Repr

/-- The body of the loop of `Worker` for the task received. -/
def workerIteration (task : Task) (mapf : String → GoString → List KeyValue)
    (reducef : GoString → List GoString → GoString)
    (readFile : String → Option GoString)
    (openFile : String → Option (List (Option KeyValue)))
    (sort : List KeyValue → List KeyValue) : List WorkerEffect :=
  match task.Typ with
  | TaskType.MapTask =>
    match doMap task mapf readFile with
    | none => [WorkerEffect.died]
    | some files =>
      [WorkerEffect.wroteShards files,
       WorkerEffect.reported { TaskId := task.Id, TaskType := TaskType.MapTask }]
  | TaskType.ReduceTask =>
    [WorkerEffect.wroteOutput (doReduce task reducef openFile sort),
     WorkerEffect.reported { TaskId := task.Id, TaskType := TaskType.ReduceTask }]
  | TaskType.NoTask => [WorkerEffect.slept]
  | TaskType.ExitTask => [WorkerEffect.returned]

/-- The bytes of an ASCII text. -/
def ascii (s : String) : GoString :=
  s.data.map (fun ch => Fin.ofNat ch.toNat)

/-- A key/value pair of ASCII texts. -/
def asciiPair (key value : String) : KeyValue :=
  { Key := ascii key, Value := ascii value }

/-- The map output of the text `x y x` under word count. -/
def sampleKva : List KeyValue :=
  [asciiPair "x" "1", asciiPair "y" "1", asciiPair "x" "1"]

/-- A reduce callback that counts the values (word count). -/
def countValues (_key : GoString) (values : List GoString) : GoString :=
  ascii (Nat.repr values.length)

/-- A sorting function that meets the contract of `sort.Sort(ByKey(...))`. -/
def sortByKey (l : List KeyValue) : List KeyValue :=
  List.insertionSort (fun a b => Less b a = false) l

/-- Map task 0 of a job with two reduce tasks. -/
def sampleMapTask : Task :=
  { Typ := TaskType.MapTask, Id := 0, FileName := "a.txt", NReduce := 2, NMap := 0 }

/-- Reduce task 0 of a job with one map task. -/
def sampleReduceTask : Task :=
  { Typ := TaskType.ReduceTask, Id := 0, FileName := "", NReduce := 0, NMap := 1 }

/-- A map callback that ignores its input and emits the pairs of `x y x`. -/
def sampleMapf (_filename : String) (_content : GoString) : List KeyValue :=
  sampleKva

/-- A file system in which every input file is readable and empty. -/
def sampleReadFile (_name : String) : Option GoString :=
  some []

/-- A file system whose only intermediate file is `mr-0-0`, holding the record
`x 1`, then a record that cannot be decoded, then the record `y 1`. -/
def sampleBrokenShard (name : String) : Option (List (Option KeyValue)) :=
  if name = "mr-0-0" then some [some (asciiPair "x" "1"), none, some (asciiPair "y" "1")]
  else none

/-- The records that the decoder yields from one opened file before its first
error: the longest prefix of decodable records. -/
def decodablePrefix (stream : List (Option KeyValue)) : List KeyValue :=
  (stream.takeWhile Option.isSome).filterMap id

/-- The records `doReduce` takes from the file of a given name: none when the
file cannot be opened, else its decodable prefix. -/
def shardRecords (openFile : String → Option (List (Option KeyValue))) (name : String) :
    List KeyValue :=
  match openFile name with
  | none => []
  | some stream => decodablePrefix stream

/-- The function `sort.IsSorted` on `ByKey`: no element is `Less` than its
predecessor.  It is what `sort.Sort` establishes. -/
def IsSorted : List KeyValue → Bool
  | [] => true
  | [_] => true
  | a :: b :: rest => !Less b a && IsSorted (b :: rest)

/-! The hand-off of the intermediate files from `doMap` to `doReduce`.

`doMap` encodes every record with `json.Encoder.Encode` and `doReduce` decodes
it with `json.Decoder.Decode`.  On a Go string the two together keep every
well-formed UTF-8 sequence and replace every other byte by the three bytes of
U+FFFD; this library behaviour is modelled by `jsonRoundTrip`.  The shared
file system maps a name to the records of the file of that name, and
`os.Rename` replaces a file of the same name.
-/

/-- The byte `b` lies between `lo` and `hi`. -/
def inRange (lo hi : Nat) (b : Fin 256) : Bool :=
  decide (lo ≤ b.val) && decide (b.val ≤ hi)

/-- The table of `unicode/utf8` for the first byte of a multi-byte sequence:
the length of the sequence and the range accepted for its second byte; `none`
for a byte that starts no sequence. -/
def leadInfo (b0 : Fin 256) : Option (Nat × Nat × Nat) :=
  if inRange 0xC2 0xDF b0 then some (2, 0x80, 0xBF)
  else if b0.val = 0xE0 then some (3, 0xA0, 0xBF)
  else if inRange 0xE1 0xEC b0 then some (3, 0x80, 0xBF)
  else if b0.val = 0xED then some (3, 0x80, 0x9F)
  else if inRange 0xEE 0xEF b0 then some (3, 0x80, 0xBF)
  else if b0.val = 0xF0 then some (4, 0x90, 0xBF)
  else if inRange 0xF1 0xF3 b0 then some (4, 0x80, 0xBF)
  else if b0.val = 0xF4 then some (4, 0x80, 0x8F)
  else none

/-- The size that `utf8.DecodeRune` reports for a well-formed sequence at the
head of the string; 0 when the head byte is not the start of a well-formed
sequence (`RuneError` with size 1). -/
def runeSize : GoString → Nat
  | [] => 0
  | b0 :: rest =>
    if b0.val < 0x80 then 1
    else
      match leadInfo b0 with
      | none => 0
      | some (size, lo, hi) =>
        match rest with
        | [] => 0
        | b1 :: rest1 =>
          if inRange lo hi b1 then
            if size = 2 then 2
            else
              match rest1 with
              | [] => 0
              | b2 :: rest2 =>
                if inRange 0x80 0xBF b2 then
                  if size = 3 then 3
                  else
                    match rest2 with
                    | [] => 0
                    | b3 :: _ => if inRange 0x80 0xBF b3 then 4 else 0
                else 0
          else 0

/-- The string read back after `json.Encoder.Encode` and `json.Decoder.Decode`,
with `skip` bytes of a well-formed sequence still to be copied: a well-formed
sequence is copied, any other byte becomes U+FFFD (`EF BF BD`). -/
def roundTripFrom : Nat → GoString → GoString
  | _, [] => []
  | skip + 1, b :: rest => b :: roundTripFrom skip rest
  | 0, b :: rest =>
    match runeSize (b :: rest) with
    | 0 => [0xEF, 0xBF, 0xBD] ++ roundTripFrom 0 rest
    | size + 1 => b :: roundTripFrom size rest

/-- A Go string after it has been encoded into an intermediate file by `doMap`
and decoded from it by `doReduce`. -/
def jsonRoundTrip (s : GoString) : GoString :=
  roundTripFrom 0 s

/-- A record after the same round trip. -/
def roundTripRecord (x : KeyValue) : KeyValue :=
  { Key := jsonRoundTrip x.Key, Value := jsonRoundTrip x.Value }

/-- The shared file system: the records encoded in the file of each name. -/
abbrev FileSystem := String → Option (List KeyValue)

/-- The file system with no intermediate file. -/
def emptyFS : FileSystem :=
  fun _ => none

/-- The call `os.Rename(ofile.Name(), oname)` at the end of one iteration of the
writing loop of `doMap`: the file `f` is now what its name denotes. -/
def renameInto (fs : FileSystem) (f : ShardFile) : FileSystem :=
  fun name => if name = f.name then some f.records else fs name

/-- The map tasks `tasks` executed by workers one after another on the file
system `fs`; `none` when a worker dies in `doMap`. -/
def runMapTasks (mapf : String → GoString → List KeyValue)
    (readFile : String → Option GoString) : List Task → FileSystem → Option FileSystem
  | [], fs => some fs
  | task :: tasks, fs =>
    match doMap task mapf readFile with
    | none => none
    | some files => runMapTasks mapf readFile tasks (files.foldl renameInto fs)

/-- The calls `os.Open(iname)` and `dec.Decode(&kv)` of `doReduce` on the file
system `fs`: a file that exists opens, and each of its records decodes to its
round trip. -/
def openDecoded (fs : FileSystem) (name : String) : Option (List (Option KeyValue)) :=
  match fs name with
  | none => none
  | some records => some (records.map (fun x => some (roundTripRecord x)))

/-- The value `kva` of `doMap` for the input file `name`. -/
def mapOutput (mapf : String → GoString → List KeyValue)
    (readFile : String → Option GoString) (name : String) : List KeyValue :=
  match readFile name with
  | none => []
  | some content => mapf name content

/-- The calls of `reducef` made by `doReduce`: the grouping loop on the sorted
pairs read. -/
def doReduceCalls (task : Task) (openFile : String → Option (List (Option KeyValue)))
    (sort : List KeyValue → List KeyValue) : List (GoString × List GoString) :=
  reduceCalls (sort (readShards task openFile task.NMap.toNat 0)).length
    (sort (readShards task openFile task.NMap.toNat 0))

/-- The input files of the sample job. -/
def sampleJobFiles : List String :=
  ["a.txt", "b.txt"]

/-- Word count over the texts `x y x` in `a.txt` and `y z` in `b.txt`. -/
def sampleJobMapf (filename : String) (_content : GoString) : List KeyValue :=
  if filename = "a.txt" then sampleKva else [asciiPair "y" "1", asciiPair "z" "1"]

/-- The key `caf` followed by the byte `E9`: not well-formed UTF-8. -/
def keyE9 : GoString :=
  [99, 97, 102, 0xE9]

/-- The key `caf` followed by the byte `E8`: not well-formed UTF-8. -/
def keyE8 : GoString :=
  [99, 97, 102, 0xE8]

/-- The key `caf` followed by U+FFFD. -/
def keyFFFD : GoString :=
  [99, 97, 102, 0xEF, 0xBF, 0xBD]

/-- A map callback that emits the keys `keyE9` and `keyE8`, once each. -/
def latin1Mapf (_filename : String) (_content : GoString) : List KeyValue :=
  [{ Key := keyE9, Value := ascii "1" }, { Key := keyE8, Value := ascii "1" }]

/-- The coordinator of the job over `a.txt` with two reduce tasks. -/
def latin1Job : Coordinator :=
  { mapTasks := makeMapTasks 2 ["a.txt"] 0
    reduceTasks := makeReduceTasks 1 2 0
    nMap := 1, nReduce := 2, mapTasksCompleted := 0, reduceTasksCompleted := 0 }

/-- The coordinator of the sample job: `a.txt` and `b.txt` with two reduce
tasks. -/
def sampleJob : Coordinator :=
  { mapTasks := makeMapTasks 2 sampleJobFiles 0
    reduceTasks := makeReduceTasks 2 2 0
    nMap := 2, nReduce := 2, mapTasksCompleted := 0, reduceTasksCompleted := 0 }

/-! Lemmas on record slices -/

theorem countCompleted_le (l : List TaskInfo) : countCompleted l ≤ l.length := by
  induction l with
  | nil => simp [countCompleted]
  | cons t ts ih =>
    simp only [countCompleted, List.length_cons]
    split <;> omega

theorem countCompleted_eq_length {l : List TaskInfo} (h : countCompleted l = l.length) :
    ∀ t ∈ l, t.Status = TaskStatus.Completed := by
  induction l with
  | nil => simp
  | cons t ts ih =>
    simp only [countCompleted, List.length_cons] at h
    have hle := countCompleted_le ts
    intro x hx
    rcases List.mem_cons.mp hx with rfl | hx
    · by_contra hne
      rw [if_neg hne] at h
      omega
    · apply ih _ x hx
      split at h <;> omega

theorem countCompleted_of_all {l : List TaskInfo}
    (h : ∀ t ∈ l, t.Status = TaskStatus.Completed) : countCompleted l = l.length := by
  induction l with
  | nil => simp [countCompleted]
  | cons t ts ih =>
    simp only [countCompleted, List.length_cons]
    rw [if_pos (h t (List.mem_cons_self _ _)), ih (fun x hx => h x (List.mem_cons_of_mem _ hx))]
    omega

theorem countCompleted_of_none {l : List TaskInfo}
    (h : ∀ t ∈ l, t.Status ≠ TaskStatus.Completed) : countCompleted l = 0 := by
  induction l with
  | nil => simp [countCompleted]
  | cons t ts ih =>
    simp only [countCompleted]
    rw [if_neg (h t (List.mem_cons_self _ _)), ih (fun x hx => h x (List.mem_cons_of_mem _ hx))]

theorem countCompleted_lt_of_get {l : List TaskInfo} {i : Nat} {t : TaskInfo}
    (hi : l[i]? = some t) (ht : t.Status ≠ TaskStatus.Completed) :
    countCompleted l < l.length := by
  have hle := countCompleted_le l
  by_contra hlt
  have heq : countCompleted l = l.length := by omega
  exact ht (countCompleted_eq_length heq t (List.getElem?_mem hi))

/-- Replacing record `i` changes the number of completed records by the
difference of the two records. -/
theorem countCompleted_set {l : List TaskInfo} {i : Nat} {t : TaskInfo} (t' : TaskInfo)
    (hi : l[i]? = some t) :
    countCompleted (l.set i t') + (if t.Status = TaskStatus.Completed then 1 else 0)
      = countCompleted l + (if t'.Status = TaskStatus.Completed then 1 else 0) := by
  induction l generalizing i with
  | nil => simp at hi
  | cons x xs ih =>
    cases i with
    | zero =>
      simp only [List.getElem?_cons_zero, Option.some.injEq] at hi
      subst hi
      simp only [List.set_cons_zero, countCompleted]
      omega
    | succ n =>
      simp only [List.getElem?_cons_succ] at hi
      have := ih hi
      simp only [List.set_cons_succ, countCompleted]
      omega

theorem map_task_set {l : List TaskInfo} {i : Nat} {t : TaskInfo} (t' : TaskInfo)
    (hi : l[i]? = some t) (ht : t'.Task = t.Task) :
    (l.set i t').map TaskInfo.Task = l.map TaskInfo.Task := by
  induction l generalizing i with
  | nil => simp
  | cons x xs ih =>
    cases i with
    | zero =>
      simp only [List.getElem?_cons_zero, Option.some.injEq] at hi
      subst hi
      simp [ht]
    | succ n =>
      simp only [List.getElem?_cons_succ] at hi
      simp [ih hi]

/-- Two slices with the same descriptors hold the same descriptor at each index. -/
theorem task_of_map_task_eq {l l' : List TaskInfo}
    (h : l'.map TaskInfo.Task = l.map TaskInfo.Task) {i : Nat} {t' : TaskInfo}
    (hi : l'[i]? = some t') : ∃ t, l[i]? = some t ∧ t.Task = t'.Task := by
  have h1 : (l'.map TaskInfo.Task)[i]? = some t'.Task := by simp [hi]
  rw [h] at h1
  simp only [List.getElem?_map, Option.map_eq_some'] at h1
  exact h1

theorem length_of_map_task_eq {l l' : List TaskInfo}
    (h : l'.map TaskInfo.Task = l.map TaskInfo.Task) : l'.length = l.length := by
  simpa using congrArg List.length h

/-! The scan of `RequestTask` -/

theorem assignIdle_eq_none {now : Int} {l : List TaskInfo} :
    assignIdle now l = none ↔ ∀ t ∈ l, t.Status ≠ TaskStatus.Idle := by
  induction l with
  | nil => simp [assignIdle]
  | cons t ts ih =>
    simp only [assignIdle, List.mem_cons, forall_eq_or_imp]
    by_cases h : t.Status = TaskStatus.Idle
    · simp [h]
    · rw [if_neg h]
      cases hrec : assignIdle now ts with
      | none => simpa [h] using ih.mp hrec
      | some p =>
        constructor
        · intro hh
          exact absurd hh (by simp)
        · intro hall
          rw [ih.mpr hall.2] at hrec
          exact absurd hrec (by simp)

/-- A successful scan picks the lowest index holding an `Idle` record, returns
that record's task, and rewrites that record alone. -/
theorem assignIdle_eq_some {now : Int} {l l' : List TaskInfo} {task : Task}
    (h : assignIdle now l = some (l', task)) :
    ∃ i t, l[i]? = some t ∧ t.Status = TaskStatus.Idle ∧
      (∀ j t', j < i → l[j]? = some t' → t'.Status ≠ TaskStatus.Idle) ∧
      task = t.Task ∧
      l' = l.set i { t with Status := TaskStatus.InProgress, StartTime := now } := by
  induction l generalizing l' task with
  | nil => simp [assignIdle] at h
  | cons x xs ih =>
    simp only [assignIdle] at h
    by_cases hx : x.Status = TaskStatus.Idle
    · rw [if_pos hx] at h
      simp only [Option.some.injEq, Prod.mk.injEq] at h
      refine ⟨0, x, by simp, hx, ?_, h.2.symm, ?_⟩
      · intro j t' hj; omega
      · simp [← h.1]
    · rw [if_neg hx] at h
      cases hrec : assignIdle now xs with
      | none => simp [hrec] at h
      | some p =>
        obtain ⟨ts', tk⟩ := p
        simp only [hrec, Option.some.injEq, Prod.mk.injEq] at h
        obtain ⟨i, t, hi, hst, hlow, htask, hset⟩ := ih hrec
        refine ⟨i + 1, t, by simpa using hi, hst, ?_, by rw [← h.2]; exact htask, ?_⟩
        · intro j t' hj hjt
          cases j with
          | zero =>
            simp only [List.getElem?_cons_zero, Option.some.injEq] at hjt
            subst hjt
            exact hx
          | succ k =>
            simp only [List.getElem?_cons_succ] at hjt
            exact hlow k t' (by omega) hjt
        · simp [← h.1, hset]

/-! The timeout sweep -/

theorem sweepRecords_eq_map (now : Int) (l : List TaskInfo) :
    sweepRecords now l = l.map (sweepRecord now) := by
  induction l with
  | nil => rfl
  | cons t ts ih => simp [sweepRecords, sweepRecord, ih]

theorem since_gt_timeout (now start : Int) :
    since now start > timeout ↔ now - start > 10 * 1000000000 := by
  unfold since timeout maxDuration minDuration
  constructor
  · intro h
    rcases le_total ((2:Int) ^ 63 - 1) (now - start) with h1 | h1
    · norm_num at h1 ⊢
      omega
    · rw [min_eq_right h1] at h
      rcases le_total (-(2:Int) ^ 63) (now - start) with h2 | h2
      · rw [max_eq_right h2] at h
        exact h
      · rw [max_eq_left h2] at h
        norm_num at h
  · intro h
    have h3 : (10 : Int) * 1000000000 < min (2 ^ 63 - 1) (now - start) := by
      apply lt_min
      · norm_num
      · exact h
    exact lt_of_lt_of_le h3 (le_max_right _ _)

theorem sweepRecord_task (now : Int) (t : TaskInfo) : (sweepRecord now t).Task = t.Task := by
  unfold sweepRecord; split <;> rfl

theorem sweepRecord_startTime (now : Int) (t : TaskInfo) :
    (sweepRecord now t).StartTime = t.StartTime := by
  unfold sweepRecord; split <;> rfl

theorem sweepRecord_completed (now : Int) (t : TaskInfo) :
    (sweepRecord now t).Status = TaskStatus.Completed ↔ t.Status = TaskStatus.Completed := by
  unfold sweepRecord
  split
  · rename_i h
    simp [h.1]
  · rfl

theorem sweepRecord_of_completed {now : Int} {t : TaskInfo}
    (h : t.Status = TaskStatus.Completed) : sweepRecord now t = t := by
  unfold sweepRecord
  rw [if_neg]
  simp [h]

theorem sweepRecord_of_idle {now : Int} {t : TaskInfo}
    (h : t.Status = TaskStatus.Idle) : sweepRecord now t = t := by
  unfold sweepRecord
  rw [if_neg]
  simp [h]

theorem sweepRecords_map_task (now : Int) (l : List TaskInfo) :
    (sweepRecords now l).map TaskInfo.Task = l.map TaskInfo.Task := by
  rw [sweepRecords_eq_map]
  simp [Function.comp_def, sweepRecord_task]

theorem sweepRecords_get (now : Int) (l : List TaskInfo) (i : Nat) :
    (sweepRecords now l)[i]? = (l[i]?).map (sweepRecord now) := by
  rw [sweepRecords_eq_map]
  simp

theorem countCompleted_sweepRecords (now : Int) (l : List TaskInfo) :
    countCompleted (sweepRecords now l) = countCompleted l := by
  induction l with
  | nil => rfl
  | cons t ts ih =>
    have h := sweepRecord_completed now t
    simp only [sweepRecords, countCompleted, ih]
    simp only [sweepRecord] at h
    by_cases hc : t.Status = TaskStatus.Completed
    · rw [if_pos hc, if_pos (h.mpr hc)]
    · rw [if_neg hc, if_neg (fun hh => hc (h.mp hh))]

/-! Case analysis of the two RPC handlers -/

theorem firstIdle_unique {l : List TaskInfo} {i j : Nat} {t u : TaskInfo}
    (h1 : FirstIdle l i t) (h2 : FirstIdle l j u) : i = j ∧ t = u := by
  have hij : i = j := by
    rcases Nat.lt_trichotomy i j with h | h | h
    · exact absurd h1.2.1 (h2.2.2 i t h h1.1)
    · exact h
    · exact absurd h2.2.1 (h1.2.2 j u h h2.1)
  subst hij
  have := h1.1.symm.trans h2.1
  simp only [Option.some.injEq] at this
  exact ⟨rfl, this⟩

theorem assignIdle_of_firstIdle {now : Int} {l : List TaskInfo} {i : Nat} {t : TaskInfo}
    (h : FirstIdle l i t) :
    assignIdle now l = some (l.set i (claimed now t), t.Task) := by
  cases hres : assignIdle now l with
  | none =>
    exact absurd h.2.1 (assignIdle_eq_none.mp hres t (List.getElem?_mem h.1))
  | some p =>
    obtain ⟨l', task⟩ := p
    obtain ⟨j, u, hj, hu, hlow, htask, hset⟩ := assignIdle_eq_some hres
    obtain ⟨hij, htu⟩ := firstIdle_unique h ⟨hj, hu, hlow⟩
    subst hij; subst htu
    rw [htask, hset]
    rfl

/-- The five ways through `RequestTask`. -/
theorem RequestTask_cases (c : Coordinator) (now : Int) :
    (c.mapTasksCompleted < c.nMap ∧ ∃ i t, FirstIdle c.mapTasks i t ∧
      RequestTask c now =
        ({ c with mapTasks := c.mapTasks.set i (claimed now t) }, { Task := t.Task }, none)) ∨
    (c.mapTasksCompleted < c.nMap ∧ (∀ t ∈ c.mapTasks, t.Status ≠ TaskStatus.Idle) ∧
      RequestTask c now = (c, { Task := taskOfType TaskType.NoTask }, none)) ∨
    (¬ c.mapTasksCompleted < c.nMap ∧ c.reduceTasksCompleted < c.nReduce ∧
      ∃ i t, FirstIdle c.reduceTasks i t ∧
      RequestTask c now =
        ({ c with reduceTasks := c.reduceTasks.set i (claimed now t) }, { Task := t.Task }, none)) ∨
    (¬ c.mapTasksCompleted < c.nMap ∧ c.reduceTasksCompleted < c.nReduce ∧
      (∀ t ∈ c.reduceTasks, t.Status ≠ TaskStatus.Idle) ∧
      RequestTask c now = (c, { Task := taskOfType TaskType.NoTask }, none)) ∨
    (¬ c.mapTasksCompleted < c.nMap ∧ ¬ c.reduceTasksCompleted < c.nReduce ∧
      RequestTask c now = (c, { Task := taskOfType TaskType.ExitTask }, none)) := by
  by_cases hm : c.mapTasksCompleted < c.nMap
  · cases hres : assignIdle now c.mapTasks with
    | none =>
      right; left
      refine ⟨hm, assignIdle_eq_none.mp hres, ?_⟩
      simp [RequestTask, hm, hres]
    | some p =>
      obtain ⟨l', task⟩ := p
      obtain ⟨i, t, hi, hst, hlow, htask, hset⟩ := assignIdle_eq_some hres
      left
      refine ⟨hm, i, t, ⟨hi, hst, hlow⟩, ?_⟩
      simp [RequestTask, hm, hres, htask, hset, claimed]
  · by_cases hr : c.reduceTasksCompleted < c.nReduce
    · cases hres : assignIdle now c.reduceTasks with
      | none =>
        right; right; right; left
        refine ⟨hm, hr, assignIdle_eq_none.mp hres, ?_⟩
        simp [RequestTask, hm, hr, hres]
      | some p =>
        obtain ⟨l', task⟩ := p
        obtain ⟨i, t, hi, hst, hlow, htask, hset⟩ := assignIdle_eq_some hres
        right; right; left
        refine ⟨hm, hr, i, t, ⟨hi, hst, hlow⟩, ?_⟩
        simp [RequestTask, hm, hr, hres, htask, hset, claimed]
    · right; right; right; right
      refine ⟨hm, hr, ?_⟩
      simp [RequestTask, hm, hr]

theorem index_eq_some {l : List TaskInfo} {i : Int} {t : TaskInfo} :
    index l i = some t ↔ 0 ≤ i ∧ l[i.toNat]? = some t := by
  unfold index
  by_cases h : 0 ≤ i <;> simp [h]

theorem index_isSome {l : List TaskInfo} {i : Int} :
    (index l i).isSome = true ↔ 0 ≤ i ∧ i < l.length := by
  unfold index
  by_cases h : 0 ≤ i
  · rw [if_pos h]
    constructor
    · intro hs
      obtain ⟨t, ht⟩ := Option.isSome_iff_exists.mp hs
      obtain ⟨hlt, -⟩ := List.getElem?_eq_some.mp ht
      exact ⟨h, by omega⟩
    · intro hs
      have hlt : i.toNat < l.length := by omega
      simp [List.getElem?_eq_getElem hlt]
  · simp [h]

/-- The ways through `ReportTask` that do not panic. -/
theorem ReportTask_cases {c c' : Coordinator} {args : ReportTaskArgs} {e : error}
    (h : ReportTask c args = some (c', e)) :
    e = none ∧
    ((args.TaskType = TaskType.MapTask ∧ ∃ t, index c.mapTasks args.TaskId = some t ∧
        t.Status = TaskStatus.InProgress ∧
        c' = { c with mapTasks := c.mapTasks.set args.TaskId.toNat (completed t)
                      mapTasksCompleted := c.mapTasksCompleted + 1 }) ∨
     (args.TaskType = TaskType.ReduceTask ∧ ∃ t, index c.reduceTasks args.TaskId = some t ∧
        t.Status = TaskStatus.InProgress ∧
        c' = { c with reduceTasks := c.reduceTasks.set args.TaskId.toNat (completed t)
                      reduceTasksCompleted := c.reduceTasksCompleted + 1 }) ∨
     c' = c) := by
  unfold ReportTask at h
  by_cases hm : args.TaskType = TaskType.MapTask
  · rw [if_pos hm] at h
    cases hidx : index c.mapTasks args.TaskId with
    | none => simp [hidx] at h
    | some t =>
      simp only [hidx] at h
      by_cases hst : t.Status = TaskStatus.InProgress
      · rw [if_pos hst] at h
        simp only [Option.some.injEq, Prod.mk.injEq] at h
        exact ⟨h.2.symm, Or.inl ⟨hm, t, rfl, hst, h.1.symm⟩⟩
      · rw [if_neg hst] at h
        simp only [Option.some.injEq, Prod.mk.injEq] at h
        exact ⟨h.2.symm, Or.inr (Or.inr h.1.symm)⟩
  · rw [if_neg hm] at h
    by_cases hr : args.TaskType = TaskType.ReduceTask
    · rw [if_pos hr] at h
      cases hidx : index c.reduceTasks args.TaskId with
      | none => simp [hidx] at h
      | some t =>
        simp only [hidx] at h
        by_cases hst : t.Status = TaskStatus.InProgress
        · rw [if_pos hst] at h
          simp only [Option.some.injEq, Prod.mk.injEq] at h
          exact ⟨h.2.symm, Or.inr (Or.inl ⟨hr, t, rfl, hst, h.1.symm⟩)⟩
        · rw [if_neg hst] at h
          simp only [Option.some.injEq, Prod.mk.injEq] at h
          exact ⟨h.2.symm, Or.inr (Or.inr h.1.symm)⟩
    · rw [if_neg hr] at h
      simp only [Option.some.injEq, Prod.mk.injEq] at h
      exact ⟨h.2.symm, Or.inr (Or.inr h.1.symm)⟩

/-! The invariant of the reachable states -/

theorem makeMapTasks_length (nReduce : Int) (files : List String) (k : Int) :
    (makeMapTasks nReduce files k).length = files.length := by
  induction files generalizing k with
  | nil => rfl
  | cons f fs ih => simp [makeMapTasks, ih]

theorem makeMapTasks_get {nReduce : Int} {files : List String} {k : Int} {i : Nat}
    {t : TaskInfo} (h : (makeMapTasks nReduce files k)[i]? = some t) :
    t.Status = TaskStatus.Idle ∧ t.Task.Typ = TaskType.MapTask ∧ t.Task.Id = k + i := by
  induction files generalizing k i with
  | nil => simp [makeMapTasks] at h
  | cons f fs ih =>
    cases i with
    | zero =>
      simp only [makeMapTasks, List.getElem?_cons_zero, Option.some.injEq] at h
      subst h
      simp
    | succ n =>
      simp only [makeMapTasks, List.getElem?_cons_succ] at h
      obtain ⟨h1, h2, h3⟩ := ih h
      refine ⟨h1, h2, ?_⟩
      rw [h3]; push_cast; ring

theorem makeReduceTasks_length (nMap : Int) (count : Nat) (k : Int) :
    (makeReduceTasks nMap count k).length = count := by
  induction count generalizing k with
  | zero => rfl
  | succ n ih => simp [makeReduceTasks, ih]

theorem makeReduceTasks_get {nMap : Int} {count : Nat} {k : Int} {i : Nat}
    {t : TaskInfo} (h : (makeReduceTasks nMap count k)[i]? = some t) :
    t.Status = TaskStatus.Idle ∧ t.Task.Typ = TaskType.ReduceTask ∧ t.Task.Id = k + i := by
  induction count generalizing k i with
  | zero => simp [makeReduceTasks] at h
  | succ n ih =>
    cases i with
    | zero =>
      simp only [makeReduceTasks, List.getElem?_cons_zero, Option.some.injEq] at h
      subst h
      simp
    | succ m =>
      simp only [makeReduceTasks, List.getElem?_cons_succ] at h
      obtain ⟨h1, h2, h3⟩ := ih h
      refine ⟨h1, h2, ?_⟩
      rw [h3]; push_cast; ring

theorem status_of_mem_makeMapTasks {nReduce : Int} {files : List String} {k : Int}
    {t : TaskInfo} (h : t ∈ makeMapTasks nReduce files k) : t.Status = TaskStatus.Idle := by
  obtain ⟨n, hn⟩ := List.getElem?_of_mem h
  exact (makeMapTasks_get hn).1

theorem status_of_mem_makeReduceTasks {nMap : Int} {count : Nat} {k : Int}
    {t : TaskInfo} (h : t ∈ makeReduceTasks nMap count k) : t.Status = TaskStatus.Idle := by
  obtain ⟨n, hn⟩ := List.getElem?_of_mem h
  exact (makeReduceTasks_get hn).1

theorem inv_init {files : List String} {nReduce : Int} {c : Coordinator}
    (h : MakeCoordinator files nReduce = some c) : Inv files nReduce c := by
  unfold MakeCoordinator at h
  by_cases hn : nReduce < 0
  · simp [hn] at h
  · rw [if_neg hn] at h
    simp only [Option.some.injEq] at h
    subst h
    refine ⟨rfl, rfl, makeMapTasks_length _ _ _, ?_, ?_, ?_, ?_, ?_, ?_⟩
    · simp only [makeReduceTasks_length]
      omega
    · simp only
      rw [countCompleted_of_none]
      · rfl
      · intro t ht
        rw [status_of_mem_makeMapTasks ht]
        decide
    · simp only
      rw [countCompleted_of_none]
      · rfl
      · intro t ht
        rw [status_of_mem_makeReduceTasks ht]
        decide
    · intro i t ht
      obtain ⟨-, h2, h3⟩ := makeMapTasks_get ht
      exact ⟨h2, by rw [h3]; ring⟩
    · intro i t ht
      obtain ⟨-, h2, h3⟩ := makeReduceTasks_get ht
      exact ⟨h2, by rw [h3]; ring⟩
    · intro _ t ht
      exact status_of_mem_makeReduceTasks ht

/-- The kind and id of the descriptor at each index carry over to any slice
with the same descriptors. -/
theorem desc_transfer {l l' : List TaskInfo} {ty : TaskType}
    (h : l'.map TaskInfo.Task = l.map TaskInfo.Task)
    (hd : ∀ (i : Nat) (t : TaskInfo), l[i]? = some t → t.Task.Typ = ty ∧ t.Task.Id = (i : Int)) :
    ∀ (i : Nat) (t : TaskInfo), l'[i]? = some t → t.Task.Typ = ty ∧ t.Task.Id = (i : Int) := by
  intro i t' ht'
  obtain ⟨t, ht, heq⟩ := task_of_map_task_eq h ht'
  rw [← heq]
  exact hd i t ht

theorem claimed_task (now : Int) (t : TaskInfo) : (claimed now t).Task = t.Task := rfl

theorem completed_task (t : TaskInfo) : (completed t).Task = t.Task := rfl

theorem inv_request {files : List String} {nReduce : Int} {c : Coordinator}
    (hinv : Inv files nReduce c) (now : Int) : Inv files nReduce (RequestTask c now).1 := by
  rcases RequestTask_cases c now with
    ⟨hm, i, t, hfi, heq⟩ | ⟨hm, -, heq⟩ | ⟨hm, hr, i, t, hfi, heq⟩ | ⟨hm, hr, -, heq⟩ | ⟨hm, hr, heq⟩
  · rw [heq]
    have hmap := map_task_set (claimed now t) hfi.1 (claimed_task now t)
    have hcnt := countCompleted_set (claimed now t) hfi.1
    have h1 : t.Status ≠ TaskStatus.Completed := by rw [hfi.2.1]; decide
    have h2 : (claimed now t).Status ≠ TaskStatus.Completed := by simp [claimed]
    rw [if_neg h1, if_neg h2] at hcnt
    refine ⟨hinv.nMap_eq, hinv.nReduce_eq, ?_, hinv.reduceLen, ?_, hinv.reduceCount, ?_,
      hinv.reduceDesc, hinv.barrier⟩
    · simpa using hinv.mapLen
    · simp only
      rw [hinv.mapCount]
      omega
    · exact desc_transfer hmap hinv.mapDesc
  · rw [heq]; exact hinv
  · rw [heq]
    have hmap := map_task_set (claimed now t) hfi.1 (claimed_task now t)
    have hcnt := countCompleted_set (claimed now t) hfi.1
    have h1 : t.Status ≠ TaskStatus.Completed := by rw [hfi.2.1]; decide
    have h2 : (claimed now t).Status ≠ TaskStatus.Completed := by simp [claimed]
    rw [if_neg h1, if_neg h2] at hcnt
    refine ⟨hinv.nMap_eq, hinv.nReduce_eq, hinv.mapLen, ?_, hinv.mapCount, ?_, hinv.mapDesc,
      ?_, ?_⟩
    · simpa using hinv.reduceLen
    · simp only
      rw [hinv.reduceCount]
      omega
    · exact desc_transfer hmap hinv.reduceDesc
    · intro hlt
      exact absurd hlt hm
  · rw [heq]; exact hinv
  · rw [heq]; exact hinv

theorem inv_report {files : List String} {nReduce : Int} {c c' : Coordinator}
    {args : ReportTaskArgs} {e : error}
    (hinv : Inv files nReduce c) (h : ReportTask c args = some (c', e)) :
    Inv files nReduce c' := by
  obtain ⟨-, ⟨-, t, hidx, hst, heq⟩ | ⟨-, t, hidx, hst, heq⟩ | heq⟩ := ReportTask_cases h
  · obtain ⟨-, hget⟩ := index_eq_some.mp hidx
    have hmap := map_task_set (completed t) hget (completed_task t)
    have hcnt := countCompleted_set (completed t) hget
    have h1 : t.Status ≠ TaskStatus.Completed := by rw [hst]; decide
    have h2 : (completed t).Status = TaskStatus.Completed := rfl
    rw [if_neg h1, if_pos h2] at hcnt
    subst heq
    refine ⟨hinv.nMap_eq, hinv.nReduce_eq, ?_, hinv.reduceLen, ?_, hinv.reduceCount, ?_,
      hinv.reduceDesc, ?_⟩
    · simpa using hinv.mapLen
    · simp only
      rw [hinv.mapCount]
      omega
    · exact desc_transfer hmap hinv.mapDesc
    · intro hlt
      apply hinv.barrier
      simp only at hlt
      omega
  · obtain ⟨-, hget⟩ := index_eq_some.mp hidx
    have hmap := map_task_set (completed t) hget (completed_task t)
    have hcnt := countCompleted_set (completed t) hget
    have h1 : t.Status ≠ TaskStatus.Completed := by rw [hst]; decide
    have h2 : (completed t).Status = TaskStatus.Completed := rfl
    rw [if_neg h1, if_pos h2] at hcnt
    have hdone : ¬ c.mapTasksCompleted < c.nMap := by
      intro hlt
      have := hinv.barrier hlt t (List.getElem?_mem hget)
      rw [hst] at this
      exact absurd this (by decide)
    subst heq
    refine ⟨hinv.nMap_eq, hinv.nReduce_eq, hinv.mapLen, ?_, hinv.mapCount, ?_, hinv.mapDesc,
      ?_, ?_⟩
    · simpa using hinv.reduceLen
    · simp only
      rw [hinv.reduceCount]
      omega
    · exact desc_transfer hmap hinv.reduceDesc
    · intro hlt
      exact absurd hlt hdone
  · rw [heq]; exact hinv

theorem inv_sweep {files : List String} {nReduce : Int} {c : Coordinator}
    (hinv : Inv files nReduce c) (now : Int) : Inv files nReduce (checkTimeouts c now) := by
  refine ⟨hinv.nMap_eq, hinv.nReduce_eq, ?_, ?_, ?_, ?_, ?_, ?_, ?_⟩
  · simp only [checkTimeouts]
    rw [← length_of_map_task_eq (sweepRecords_map_task now c.mapTasks).symm]
    exact hinv.mapLen
  · simp only [checkTimeouts]
    rw [← length_of_map_task_eq (sweepRecords_map_task now c.reduceTasks).symm]
    exact hinv.reduceLen
  · simp only [checkTimeouts, countCompleted_sweepRecords]
    exact hinv.mapCount
  · simp only [checkTimeouts, countCompleted_sweepRecords]
    exact hinv.reduceCount
  · exact desc_transfer (sweepRecords_map_task now c.mapTasks) hinv.mapDesc
  · exact desc_transfer (sweepRecords_map_task now c.reduceTasks) hinv.reduceDesc
  · intro hlt t ht
    simp only [checkTimeouts, sweepRecords_eq_map, List.mem_map] at ht
    obtain ⟨u, hu, rfl⟩ := ht
    have hidle := hinv.barrier hlt u hu
    rw [sweepRecord_of_idle hidle]
    exact hidle

theorem inv_step {files : List String} {nReduce : Int} {c c' : Coordinator} {e : Event}
    (hinv : Inv files nReduce c) (h : step c e = some c') : Inv files nReduce c' := by
  cases e with
  | request now =>
    simp only [MapReduce.step, Option.some.injEq] at h
    rw [← h]; exact inv_request hinv now
  | report args =>
    simp only [MapReduce.step, Option.map_eq_some'] at h
    obtain ⟨⟨c1, e⟩, hr, rfl⟩ := h
    exact inv_report hinv hr
  | sweep now =>
    simp only [MapReduce.step, Option.some.injEq] at h
    rw [← h]; exact inv_sweep hinv now

theorem inv_run {files : List String} {nReduce : Int} {c c' : Coordinator} {evs : List Event}
    (hinv : Inv files nReduce c) (h : run c evs = some c') : Inv files nReduce c' := by
  induction evs generalizing c with
  | nil =>
    simp only [MapReduce.run, Option.some.injEq] at h
    rw [← h]; exact hinv
  | cons e es ih =>
    simp only [MapReduce.run] at h
    cases hs : MapReduce.step c e with
    | none => simp [hs] at h
    | some c1 =>
      simp only [hs] at h
      exact ih (inv_step hinv hs) h

theorem inv_of_reachable {files : List String} {nReduce : Int} {c : Coordinator}
    (h : Reachable files nReduce c) : Inv files nReduce c := by
  obtain ⟨c0, evs, h0, hrun⟩ := h
  exact inv_run (inv_init h0) hrun

theorem run_append {c c1 c2 : Coordinator} {es1 es2 : List Event}
    (h1 : run c es1 = some c1) (h2 : run c1 es2 = some c2) : run c (es1 ++ es2) = some c2 := by
  induction es1 generalizing c with
  | nil =>
    simp only [run, Option.some.injEq] at h1
    subst h1
    simpa using h2
  | cons e es ih =>
    simp only [run, List.cons_append] at h1 ⊢
    cases hs : step c e with
    | none => simp [hs] at h1
    | some c' =>
      simp only [hs] at h1 ⊢
      exact ih h1

theorem reachable_run {files : List String} {nReduce : Int} {c c' : Coordinator}
    {evs : List Event} (h : Reachable files nReduce c) (hrun : run c evs = some c') :
    Reachable files nReduce c' := by
  obtain ⟨c0, es, h0, h1⟩ := h
  exact ⟨c0, es ++ evs, h0, run_append h1 hrun⟩

theorem countCompleted_eq_filter (l : List TaskInfo) :
    countCompleted l = (l.filter (fun t => t.Status = TaskStatus.Completed)).length := by
  induction l with
  | nil => rfl
  | cons t ts ih =>
    by_cases h : t.Status = TaskStatus.Completed
    · simp [countCompleted, h, ih]; omega
    · simp [countCompleted, h, ih]

theorem sampleInit_make : MakeCoordinator ["a.txt"] 1 = some sampleInit := by
  decide

theorem sampleMapDone_reachable : Reachable ["a.txt"] 1 sampleMapDone :=
  ⟨sampleInit, [Event.request 0, Event.report { TaskId := 0, TaskType := TaskType.MapTask }],
    sampleInit_make, by decide⟩

/-! What one step does to one record -/

theorem set_get_cases {l : List TaskInfo} {i : Nat} {t : TaskInfo} (j : Nat) (u : TaskInfo)
    (hi : l[i]? = some t) :
    (j ≠ i ∧ (l.set j u)[i]? = some t) ∨ (j = i ∧ (l.set j u)[i]? = some u) := by
  by_cases h : j = i
  · right
    subst h
    obtain ⟨hlt, -⟩ := List.getElem?_eq_some.mp hi
    exact ⟨rfl, List.getElem?_set_self hlt⟩
  · left
    exact ⟨h, by rw [List.getElem?_set_ne h]; exact hi⟩

theorem step_lengths {c c' : Coordinator} {e : Event} (hs : step c e = some c') :
    c'.mapTasks.length = c.mapTasks.length ∧ c'.reduceTasks.length = c.reduceTasks.length := by
  cases e with
  | request now =>
    simp only [step, Option.some.injEq] at hs
    subst hs
    rcases RequestTask_cases c now with
      ⟨-, i, t, -, heq⟩ | ⟨-, -, heq⟩ | ⟨-, -, i, t, -, heq⟩ | ⟨-, -, -, heq⟩ | ⟨-, -, heq⟩ <;>
    · rw [heq]
      simp
  | report args =>
    simp only [step, Option.map_eq_some'] at hs
    obtain ⟨⟨c1, er⟩, hr, rfl⟩ := hs
    obtain ⟨-, ⟨-, t, -, -, heq⟩ | ⟨-, t, -, -, heq⟩ | heq⟩ := ReportTask_cases hr <;>
    · rw [heq]
      simp
  | sweep now =>
    simp only [step, Option.some.injEq] at hs
    subst hs
    simp [checkTimeouts, sweepRecords_eq_map]

/-- The effect of one step on the record at index `i` of the slice of kind
`ty`: it is left alone, or claimed by a request while `Idle`, or completed by
the report naming it while `InProgress`, or reverted by a sweep while
`InProgress` past the timeout. -/
theorem step_record {ty : TaskType} {c c' : Coordinator} {e : Event} {i : Nat} {t : TaskInfo}
    (hi : (recordsOf ty c)[i]? = some t) (hs : step c e = some c') :
    (recordsOf ty c')[i]? = some t ∨
    (∃ now, e = Event.request now ∧ t.Status = TaskStatus.Idle ∧
      (recordsOf ty c')[i]? = some (claimed now t)) ∨
    (e = Event.report { TaskId := (i : Int), TaskType := ty } ∧
      t.Status = TaskStatus.InProgress ∧ (recordsOf ty c')[i]? = some (completed t)) ∨
    (∃ now, e = Event.sweep now ∧ t.Status = TaskStatus.InProgress ∧
      since now t.StartTime > timeout ∧
      (recordsOf ty c')[i]? = some { t with Status := TaskStatus.Idle }) := by
  cases e with
  | request now =>
    simp only [step, Option.some.injEq] at hs
    subst hs
    rcases RequestTask_cases c now with
      ⟨-, j, u, hfi, heq⟩ | ⟨-, -, heq⟩ | ⟨-, -, j, u, hfi, heq⟩ | ⟨-, -, -, heq⟩ | ⟨-, -, heq⟩
    · rw [heq]
      cases ty with
      | MapTask =>
        simp only [recordsOf] at hi ⊢
        rcases set_get_cases j (claimed now u) hi with ⟨-, h⟩ | ⟨hj, h⟩
        · exact Or.inl h
        · subst hj
          have htu : u = t := by
            have := hfi.1.symm.trans hi
            simpa using this
          subst htu
          exact Or.inr (Or.inl ⟨now, rfl, hfi.2.1, h⟩)
      | ReduceTask => exact Or.inl hi
      | NoTask => simp [recordsOf] at hi
      | ExitTask => simp [recordsOf] at hi
    · rw [heq]; exact Or.inl hi
    · rw [heq]
      cases ty with
      | MapTask => exact Or.inl hi
      | ReduceTask =>
        simp only [recordsOf] at hi ⊢
        rcases set_get_cases j (claimed now u) hi with ⟨-, h⟩ | ⟨hj, h⟩
        · exact Or.inl h
        · subst hj
          have htu : u = t := by
            have := hfi.1.symm.trans hi
            simpa using this
          subst htu
          exact Or.inr (Or.inl ⟨now, rfl, hfi.2.1, h⟩)
      | NoTask => simp [recordsOf] at hi
      | ExitTask => simp [recordsOf] at hi
    · rw [heq]; exact Or.inl hi
    · rw [heq]; exact Or.inl hi
  | report args =>
    simp only [step, Option.map_eq_some'] at hs
    obtain ⟨⟨c1, er⟩, hr, rfl⟩ := hs
    obtain ⟨-, ⟨hty, u, hidx, hst, heq⟩ | ⟨hty, u, hidx, hst, heq⟩ | heq⟩ := ReportTask_cases hr
    · obtain ⟨hnn, hget⟩ := index_eq_some.mp hidx
      simp only at heq ⊢
      rw [heq]
      cases ty with
      | MapTask =>
        simp only [recordsOf] at hi ⊢
        rcases set_get_cases args.TaskId.toNat (completed u) hi with ⟨-, h⟩ | ⟨hj, h⟩
        · exact Or.inl h
        · have htu : u = t := by
            rw [hj] at hget
            have := hget.symm.trans hi
            simpa using this
          subst htu
          refine Or.inr (Or.inr (Or.inl ⟨?_, hst, ?_⟩))
          · obtain ⟨id, ty⟩ := args
            simp only at hty hj hnn
            subst hty
            have : id = (i : Int) := by omega
            rw [this]
          · exact h
      | ReduceTask => exact Or.inl hi
      | NoTask => simp [recordsOf] at hi
      | ExitTask => simp [recordsOf] at hi
    · obtain ⟨hnn, hget⟩ := index_eq_some.mp hidx
      simp only at heq ⊢
      rw [heq]
      cases ty with
      | MapTask => exact Or.inl hi
      | ReduceTask =>
        simp only [recordsOf] at hi ⊢
        rcases set_get_cases args.TaskId.toNat (completed u) hi with ⟨-, h⟩ | ⟨hj, h⟩
        · exact Or.inl h
        · have htu : u = t := by
            rw [hj] at hget
            have := hget.symm.trans hi
            simpa using this
          subst htu
          refine Or.inr (Or.inr (Or.inl ⟨?_, hst, ?_⟩))
          · obtain ⟨id, ty⟩ := args
            simp only at hty hj hnn
            subst hty
            have : id = (i : Int) := by omega
            rw [this]
          · exact h
      | NoTask => simp [recordsOf] at hi
      | ExitTask => simp [recordsOf] at hi
    · simp only at heq ⊢
      rw [heq]; exact Or.inl hi
  | sweep now =>
    simp only [step, Option.some.injEq] at hs
    subst hs
    have key : ∀ l : List TaskInfo, l[i]? = some t →
        (sweepRecords now l)[i]? = some t ∨
        (t.Status = TaskStatus.InProgress ∧ since now t.StartTime > timeout ∧
          (sweepRecords now l)[i]? = some { t with Status := TaskStatus.Idle }) := by
      intro l hl
      rw [sweepRecords_get, hl]
      simp only [Option.map_some', sweepRecord]
      by_cases hc : t.Status = TaskStatus.InProgress ∧ since now t.StartTime > timeout
      · rw [if_pos hc]
        exact Or.inr ⟨hc.1, hc.2, rfl⟩
      · rw [if_neg hc]
        exact Or.inl rfl
    cases ty with
    | MapTask =>
      simp only [recordsOf, checkTimeouts] at hi ⊢
      rcases key _ hi with h | ⟨h1, h2, h3⟩
      · exact Or.inl h
      · exact Or.inr (Or.inr (Or.inr ⟨now, rfl, h1, h2, h3⟩))
    | ReduceTask =>
      simp only [recordsOf, checkTimeouts] at hi ⊢
      rcases key _ hi with h | ⟨h1, h2, h3⟩
      · exact Or.inl h
      · exact Or.inr (Or.inr (Or.inr ⟨now, rfl, h1, h2, h3⟩))
    | NoTask => simp [recordsOf] at hi
    | ExitTask => simp [recordsOf] at hi

/-- A completed record is never touched again. -/
theorem step_completed {ty : TaskType} {c c' : Coordinator} {e : Event} {i : Nat} {t : TaskInfo}
    (hi : (recordsOf ty c)[i]? = some t) (hc : t.Status = TaskStatus.Completed)
    (hs : step c e = some c') : (recordsOf ty c')[i]? = some t := by
  rcases step_record hi hs with h | ⟨_, -, h, -⟩ | ⟨-, h, -⟩ | ⟨_, -, h, -⟩
  · exact h
  · rw [hc] at h; exact absurd h (by decide)
  · rw [hc] at h; exact absurd h (by decide)
  · rw [hc] at h; exact absurd h (by decide)

/-! Reports -/

theorem recordsOf_length_step {ty : TaskType} {c c' : Coordinator} {e : Event}
    (hs : step c e = some c') : (recordsOf ty c').length = (recordsOf ty c).length := by
  obtain ⟨h1, h2⟩ := step_lengths hs
  cases ty <;> simp [recordsOf, h1, h2]

/-- An accepted report either completes the `InProgress` record it names and
adds one to the counter of its kind, or changes nothing. -/
theorem report_effect {c c' : Coordinator} {args : ReportTaskArgs} {e : error}
    (h : ReportTask c args = some (c', e)) :
    (∃ t, index (recordsOf args.TaskType c) args.TaskId = some t ∧
      t.Status = TaskStatus.InProgress ∧
      index (recordsOf args.TaskType c') args.TaskId = some (completed t) ∧
      counterOf args.TaskType c' = counterOf args.TaskType c + 1) ∨ c' = c := by
  obtain ⟨-, ⟨hty, t, hidx, hst, heq⟩ | ⟨hty, t, hidx, hst, heq⟩ | heq⟩ := ReportTask_cases h
  · left
    obtain ⟨hnn, hget⟩ := index_eq_some.mp hidx
    obtain ⟨hlt, -⟩ := List.getElem?_eq_some.mp hget
    refine ⟨t, by rw [hty]; exact hidx, hst, ?_, ?_⟩
    · rw [hty, heq]
      exact index_eq_some.mpr ⟨hnn, List.getElem?_set_self hlt⟩
    · rw [hty, heq]
      rfl
  · left
    obtain ⟨hnn, hget⟩ := index_eq_some.mp hidx
    obtain ⟨hlt, -⟩ := List.getElem?_eq_some.mp hget
    refine ⟨t, by rw [hty]; exact hidx, hst, ?_, ?_⟩
    · rw [hty, heq]
      exact index_eq_some.mpr ⟨hnn, List.getElem?_set_self hlt⟩
    · rw [hty, heq]
      rfl
  · exact Or.inr heq

/-- A report that names no `InProgress` record changes nothing. -/
theorem report_noop {c : Coordinator} {args : ReportTaskArgs}
    (h : ∀ t, index (recordsOf args.TaskType c) args.TaskId = some t →
      t.Status ≠ TaskStatus.InProgress)
    {c' : Coordinator} {e : error} (hr : ReportTask c args = some (c', e)) : c' = c := by
  rcases report_effect hr with ⟨t, hidx, hst, -⟩ | heq
  · exact absurd hst (h t hidx)
  · exact heq

/-- Once the named record is `Completed` (or the report panics), every later
report of it counts for nothing. -/
theorem reportGain_settled (args : ReportTaskArgs) (evs : List Event) (c : Coordinator)
    (h : ∀ t, index (recordsOf args.TaskType c) args.TaskId = some t →
      t.Status = TaskStatus.Completed) :
    reportGain args c evs = 0 := by
  induction evs generalizing c with
  | nil => rfl
  | cons e es ih =>
    simp only [reportGain]
    cases hs : step c e with
    | none => rfl
    | some c' =>
      simp only
      have hkeep : ∀ t, index (recordsOf args.TaskType c') args.TaskId = some t →
          t.Status = TaskStatus.Completed := by
        intro t' ht'
        obtain ⟨hnn, hget'⟩ := index_eq_some.mp ht'
        obtain ⟨hlt, -⟩ := List.getElem?_eq_some.mp hget'
        rw [recordsOf_length_step hs] at hlt
        have hget : (recordsOf args.TaskType c)[args.TaskId.toNat]? =
            some ((recordsOf args.TaskType c)[args.TaskId.toNat]) :=
          List.getElem?_eq_getElem hlt
        have hc := h _ (index_eq_some.mpr ⟨hnn, hget⟩)
        have hstay := step_completed hget hc hs
        rw [hget'] at hstay
        simp only [Option.some.injEq] at hstay
        rw [hstay]; exact hc
      rw [ih c' hkeep]
      by_cases he : e = Event.report args
      · subst he
        simp only [step, Option.map_eq_some'] at hs
        obtain ⟨⟨c1, er⟩, hr, rfl⟩ := hs
        have : c1 = c := report_noop (fun t ht hip => by
          rw [h t ht] at hip; exact absurd hip (by decide)) hr
        simp [this]
      · simp [he]

theorem reportGain_bounds (args : ReportTaskArgs) (evs : List Event) (c : Coordinator) :
    0 ≤ reportGain args c evs ∧ reportGain args c evs ≤ 1 := by
  induction evs generalizing c with
  | nil => simp [reportGain]
  | cons e es ih =>
    simp only [reportGain]
    cases hs : step c e with
    | none => simp
    | some c' =>
      simp only
      by_cases he : e = Event.report args
      · subst he
        simp only [step, Option.map_eq_some'] at hs
        obtain ⟨⟨c1, er⟩, hr, rfl⟩ := hs
        rcases report_effect hr with ⟨t, -, -, hidx', hcnt⟩ | heq
        · have hz := reportGain_settled args es c1 (fun u hu => by
            rw [hidx'] at hu
            simp only [Option.some.injEq] at hu
            rw [← hu]; rfl)
          simp only [if_true]
          rw [hz, hcnt]
          omega
        · have hc1 : c1 = c := heq
          have := ih c
          simp only [if_true, hc1]
          omega
      · have := ih c'
        simp only [if_neg he]
        omega

/-- After an accepted report, the same report is accepted again and changes
nothing. -/
theorem report_again {c c' : Coordinator} {args : ReportTaskArgs} {e : error}
    (h : ReportTask c args = some (c', e)) : ReportTask c' args = some (c', none) := by
  have hnot : ∀ t, index (recordsOf args.TaskType c') args.TaskId = some t →
      t.Status ≠ TaskStatus.InProgress := by
    intro t ht
    rcases report_effect h with ⟨u, -, -, hidx', -⟩ | heq
    · rw [hidx'] at ht
      simp only [Option.some.injEq] at ht
      rw [← ht]; simp [completed]
    · subst heq
      intro hip
      unfold ReportTask at h
      cases hty : args.TaskType with
      | MapTask =>
        simp only [hty, recordsOf] at ht
        simp [hty, ht, hip] at h
        have := congrArg Coordinator.mapTasksCompleted h.1
        simp at this
      | ReduceTask =>
        simp only [hty, recordsOf] at ht
        simp [hty, ht, hip] at h
        have := congrArg Coordinator.reduceTasksCompleted h.1
        simp at this
      | NoTask => simp [hty, recordsOf, index] at ht
      | ExitTask => simp [hty, recordsOf, index] at ht
  unfold ReportTask
  cases hty : args.TaskType with
  | MapTask =>
    simp only [hty, recordsOf] at hnot
    simp only [if_true]
    cases hidx : index c'.mapTasks args.TaskId with
    | none =>
      exfalso
      rcases report_effect h with ⟨u, -, -, hidx', -⟩ | heq
      · simp [hty, recordsOf, hidx] at hidx'
      · subst heq
        simp [ReportTask, hty, hidx] at h
    | some t => simp [hnot t hidx]
  | ReduceTask =>
    simp only [hty, recordsOf] at hnot
    simp only [if_true, reduceIte]
    cases hidx : index c'.reduceTasks args.TaskId with
    | none =>
      exfalso
      rcases report_effect h with ⟨u, -, -, hidx', -⟩ | heq
      · simp [hty, recordsOf, hidx] at hidx'
      · subst heq
        simp [ReportTask, hty, hidx] at h
    | some t => simp [hnot t hidx]
  | NoTask => simp
  | ExitTask => simp

theorem run_replicate_report {c : Coordinator} {args : ReportTaskArgs}
    (h : ReportTask c args = some (c, none)) (n : Nat) :
    run c (List.replicate n (Event.report args)) = some c := by
  induction n with
  | zero => rfl
  | succ k ih =>
    simp only [List.replicate_succ, run, step, h, Option.map_some']
    exact ih

/-! Completed phases stay completed -/

theorem phase_done_step {files : List String} {nReduce : Int} {c c' : Coordinator} {e : Event}
    (hinv : Inv files nReduce c) (hs : step c e = some c') :
    (c.mapTasksCompleted = c.nMap → c'.mapTasksCompleted = c'.nMap) ∧
    (c.reduceTasksCompleted = c.nReduce → c'.reduceTasksCompleted = c'.nReduce) := by
  cases e with
  | request now =>
    simp only [step, Option.some.injEq] at hs
    subst hs
    rcases RequestTask_cases c now with
      ⟨-, i, t, -, heq⟩ | ⟨-, -, heq⟩ | ⟨-, -, i, t, -, heq⟩ | ⟨-, -, -, heq⟩ | ⟨-, -, heq⟩ <;>
    · rw [heq]
      exact ⟨fun h => h, fun h => h⟩
  | report args =>
    simp only [step, Option.map_eq_some'] at hs
    obtain ⟨⟨c1, er⟩, hr, rfl⟩ := hs
    obtain ⟨-, ⟨-, t, hidx, hst, heq⟩ | ⟨-, t, hidx, hst, heq⟩ | heq⟩ := ReportTask_cases hr
    · obtain ⟨-, hget⟩ := index_eq_some.mp hidx
      have hlt := countCompleted_lt_of_get hget (by rw [hst]; decide)
      have h1 := hinv.mapCount
      have h2 := hinv.nMap_eq
      have h3 := hinv.mapLen
      simp only at heq ⊢
      rw [heq]
      refine ⟨fun h => ?_, fun h => h⟩
      omega
    · obtain ⟨-, hget⟩ := index_eq_some.mp hidx
      have hlt := countCompleted_lt_of_get hget (by rw [hst]; decide)
      have h1 := hinv.reduceCount
      have h2 := hinv.nReduce_eq
      have h3 := hinv.reduceLen
      simp only at heq ⊢
      rw [heq]
      refine ⟨fun h => h, fun h => ?_⟩
      omega
    · simp only at heq ⊢
      rw [heq]
      exact ⟨fun h => h, fun h => h⟩
  | sweep now =>
    simp only [step, Option.some.injEq] at hs
    subst hs
    exact ⟨fun h => h, fun h => h⟩

theorem phase_done_run {files : List String} {nReduce : Int} {c c' : Coordinator}
    {evs : List Event} (hinv : Inv files nReduce c) (hrun : run c evs = some c') :
    (c.mapTasksCompleted = c.nMap → c'.mapTasksCompleted = c'.nMap) ∧
    (c.reduceTasksCompleted = c.nReduce → c'.reduceTasksCompleted = c'.nReduce) := by
  induction evs generalizing c with
  | nil =>
    simp only [run, Option.some.injEq] at hrun
    subst hrun
    exact ⟨fun h => h, fun h => h⟩
  | cons e es ih =>
    simp only [run] at hrun
    cases hs : step c e with
    | none => simp [hs] at hrun
    | some c1 =>
      simp only [hs] at hrun
      obtain ⟨h1, h2⟩ := phase_done_step hinv hs
      obtain ⟨h3, h4⟩ := ih (inv_step hinv hs) hrun
      exact ⟨fun h => h3 (h1 h), fun h => h4 (h2 h)⟩

theorem sampleAllDone_reachable : Reachable ["a.txt"] 1 sampleAllDone :=
  ⟨sampleInit,
    [Event.request 0, Event.report { TaskId := 0, TaskType := TaskType.MapTask },
     Event.request 5, Event.report { TaskId := 0, TaskType := TaskType.ReduceTask }],
    sampleInit_make, by decide⟩

/-! A claim that is never reported -/

/-- When `RequestTask` answers with a Map or Reduce task of id `i`, record `i`
of that kind is now `InProgress`, stamped with the time of the call. -/
theorem handout_record {files : List String} {nReduce : Int} {c : Coordinator} {t0 : Int}
    {ty : TaskType} {i : Nat} (hinv : Inv files nReduce c)
    (hty : ty = TaskType.MapTask ∨ ty = TaskType.ReduceTask)
    (htyp : (RequestTask c t0).2.1.Task.Typ = ty)
    (hid : (RequestTask c t0).2.1.Task.Id = (i : Int)) :
    ∃ t, (recordsOf ty (RequestTask c t0).1)[i]? = some (claimed t0 t) := by
  rcases RequestTask_cases c t0 with
    ⟨-, j, t, hfi, heq⟩ | ⟨-, -, heq⟩ | ⟨-, -, j, t, hfi, heq⟩ | ⟨-, -, -, heq⟩ | ⟨-, -, heq⟩
  · rw [heq] at htyp hid ⊢
    obtain ⟨h1, h2⟩ := hinv.mapDesc j t hfi.1
    simp only at htyp hid
    have hji : j = i := by rw [h2] at hid; exact_mod_cast hid
    subst hji
    have hmap : ty = TaskType.MapTask := by rw [← htyp, h1]
    subst hmap
    obtain ⟨hlt, -⟩ := List.getElem?_eq_some.mp hfi.1
    exact ⟨t, List.getElem?_set_self hlt⟩
  · rw [heq] at htyp
    rcases hty with h | h <;> · rw [h] at htyp; simp [taskOfType] at htyp
  · rw [heq] at htyp hid ⊢
    obtain ⟨h1, h2⟩ := hinv.reduceDesc j t hfi.1
    simp only at htyp hid
    have hji : j = i := by rw [h2] at hid; exact_mod_cast hid
    subst hji
    have hred : ty = TaskType.ReduceTask := by rw [← htyp, h1]
    subst hred
    obtain ⟨hlt, -⟩ := List.getElem?_eq_some.mp hfi.1
    exact ⟨t, List.getElem?_set_self hlt⟩
  · rw [heq] at htyp
    rcases hty with h | h <;> · rw [h] at htyp; simp [taskOfType] at htyp
  · rw [heq] at htyp
    rcases hty with h | h <;> · rw [h] at htyp; simp [taskOfType] at htyp

/-- A record handed out at `t0` stays as it is along events that neither report
it nor sweep it past the timeout. -/
theorem quiet_run {ty : TaskType} {i : Nat} {t0 : Int} {r : TaskInfo} {evs : List Event}
    {c c' : Coordinator}
    (hrec : (recordsOf ty c)[i]? = some r) (hst : r.Status = TaskStatus.InProgress)
    (hstart : r.StartTime = t0) (hquiet : ∀ e ∈ evs, leavesClaim ty i t0 e)
    (hrun : run c evs = some c') : (recordsOf ty c')[i]? = some r := by
  induction evs generalizing c with
  | nil =>
    simp only [run, Option.some.injEq] at hrun
    subst hrun
    exact hrec
  | cons e es ih =>
    simp only [run] at hrun
    cases hs : step c e with
    | none => simp [hs] at hrun
    | some c1 =>
      simp only [hs] at hrun
      have he := hquiet e (List.mem_cons_self _ _)
      have hrec1 : (recordsOf ty c1)[i]? = some r := by
        rcases step_record hrec hs with h | ⟨_, -, h, -⟩ | ⟨h, -⟩ | ⟨now, h, -, hlate, -⟩
        · exact h
        · rw [hst] at h; exact absurd h (by decide)
        · subst h
          exact absurd rfl he
        · subst h
          rw [since_gt_timeout, hstart] at hlate
          simp only [leavesClaim] at he
          omega
      exact ih hrec1 (fun e' he' => hquiet e' (List.mem_cons_of_mem _ he')) hrun

theorem sampleTwoInit_make : MakeCoordinator ["a.txt", "b.txt"] 1 = some sampleTwoInit := by
  decide

theorem quietEvents_run :
    run (RequestTask sampleTwoInit 3).1 quietEvents = some sampleTwoCrashed := by
  decide

theorem quietEvents_leave :
    ∀ e ∈ quietEvents, leavesClaim TaskType.MapTask 0 3 e := by
  intro e he
  simp only [quietEvents, List.mem_cons, List.mem_singleton, List.not_mem_nil, or_false] at he
  rcases he with rfl | rfl | rfl
  · trivial
  · simp [leavesClaim]
  · simp [leavesClaim]

set_option maxRecDepth 8000 in
theorem sampleTwoCrashed_reassigned :
    (RequestTask (checkTimeouts sampleTwoCrashed 10000000004) 10000000005).2.1.Task.Id = 0 := by
  decide

/-! Initial records, descriptors, and completed records along a run -/

theorem makeMapTasks_get_file {nReduce : Int} {files : List String} {k : Int} {i : Nat}
    {f : String} (h : files[i]? = some f) :
    (makeMapTasks nReduce files k)[i]? =
      some { Status := TaskStatus.Idle, StartTime := 0,
             Task := { Typ := TaskType.MapTask, Id := k + i, FileName := f,
                       NReduce := nReduce, NMap := 0 } } := by
  induction files generalizing k i with
  | nil => simp at h
  | cons g gs ih =>
    cases i with
    | zero =>
      simp only [List.getElem?_cons_zero, Option.some.injEq] at h
      subst h
      simp [makeMapTasks]
    | succ n =>
      simp only [List.getElem?_cons_succ] at h
      simp only [makeMapTasks, List.getElem?_cons_succ]
      rw [ih h]
      have : k + 1 + (n : Int) = k + ((n + 1 : Nat) : Int) := by push_cast; ring
      rw [this]

theorem makeReduceTasks_get_index {nMap : Int} {count : Nat} {k : Int} {i : Nat}
    (h : i < count) :
    (makeReduceTasks nMap count k)[i]? =
      some { Status := TaskStatus.Idle, StartTime := 0,
             Task := { Typ := TaskType.ReduceTask, Id := k + i, FileName := "",
                       NReduce := 0, NMap := nMap } } := by
  induction count generalizing k i with
  | zero => omega
  | succ n ih =>
    cases i with
    | zero => simp [makeReduceTasks]
    | succ m =>
      simp only [makeReduceTasks, List.getElem?_cons_succ]
      rw [ih (by omega)]
      have : k + 1 + (m : Int) = k + ((m + 1 : Nat) : Int) := by push_cast; ring
      rw [this]

/-- No step changes a task descriptor. -/
theorem step_descriptors {c c' : Coordinator} {e : Event} (hs : step c e = some c') :
    c'.mapTasks.map TaskInfo.Task = c.mapTasks.map TaskInfo.Task ∧
    c'.reduceTasks.map TaskInfo.Task = c.reduceTasks.map TaskInfo.Task := by
  cases e with
  | request now =>
    simp only [step, Option.some.injEq] at hs
    subst hs
    rcases RequestTask_cases c now with
      ⟨-, i, t, hfi, heq⟩ | ⟨-, -, heq⟩ | ⟨-, -, i, t, hfi, heq⟩ | ⟨-, -, -, heq⟩ | ⟨-, -, heq⟩
    · rw [heq]
      exact ⟨map_task_set (claimed now t) hfi.1 (claimed_task now t), rfl⟩
    · rw [heq]
      exact ⟨rfl, rfl⟩
    · rw [heq]
      exact ⟨rfl, map_task_set (claimed now t) hfi.1 (claimed_task now t)⟩
    · rw [heq]
      exact ⟨rfl, rfl⟩
    · rw [heq]
      exact ⟨rfl, rfl⟩
  | report args =>
    simp only [step, Option.map_eq_some'] at hs
    obtain ⟨⟨c1, er⟩, hr, rfl⟩ := hs
    obtain ⟨-, ⟨-, t, hidx, -, heq⟩ | ⟨-, t, hidx, -, heq⟩ | heq⟩ := ReportTask_cases hr
    · simp only at heq ⊢
      rw [heq]
      exact ⟨map_task_set (completed t) (index_eq_some.mp hidx).2 (completed_task t), rfl⟩
    · simp only at heq ⊢
      rw [heq]
      exact ⟨rfl, map_task_set (completed t) (index_eq_some.mp hidx).2 (completed_task t)⟩
    · simp only at heq ⊢
      rw [heq]
      exact ⟨rfl, rfl⟩
  | sweep now =>
    simp only [step, Option.some.injEq] at hs
    subst hs
    exact ⟨sweepRecords_map_task now c.mapTasks, sweepRecords_map_task now c.reduceTasks⟩

/-- A completed record is there, unchanged, after any run. -/
theorem run_completed {ty : TaskType} {i : Nat} {t : TaskInfo} {evs : List Event}
    {c c' : Coordinator} (hi : (recordsOf ty c)[i]? = some t)
    (hc : t.Status = TaskStatus.Completed) (hrun : run c evs = some c') :
    (recordsOf ty c')[i]? = some t := by
  induction evs generalizing c with
  | nil =>
    simp only [run, Option.some.injEq] at hrun
    subst hrun
    exact hi
  | cons e es ih =>
    simp only [run] at hrun
    cases hs : step c e with
    | none => simp [hs] at hrun
    | some c1 =>
      simp only [hs] at hrun
      exact ih (step_completed hi hc hs) hrun

/-! Handing out tasks without a sweep in between -/

/-- The record found at an index after a step was already there before it, with
the same descriptor; if it is `Idle` and the step is not a sweep, it is the
very same record. -/
theorem step_record_back {ty : TaskType} {c c' : Coordinator} {e : Event} {i : Nat}
    {t' : TaskInfo} (hs : step c e = some c') (hi : (recordsOf ty c')[i]? = some t') :
    ∃ t, (recordsOf ty c)[i]? = some t ∧ t.Task = t'.Task ∧
      (notSweep e → t'.Status = TaskStatus.Idle → t = t') := by
  obtain ⟨hlt, -⟩ := List.getElem?_eq_some.mp hi
  rw [recordsOf_length_step hs] at hlt
  have hget : (recordsOf ty c)[i]? = some ((recordsOf ty c)[i]) := List.getElem?_eq_getElem hlt
  refine ⟨_, hget, ?_⟩
  rcases step_record hget hs with h | ⟨now, -, -, h⟩ | ⟨-, -, h⟩ | ⟨now, he, -, -, h⟩
  · rw [hi] at h
    simp only [Option.some.injEq] at h
    exact ⟨by rw [h], fun _ _ => h.symm⟩
  · rw [hi] at h
    simp only [Option.some.injEq] at h
    refine ⟨by rw [h]; rfl, fun _ hidle => ?_⟩
    rw [h] at hidle
    simp [claimed] at hidle
  · rw [hi] at h
    simp only [Option.some.injEq] at h
    refine ⟨by rw [h]; rfl, fun _ hidle => ?_⟩
    rw [h] at hidle
    simp [completed] at hidle
  · rw [hi] at h
    simp only [Option.some.injEq] at h
    refine ⟨by rw [h], fun hns _ => ?_⟩
    rw [he] at hns
    exact absurd hns (by simp [notSweep])

theorem taskIdsUnique_step {c c' : Coordinator} {e : Event} (hs : step c e = some c')
    (hu : TaskIdsUnique c) : TaskIdsUnique c' := by
  intro ty1 ty2 i j t u ht hu' htyp hid
  obtain ⟨t0, ht0, htask, -⟩ := step_record_back hs ht
  obtain ⟨u0, hu0, hutask, -⟩ := step_record_back hs hu'
  exact hu ty1 ty2 i j t0 u0 ht0 hu0 (by rw [htask, hutask, htyp]) (by rw [htask, hutask, hid])

/-- A Map or Reduce reply of `RequestTask` is the task of a record that was
`Idle` and is `InProgress` afterwards. -/
theorem request_handout {c : Coordinator} {now : Int}
    (h : (RequestTask c now).2.1.Task.Typ = TaskType.MapTask ∨
      (RequestTask c now).2.1.Task.Typ = TaskType.ReduceTask) :
    ∃ (ty : TaskType) (i : Nat) (t : TaskInfo),
      (recordsOf ty c)[i]? = some t ∧ t.Status = TaskStatus.Idle ∧
      t.Task = (RequestTask c now).2.1.Task ∧
      (recordsOf ty (RequestTask c now).1)[i]? = some (claimed now t) := by
  rcases RequestTask_cases c now with
    ⟨-, i, t, hfi, heq⟩ | ⟨-, -, heq⟩ | ⟨-, -, i, t, hfi, heq⟩ | ⟨-, -, -, heq⟩ | ⟨-, -, heq⟩
  · rw [heq]
    obtain ⟨hlt, -⟩ := List.getElem?_eq_some.mp hfi.1
    exact ⟨TaskType.MapTask, i, t, hfi.1, hfi.2.1, rfl, List.getElem?_set_self hlt⟩
  · rw [heq] at h
    simp [taskOfType] at h
  · rw [heq]
    obtain ⟨hlt, -⟩ := List.getElem?_eq_some.mp hfi.1
    exact ⟨TaskType.ReduceTask, i, t, hfi.1, hfi.2.1, rfl, List.getElem?_set_self hlt⟩
  · rw [heq] at h
    simp [taskOfType] at h
  · rw [heq] at h
    simp [taskOfType] at h

theorem available_back {c c' : Coordinator} {e : Event} {task : Task}
    (hs : step c e = some c') (hns : notSweep e) (h : Available c' task) :
    Available c task := by
  obtain ⟨ty, i, t', hi, htask, hidle⟩ := h
  obtain ⟨t, ht, -, hsame⟩ := step_record_back hs hi
  have := hsame hns hidle
  subst this
  exact ⟨ty, i, t, ht, htask, hidle⟩

theorem handouts_exclusive (evs : List Event) (c : Coordinator) (hu : TaskIdsUnique c)
    (hns : ∀ e ∈ evs, notSweep e) :
    (∀ task ∈ handouts c evs, Available c task) ∧
    ((handouts c evs).map (fun task => (task.Typ, task.Id))).Nodup := by
  induction evs generalizing c with
  | nil => simp [handouts]
  | cons e es ih =>
    have he := hns e (List.mem_cons_self _ _)
    have hes : ∀ e' ∈ es, notSweep e' := fun e' h' => hns e' (List.mem_cons_of_mem _ h')
    simp only [handouts]
    cases hs : step c e with
    | none => simp
    | some c' =>
      simp only
      obtain ⟨hav, hnd⟩ := ih c' (taskIdsUnique_step hs hu) hes
      have havc : ∀ task ∈ handouts c' es, Available c task :=
        fun task ht => available_back hs he (hav task ht)
      cases e with
      | request now =>
        simp only [step, Option.some.injEq] at hs
        subst hs
        dsimp only
        by_cases hk : (RequestTask c now).2.1.Task.Typ = TaskType.MapTask ∨
            (RequestTask c now).2.1.Task.Typ = TaskType.ReduceTask
        · rw [if_pos hk]
          obtain ⟨ty, i, t, hi, hidle, htask, hi'⟩ := request_handout hk
          refine ⟨?_, ?_⟩
          · intro task hmem
            simp only [List.singleton_append, List.mem_cons] at hmem
            rcases hmem with rfl | hmem
            · exact ⟨ty, i, t, hi, htask, hidle⟩
            · exact havc task hmem
          · simp only [List.singleton_append, List.map_cons, List.nodup_cons]
            refine ⟨?_, hnd⟩
            intro hmem
            obtain ⟨task', htask', hpair⟩ := List.mem_map.mp hmem
            simp only [Prod.mk.injEq] at hpair
            obtain ⟨ty', j, t', hj', htk', hidle'⟩ := hav task' htask'
            obtain ⟨t0, hj, -, hsame⟩ := step_record_back (c := c)
              (e := Event.request now) (by simp [step]) hj'
            have h0 := hsame trivial hidle'
            subst h0
            obtain ⟨hty, hij⟩ := hu ty ty' i j t t0 hi hj
              (by rw [htask, htk', hpair.1]) (by rw [htask, htk', hpair.2])
            subst hty; subst hij
            rw [hi'] at hj'
            simp only [Option.some.injEq] at hj'
            rw [← hj'] at hidle'
            simp [claimed] at hidle'
        · rw [if_neg hk]
          exact ⟨by simpa using havc, by simpa using hnd⟩
      | report args => exact ⟨by simpa using havc, by simpa using hnd⟩
      | sweep now => exact absurd he (by simp [notSweep])

theorem taskIdsUnique_of_inv {files : List String} {nReduce : Int} {c : Coordinator}
    (hinv : Inv files nReduce c) : TaskIdsUnique c := by
  intro ty1 ty2 i j t u ht hu htyp hid
  cases ty1 <;> cases ty2 <;>
    simp only [recordsOf, List.getElem?_nil, reduceCtorEq] at ht hu
  · obtain ⟨-, h1⟩ := hinv.mapDesc i t ht
    obtain ⟨-, h2⟩ := hinv.mapDesc j u hu
    refine ⟨rfl, ?_⟩
    rw [h1, h2] at hid
    exact_mod_cast hid
  · obtain ⟨h1, -⟩ := hinv.mapDesc i t ht
    obtain ⟨h2, -⟩ := hinv.reduceDesc j u hu
    rw [h1, h2] at htyp
    exact absurd htyp (by decide)
  · obtain ⟨h1, -⟩ := hinv.reduceDesc i t ht
    obtain ⟨h2, -⟩ := hinv.mapDesc j u hu
    rw [h1, h2] at htyp
    exact absurd htyp (by decide)
  · obtain ⟨-, h1⟩ := hinv.reduceDesc i t ht
    obtain ⟨-, h2⟩ := hinv.reduceDesc j u hu
    refine ⟨rfl, ?_⟩
    rw [h1, h2] at hid
    exact_mod_cast hid

theorem requestBurst_notSweep : ∀ e ∈ requestBurst, notSweep e := by
  intro e he
  simp only [requestBurst, List.mem_cons, List.mem_singleton, List.not_mem_nil, or_false] at he
  rcases he with rfl | rfl | rfl | rfl | rfl <;> trivial

theorem requestBurst_handouts :
    (handouts sampleTwoInit requestBurst).map (fun task => (task.Typ, task.Id)) =
      [(TaskType.MapTask, 0), (TaskType.MapTask, 1)] := by
  decide

/-! The hash and the partitioning of `doMap` -/

theorem sum32aWrite_eq_foldl (hash : Nat) (data : List (Fin 256)) :
    sum32aWrite hash data =
      data.foldl (fun h b => ((h ^^^ b.val) * 16777619) % 4294967296) hash := by
  induction data generalizing hash with
  | nil => rfl
  | cons c cs ih =>
    simp only [sum32aWrite, List.foldl_cons]
    rw [ih]
    rfl

theorem ihash_eq_mod (key : GoString) :
    ihash key = ((fnv1a32 key % 2 ^ 31 : Nat) : Int) := by
  unfold ihash fnv1a32
  rw [sum32aWrite_eq_foldl]
  have h : (0x7fffffff : Nat) = 2 ^ 31 - 1 := by norm_num
  rw [h, Nat.and_pow_two_sub_one_eq_mod]
  rfl

theorem ihash_nonneg (key : GoString) : 0 ≤ ihash key := by
  rw [ihash_eq_mod]
  exact Int.ofNat_nonneg _

theorem ihash_lt (key : GoString) : ihash key < 2 ^ 31 := by
  rw [ihash_eq_mod]
  have : fnv1a32 key % 2 ^ 31 < 2 ^ 31 := Nat.mod_lt _ (by norm_num)
  exact_mod_cast this

/-- Go's `%` agrees with the mathematical remainder on the bucket index. -/
theorem bucket_index (key : GoString) {NReduce : Int} (h : 0 < NReduce) :
    (ihash key).tmod NReduce = ihash key % NReduce ∧
    0 ≤ (ihash key).tmod NReduce ∧ (ihash key).tmod NReduce < NReduce := by
  refine ⟨Int.tmod_eq_emod (ihash_nonneg key) (le_of_lt h), ?_, Int.tmod_lt_of_pos _ h⟩
  exact Int.tmod_nonneg _ (ihash_nonneg key)

theorem appendAt_eq_some {intermediate : List (List KeyValue)} {idx : Int} {x : KeyValue}
    (h0 : 0 ≤ idx) (h1 : idx < intermediate.length) :
    ∃ bucket, intermediate[idx.toNat]? = some bucket ∧
      appendAt intermediate idx x = some (intermediate.set idx.toNat (bucket ++ [x])) := by
  have hlt : idx.toNat < intermediate.length := by omega
  refine ⟨intermediate[idx.toNat], List.getElem?_eq_getElem hlt, ?_⟩
  simp [appendAt, h0, List.getElem?_eq_getElem hlt]

theorem flatten_set_append {l : List (List KeyValue)} {i : Nat} {b : List KeyValue}
    (x : KeyValue) (h : l[i]? = some b) :
    (l.set i (b ++ [x])).flatten.Perm (l.flatten ++ [x]) := by
  induction l generalizing i with
  | nil => simp at h
  | cons y ys ih =>
    cases i with
    | zero =>
      simp only [List.getElem?_cons_zero, Option.some.injEq] at h
      subst h
      simp only [List.set_cons_zero, List.flatten_cons, List.append_assoc]
      exact List.Perm.append_left _ List.perm_append_comm
    | succ n =>
      simp only [List.getElem?_cons_succ] at h
      simp only [List.set_cons_succ, List.flatten_cons, List.append_assoc]
      exact List.Perm.append_left _ (ih h)

/-- The loop of `doMap` appends to bucket `r` the pairs hashed to `r`, in order,
and never panics when `NReduce` is positive and is the number of buckets. -/
theorem partitionLoop_spec {NReduce : Int} (hpos : 0 < NReduce) (kva : List KeyValue)
    (acc : List (List KeyValue)) (hlen : (acc.length : Int) = NReduce) :
    ∃ res, partitionLoop NReduce kva acc = some res ∧ res.length = acc.length ∧
      (∀ (r : Nat) (b : List KeyValue), acc[r]? = some b →
        res[r]? = some (b ++ kva.filter (fun x => ihash x.Key % NReduce = (r : Int)))) ∧
      res.flatten.Perm (acc.flatten ++ kva) := by
  induction kva generalizing acc with
  | nil =>
    refine ⟨acc, rfl, rfl, ?_, by simp⟩
    intro r b hb
    simp [hb]
  | cons x xs ih =>
    obtain ⟨hmod, h0, h1⟩ := bucket_index x.Key hpos
    obtain ⟨bucket, hbucket, happ⟩ := appendAt_eq_some (x := x) h0 (by rw [hlen]; exact h1)
    have hlen' : (((acc.set ((ihash x.Key).tmod NReduce).toNat (bucket ++ [x])).length : Nat) : Int)
        = NReduce := by
      rw [List.length_set]; exact hlen
    obtain ⟨res, hres, hl, hget, hperm⟩ := ih _ hlen'
    have hne : NReduce ≠ 0 := by omega
    refine ⟨res, ?_, ?_, ?_, ?_⟩
    · simp only [partitionLoop, if_neg hne, happ]
      exact hres
    · rw [hl, List.length_set]
    · intro r b hb
      by_cases hr : ((ihash x.Key).tmod NReduce).toNat = r
      · subst hr
        have hb' : b = bucket := by
          rw [hbucket] at hb
          simp only [Option.some.injEq] at hb
          exact hb.symm
        subst hb'
        have hlt : ((ihash x.Key).tmod NReduce).toNat < acc.length :=
          (List.getElem?_eq_some.mp hbucket).1
        rw [hget _ (b ++ [x]) (List.getElem?_set_self hlt)]
        have hx : ihash x.Key % NReduce = ((((ihash x.Key).tmod NReduce).toNat : Nat) : Int) := by
          rw [Int.toNat_of_nonneg h0, hmod]
        simp [List.filter_cons, hx]
      · rw [hget r b (by rw [List.getElem?_set_ne hr]; exact hb)]
        have hx : ¬ ihash x.Key % NReduce = (r : Int) := by
          intro heq
          apply hr
          rw [hmod, heq]
          simp
        simp [List.filter_cons, hx]
    · refine hperm.trans ?_
      have := flatten_set_append x hbucket
      refine (List.Perm.append_right xs this).trans ?_
      simp

/-! File names and the reading of shards -/

theorem writeShards_get {task : Task} {buckets : List (List KeyValue)} {k : Int} {r : Nat}
    {f : ShardFile} (h : (writeShards task buckets k)[r]? = some f) :
    f.name = sprintfMr task.Id (k + r) ∧ buckets[r]? = some f.records := by
  induction buckets generalizing k r with
  | nil => simp [writeShards] at h
  | cons b bs ih =>
    cases r with
    | zero =>
      simp only [writeShards, List.getElem?_cons_zero, Option.some.injEq] at h
      rw [← h]
      exact ⟨by simp, by simp⟩
    | succ n =>
      simp only [writeShards, List.getElem?_cons_succ] at h
      obtain ⟨h1, h2⟩ := ih h
      refine ⟨?_, by simpa using h2⟩
      rw [h1]
      congr 1
      push_cast
      ring

theorem writeShards_length (task : Task) (buckets : List (List KeyValue)) (k : Int) :
    (writeShards task buckets k).length = buckets.length := by
  induction buckets generalizing k with
  | nil => rfl
  | cons b bs ih => simp [writeShards, ih]

theorem decodeAll_eq_prefix (stream : List (Option KeyValue)) :
    decodeAll stream = decodablePrefix stream := by
  induction stream with
  | nil => rfl
  | cons x xs ih =>
    cases x with
    | none => simp [decodeAll, decodablePrefix]
    | some v =>
      simp only [decodeAll, ih, decodablePrefix, List.takeWhile_cons, Option.isSome_some,
        if_true, List.filterMap_cons, id_eq]

theorem readShards_eq (task : Task) (openFile : String → Option (List (Option KeyValue)))
    (count : Nat) (k : Int) :
    readShards task openFile count k =
      (List.range count).flatMap
        (fun m => shardRecords openFile (sprintfMr (k + (m : Int)) task.Id)) := by
  induction count generalizing k with
  | zero => rfl
  | succ n ih =>
    rw [List.range_succ_eq_map, List.flatMap_cons, readShards, ih]
    congr 1
    · simp only [shardRecords, Nat.cast_zero, add_zero]
      cases openFile (sprintfMr k task.Id) with
      | none => rfl
      | some s => exact decodeAll_eq_prefix s
    · rw [List.flatMap_map]
      congr 1
      funext m
      have : k + 1 + (m : Int) = k + ((m + 1 : Nat) : Int) := by push_cast; ring
      rw [this]

/-! The order on keys -/

theorem stringLess_irrefl (a : GoString) : stringLess a a = false := by
  induction a with
  | nil => rfl
  | cons x xs ih => simp [stringLess, ih]

theorem stringLess_trans {a b c : GoString} (h1 : stringLess a b = true)
    (h2 : stringLess b c = true) : stringLess a c = true := by
  induction a generalizing b c with
  | nil =>
    cases b with
    | nil => simp [stringLess] at h1
    | cons y ys =>
      cases c with
      | nil => simp [stringLess] at h2
      | cons z zs => simp [stringLess]
  | cons x xs ih =>
    cases b with
    | nil => simp [stringLess] at h1
    | cons y ys =>
      cases c with
      | nil => simp [stringLess] at h2
      | cons z zs =>
        simp only [stringLess] at h1 h2 ⊢
        by_cases hxy : x < y
        · by_cases hyz : y < z
          · simp [lt_trans hxy hyz]
          · rw [if_neg hyz] at h2
            by_cases hyz' : y = z
            · subst hyz'
              simp [hxy]
            · simp [hyz'] at h2
        · rw [if_neg hxy] at h1
          by_cases hxy' : x = y
          · subst hxy'
            rw [if_pos rfl] at h1
            by_cases hxz : x < z
            · simp [hxz]
            · rw [if_neg hxz] at h2 ⊢
              by_cases hxz' : x = z
              · subst hxz'
                rw [if_pos rfl] at h2 ⊢
                exact ih h1 h2
              · simp [hxz'] at h2
          · simp [hxy'] at h1

theorem stringLess_total (a b : GoString) :
    stringLess a b = true ∨ a = b ∨ stringLess b a = true := by
  induction a generalizing b with
  | nil =>
    cases b with
    | nil => exact Or.inr (Or.inl rfl)
    | cons y ys => exact Or.inl rfl
  | cons x xs ih =>
    cases b with
    | nil => exact Or.inr (Or.inr rfl)
    | cons y ys =>
      simp only [stringLess]
      rcases lt_trichotomy x y with h | h | h
      · left; simp [h]
      · subst h
        rcases ih ys with h' | h' | h'
        · left; simp [h']
        · right; left; rw [h']
        · right; right; simp [h']
      · right; right; simp [h]

theorem stringLess_of_le_of_ne {a b : GoString} (h : stringLess b a = false) (hne : a ≠ b) :
    stringLess a b = true := by
  rcases stringLess_total a b with h' | h' | h'
  · exact h'
  · exact absurd h' hne
  · rw [h] at h'; exact absurd h' (by decide)

theorem stringLess_of_lt_of_le {a b c : GoString} (h1 : stringLess a b = true)
    (h2 : stringLess c b = false) : stringLess a c = true := by
  rcases stringLess_total a c with h | h | h
  · exact h
  · subst h
    rw [h1] at h2; exact absurd h2 (by decide)
  · have := stringLess_trans h h1
    rw [this] at h2; exact absurd h2 (by decide)

theorem stringLess_ne {a b : GoString} (h : stringLess a b = true) : a ≠ b := by
  intro heq
  subst heq
  rw [stringLess_irrefl] at h
  exact absurd h (by decide)

theorem keyLe_trans {a b c : KeyValue} (h1 : Less b a = false) (h2 : Less c b = false) :
    Less c a = false := by
  unfold Less at *
  cases h : stringLess c.Key a.Key with
  | false => rfl
  | true =>
    have := stringLess_of_lt_of_le h h1
    rw [this] at h2
    exact absurd h2 (by decide)

theorem pairwise_of_isSorted {l : List KeyValue} (h : IsSorted l = true) :
    l.Pairwise (fun a b => Less b a = false) := by
  induction l with
  | nil => exact List.Pairwise.nil
  | cons a rest ih =>
    cases rest with
    | nil => simp
    | cons b bs =>
      simp only [IsSorted, Bool.and_eq_true, Bool.not_eq_true'] at h
      have hrest := ih h.2
      have hhead := (List.pairwise_cons.mp hrest).1
      rw [List.pairwise_cons]
      refine ⟨?_, hrest⟩
      intro x hx
      rcases List.mem_cons.mp hx with rfl | hx
      · exact h.1
      · exact keyLe_trans h.1 (hhead x hx)

theorem isSorted_of_pairwise {l : List KeyValue}
    (h : l.Pairwise (fun a b => Less b a = false)) : IsSorted l = true := by
  induction l with
  | nil => rfl
  | cons a rest ih =>
    cases rest with
    | nil => rfl
    | cons b bs =>
      rw [List.pairwise_cons] at h
      simp only [IsSorted, Bool.and_eq_true, Bool.not_eq_true']
      exact ⟨h.1 b (List.mem_cons_self _ _), ih h.2⟩

theorem sortByKey_contract (l : List KeyValue) :
    (sortByKey l).Perm l ∧ IsSorted (sortByKey l) = true := by
  haveI : IsTotal KeyValue (fun a b => Less b a = false) := ⟨by
    intro a b
    unfold Less
    rcases stringLess_total a.Key b.Key with h | h | h
    · left
      cases h' : stringLess b.Key a.Key with
      | false => rfl
      | true =>
        have := stringLess_trans h h'
        rw [stringLess_irrefl] at this
        exact absurd this (by decide)
    · left; rw [h]; exact stringLess_irrefl _
    · right
      cases h' : stringLess a.Key b.Key with
      | false => rfl
      | true =>
        have := stringLess_trans h h'
        rw [stringLess_irrefl] at this
        exact absurd this (by decide)⟩
  haveI : IsTrans KeyValue (fun a b => Less b a = false) := ⟨fun a b c h1 h2 => keyLe_trans h1 h2⟩
  exact ⟨List.perm_insertionSort _ l, isSorted_of_pairwise (List.sorted_insertionSort _ l)⟩

/-! The grouping loop of `doReduce` -/

theorem reduceCalls_key_mem {fuel : Nat} {l : List KeyValue} {p : GoString × List GoString}
    (h : p ∈ reduceCalls fuel l) : ∃ x ∈ l, x.Key = p.1 := by
  induction fuel generalizing l with
  | zero => simp [reduceCalls] at h
  | succ n ih =>
    cases l with
    | nil => simp [reduceCalls] at h
    | cons y rest =>
      simp only [reduceCalls, List.mem_cons] at h
      rcases h with rfl | h
      · exact ⟨y, List.mem_cons_self _ _, rfl⟩
      · obtain ⟨x, hx, hk⟩ := ih h
        exact ⟨x, List.mem_cons_of_mem _ ((List.dropWhile_sublist _).subset hx), hk⟩

/-- In a sorted slice, what the inner loop leaves behind has strictly larger
keys. -/
theorem dropWhile_key_gt (k : GoString) (rest : List KeyValue)
    (hs : rest.Pairwise (fun a b => Less b a = false))
    (hk : ∀ x ∈ rest, stringLess x.Key k = false) :
    ∀ x ∈ rest.dropWhile (fun x => x.Key = k), stringLess k x.Key = true := by
  induction rest with
  | nil => simp
  | cons y ys ih =>
    rw [List.pairwise_cons] at hs
    by_cases hy : y.Key = k
    · simp only [List.dropWhile_cons, hy, decide_True, if_true]
      exact ih hs.2 (fun x hx => hk x (List.mem_cons_of_mem _ hx))
    · simp only [List.dropWhile_cons, hy, decide_False]
      have hky : stringLess k y.Key = true :=
        stringLess_of_le_of_ne (hk y (List.mem_cons_self _ _)) (Ne.symm hy)
      intro x hx
      rcases List.mem_cons.mp hx with rfl | hx
      · exact hky
      · exact stringLess_of_lt_of_le hky (hs.1 x hx)

theorem filter_eq_self_of_forall {p : KeyValue → Bool} {l : List KeyValue}
    (h : ∀ x ∈ l, p x = true) : l.filter p = l :=
  List.filter_eq_self.mpr h

theorem filter_eq_nil_of_forall {p : KeyValue → Bool} {l : List KeyValue}
    (h : ∀ x ∈ l, p x = false) : l.filter p = [] := by
  induction l with
  | nil => rfl
  | cons y ys ih =>
    rw [List.filter_cons, h y (List.mem_cons_self _ _)]
    exact ih (fun x hx => h x (List.mem_cons_of_mem _ hx))

/-- On a sorted slice the grouping loop calls `reducef` on strictly ascending
keys, once for every key present, with the values of all the pairs of that
key. -/
theorem reduceCalls_sorted (fuel : Nat) (l : List KeyValue) (hfuel : l.length ≤ fuel)
    (hs : l.Pairwise (fun a b => Less b a = false)) :
    (reduceCalls fuel l).Pairwise (fun p q => stringLess p.1 q.1 = true) ∧
    (∀ x ∈ l, ∃ p ∈ reduceCalls fuel l, p.1 = x.Key) ∧
    (∀ p ∈ reduceCalls fuel l,
      p.2 = (l.filter (fun x => x.Key = p.1)).map KeyValue.Value) := by
  induction fuel generalizing l with
  | zero =>
    have : l = [] := List.length_eq_zero.mp (by omega)
    subst this
    simp [reduceCalls]
  | succ n ih =>
    cases l with
    | nil => simp [reduceCalls]
    | cons y rest =>
      rw [List.pairwise_cons] at hs
      have hle : ∀ x ∈ rest, stringLess x.Key y.Key = false := fun x hx => hs.1 x hx
      have hgt := dropWhile_key_gt y.Key rest hs.2 hle
      have hsub := List.dropWhile_sublist (fun x : KeyValue => decide (x.Key = y.Key)) (l := rest)
      have hlen : (rest.dropWhile (fun x => x.Key = y.Key)).length ≤ n := by
        have := hsub.length_le
        simp only [List.length_cons] at hfuel
        omega
      obtain ⟨h1, h2, h3⟩ := ih _ hlen (hs.2.sublist hsub)
      have htw : ∀ x ∈ rest.takeWhile (fun x => x.Key = y.Key), x.Key = y.Key := by
        intro x hx
        simpa using List.mem_takeWhile_imp hx
      have hsplit : rest.takeWhile (fun x => x.Key = y.Key) ++
          rest.dropWhile (fun x => x.Key = y.Key) = rest := List.takeWhile_append_dropWhile _ _
      simp only [reduceCalls]
      refine ⟨?_, ?_, ?_⟩
      · rw [List.pairwise_cons]
        refine ⟨?_, h1⟩
        intro p hp
        obtain ⟨x, hx, hxk⟩ := reduceCalls_key_mem hp
        rw [← hxk]
        exact hgt x hx
      · intro x hx
        rcases List.mem_cons.mp hx with rfl | hx
        · exact ⟨_, List.mem_cons_self _ _, rfl⟩
        · rw [← hsplit] at hx
          rcases List.mem_append.mp hx with hx | hx
          · exact ⟨_, List.mem_cons_self _ _, (htw x hx).symm⟩
          · obtain ⟨p, hp, hpk⟩ := h2 x hx
            exact ⟨p, List.mem_cons_of_mem _ hp, hpk⟩
      · intro p hp
        rcases List.mem_cons.mp hp with rfl | hp
        · simp only [List.filter_cons, decide_True, if_true, List.map_cons]
          have hA : (rest.takeWhile (fun x => x.Key = y.Key)).filter
              (fun x => decide (x.Key = y.Key)) = rest.takeWhile (fun x => x.Key = y.Key) :=
            filter_eq_self_of_forall (fun x hx => by simp [htw x hx])
          have hB : (rest.dropWhile (fun x => x.Key = y.Key)).filter
              (fun x => decide (x.Key = y.Key)) = [] :=
            filter_eq_nil_of_forall (fun x hx => by
              simp only [decide_eq_false_iff_not]
              exact fun heq => stringLess_ne (hgt x hx) heq.symm)
          congr 2
          conv_rhs => rw [← hsplit]
          rw [List.filter_append, hA, hB, List.append_nil]
        · obtain ⟨x, hx, hxk⟩ := reduceCalls_key_mem hp
          have hne : y.Key ≠ p.1 := by rw [← hxk]; exact stringLess_ne (hgt x hx)
          have hA : (rest.takeWhile (fun x => x.Key = y.Key)).filter
              (fun x => decide (x.Key = p.1)) = [] :=
            filter_eq_nil_of_forall (fun z hz => by
              simp only [decide_eq_false_iff_not]
              rw [htw z hz]; exact hne)
          rw [h3 p hp]
          congr 1
          simp only [List.filter_cons, hne, decide_False]
          conv_rhs => rw [← hsplit]
          rw [List.filter_append, hA, List.nil_append]
          simp

/-- What the grouping loop of `doReduce` does to any sorted permutation of the
pairs read. -/
theorem reduceCalls_of_sorted_perm {intermediate sorted : List KeyValue}
    (hperm : sorted.Perm intermediate) (hsorted : IsSorted sorted = true) :
    (reduceCalls sorted.length sorted).Pairwise (fun p q => stringLess p.1 q.1 = true) ∧
    ((reduceCalls sorted.length sorted).map Prod.fst).Nodup ∧
    (∀ k, k ∈ (reduceCalls sorted.length sorted).map Prod.fst ↔
      ∃ x ∈ intermediate, x.Key = k) ∧
    (∀ p ∈ reduceCalls sorted.length sorted,
      p.2.Perm ((intermediate.filter (fun x => x.Key = p.1)).map KeyValue.Value)) := by
  obtain ⟨h1, h2, h3⟩ :=
    reduceCalls_sorted sorted.length sorted (le_refl _) (pairwise_of_isSorted hsorted)
  refine ⟨h1, ?_, ?_, ?_⟩
  · rw [List.Nodup, List.pairwise_map]
    exact h1.imp (fun h => stringLess_ne h)
  · intro k
    constructor
    · intro hk
      obtain ⟨p, hp, rfl⟩ := List.mem_map.mp hk
      obtain ⟨x, hx, hxk⟩ := reduceCalls_key_mem hp
      exact ⟨x, hperm.mem_iff.mp hx, hxk⟩
    · rintro ⟨x, hx, rfl⟩
      obtain ⟨p, hp, hpk⟩ := h2 x (hperm.mem_iff.mpr hx)
      exact List.mem_map.mpr ⟨p, hp, hpk⟩
  · intro p hp
    rw [h3 p hp]
    exact (hperm.filter _).map _

/-! From the map outputs to the reduce inputs -/

theorem partition_getD (kva : List KeyValue) {NReduce : Int} (hpos : 0 < NReduce) {r : Nat}
    (hr : (r : Int) < NReduce) :
    ∃ res, partition kva NReduce = some res ∧
      res.getD r [] = kva.filter (fun x => ihash x.Key % NReduce = (r : Int)) := by
  have hlen : ((List.replicate NReduce.toNat ([] : List KeyValue)).length : Int) = NReduce := by
    rw [List.length_replicate]
    omega
  obtain ⟨res, hres, -, hget, -⟩ := partitionLoop_spec hpos kva _ hlen
  refine ⟨res, by rw [partition, if_neg (by omega)]; exact hres, ?_⟩
  have hr' : r < NReduce.toNat := by omega
  have := hget r [] (by simp [List.getElem?_replicate, hr'])
  rw [List.getD_eq_getElem?_getD, this]
  simp

theorem mem_flatten_iff (kvas : List (List KeyValue)) (x : KeyValue) :
    x ∈ kvas.flatten ↔ ∃ kva ∈ kvas, x ∈ kva := by
  simp [List.mem_flatten]

/-! Decimal names are unambiguous -/

/-- A decimal digit character encodes its digit and is not the minus sign. -/
theorem digitChar_val : ∀ k, k < 10 → (Nat.digitChar k).toNat - 48 = k ∧ Nat.digitChar k ≠ '-' := by
  decide

theorem toDigitsCore_append (fuel n : Nat) (ds : List Char) :
    Nat.toDigitsCore 10 fuel n ds = Nat.toDigitsCore 10 fuel n [] ++ ds := by
  induction fuel generalizing n ds with
  | zero => simp [Nat.toDigitsCore]
  | succ f ih =>
    simp only [Nat.toDigitsCore]
    by_cases h : n / 10 = 0
    · simp [h]
    · simp only [h, if_false]
      rw [ih (n / 10) (Nat.digitChar (n % 10) :: ds), ih (n / 10) [Nat.digitChar (n % 10)]]
      simp

theorem toDigitsCore_eval (fuel n : Nat) (h : n < fuel) :
    (Nat.toDigitsCore 10 fuel n []).foldl (fun acc c => acc * 10 + (c.toNat - 48)) 0 = n ∧
    ∀ c ∈ Nat.toDigitsCore 10 fuel n [], c ≠ '-' := by
  induction fuel generalizing n with
  | zero => omega
  | succ f ih =>
    have hd := digitChar_val (n % 10) (Nat.mod_lt _ (by norm_num))
    simp only [Nat.toDigitsCore]
    by_cases h0 : n / 10 = 0
    · simp only [h0, if_true, List.foldl_cons, List.foldl_nil, List.mem_singleton]
      refine ⟨?_, fun c hc => by rw [hc]; exact hd.2⟩
      rw [hd.1]
      omega
    · simp only [h0, if_false]
      rw [toDigitsCore_append]
      have hlt : n / 10 < f := by omega
      obtain ⟨h1, h2⟩ := ih (n / 10) hlt
      refine ⟨?_, ?_⟩
      · rw [List.foldl_append, h1]
        simp only [List.foldl_cons, List.foldl_nil]
        rw [hd.1]
        omega
      · intro c hc
        rcases List.mem_append.mp hc with hc | hc
        · exact h2 c hc
        · rw [List.mem_singleton.mp hc]; exact hd.2

theorem toDigits_injective {m n : Nat} (h : Nat.toDigits 10 m = Nat.toDigits 10 n) : m = n := by
  have hm := (toDigitsCore_eval (m + 1) m (by omega)).1
  have hn := (toDigitsCore_eval (n + 1) n (by omega)).1
  unfold Nat.toDigits at h
  rw [h] at hm
  omega

theorem toDigits_no_dash (n : Nat) : ∀ c ∈ Nat.toDigits 10 n, c ≠ '-' :=
  (toDigitsCore_eval (n + 1) n (by omega)).2

theorem split_at_dash {l1 l2 r1 r2 : List Char} (h1 : ∀ c ∈ l1, c ≠ '-')
    (h2 : ∀ c ∈ l2, c ≠ '-') (h : l1 ++ '-' :: r1 = l2 ++ '-' :: r2) : l1 = l2 ∧ r1 = r2 := by
  induction l1 generalizing l2 with
  | nil =>
    cases l2 with
    | nil => simpa using h
    | cons y ys =>
      simp only [List.nil_append, List.cons_append, List.cons.injEq] at h
      exact absurd h.1.symm (h2 y (List.mem_cons_self _ _))
  | cons x xs ih =>
    cases l2 with
    | nil =>
      simp only [List.nil_append, List.cons_append, List.cons.injEq] at h
      exact absurd h.1 (h1 x (List.mem_cons_self _ _))
    | cons y ys =>
      simp only [List.cons_append, List.cons.injEq] at h
      obtain ⟨hxs, hr⟩ := ih (fun c hc => h1 c (List.mem_cons_of_mem _ hc))
        (fun c hc => h2 c (List.mem_cons_of_mem _ hc)) h.2
      exact ⟨by rw [h.1, hxs], hr⟩

theorem sprintfMr_data (a b : Nat) :
    (sprintfMr (a : Int) (b : Int)).data =
      ['m', 'r', '-'] ++ (Nat.toDigits 10 a ++ '-' :: Nat.toDigits 10 b) := by
  simp [sprintfMr, formatInt, Nat.repr, String.data_append, List.asString]

/-- Two intermediate files have the same name only if they belong to the same
map task and the same bucket. -/
theorem sprintfMr_injective {a b a' b' : Nat}
    (h : sprintfMr (a : Int) (b : Int) = sprintfMr (a' : Int) (b' : Int)) : a = a' ∧ b = b' := by
  have hd := congrArg String.data h
  rw [sprintfMr_data, sprintfMr_data] at hd
  have hd' := List.append_cancel_left hd
  obtain ⟨h1, h2⟩ := split_at_dash (toDigits_no_dash a) (toDigits_no_dash a') hd'
  exact ⟨toDigits_injective h1, toDigits_injective h2⟩

/-! The file system after the map phase -/

theorem foldl_renameInto_other (files : List ShardFile) (fs : FileSystem) (name : String)
    (h : ∀ f ∈ files, f.name ≠ name) : (files.foldl renameInto fs) name = fs name := by
  induction files generalizing fs with
  | nil => rfl
  | cons g gs ih =>
    rw [List.foldl_cons, ih _ (fun f hf => h f (List.mem_cons_of_mem _ hf))]
    have hg : name ≠ g.name := fun heq => h g (List.mem_cons_self _ _) heq.symm
    simp [renameInto, hg]

theorem foldl_renameInto_hit (files : List ShardFile) (fs : FileSystem) (name : String)
    (recs : List KeyValue) (hex : ∃ f ∈ files, f.name = name)
    (hall : ∀ f ∈ files, f.name = name → f.records = recs) :
    (files.foldl renameInto fs) name = some recs := by
  induction files generalizing fs with
  | nil =>
    obtain ⟨f, hf, -⟩ := hex
    simp at hf
  | cons g gs ih =>
    rw [List.foldl_cons]
    by_cases hlater : ∃ f ∈ gs, f.name = name
    · exact ih _ hlater (fun f hf => hall f (List.mem_cons_of_mem _ hf))
    · have hnone : ∀ f ∈ gs, f.name ≠ name := fun f hf heq => hlater ⟨f, hf, heq⟩
      rw [foldl_renameInto_other gs _ name hnone]
      obtain ⟨f, hf, hname⟩ := hex
      rcases List.mem_cons.mp hf with rfl | hf
      · simp [renameInto, hname, hall f (List.mem_cons_self _ _) hname]
      · exact absurd hname (hnone f hf)

theorem writeShards_get_some {task : Task} {buckets : List (List KeyValue)} {k : Int} {r : Nat}
    {b : List KeyValue} (h : buckets[r]? = some b) :
    (writeShards task buckets k)[r]? =
      some { name := sprintfMr task.Id (k + r), records := b } := by
  induction buckets generalizing k r with
  | nil => simp at h
  | cons x xs ih =>
    cases r with
    | zero =>
      simp only [List.getElem?_cons_zero, Option.some.injEq] at h
      subst h
      simp [writeShards]
    | succ n =>
      simp only [List.getElem?_cons_succ] at h
      simp only [writeShards, List.getElem?_cons_succ]
      rw [ih h]
      have : k + 1 + (n : Int) = k + ((n + 1 : Nat) : Int) := by push_cast; ring
      rw [this]

theorem partition_buckets (kva : List KeyValue) {NReduce : Int} (hpos : 0 < NReduce) :
    ∃ res, partition kva NReduce = some res ∧ (res.length : Int) = NReduce ∧
      ∀ r : Nat, (r : Int) < NReduce →
        res[r]? = some (kva.filter (fun x => ihash x.Key % NReduce = (r : Int))) := by
  have hlen : ((List.replicate NReduce.toNat ([] : List KeyValue)).length : Int) = NReduce := by
    rw [List.length_replicate]
    omega
  obtain ⟨res, hres, hl, hget, -⟩ := partitionLoop_spec hpos kva _ hlen
  refine ⟨res, by rw [partition, if_neg (by omega)]; exact hres, by rw [hl]; exact hlen, ?_⟩
  intro r hr
  have hr' : r < NReduce.toNat := by omega
  have := hget r [] (by simp [List.getElem?_replicate, hr'])
  simpa using this

/-- What one map task leaves in the file system: bucket `r` under the name of
the task and of `r`, and nothing under any other name. -/
theorem doMap_fileSystem (mapf : String → GoString → List KeyValue)
    (readFile : String → Option GoString) (task : Task) (k : Nat) {NReduce : Int}
    (hpos : 0 < NReduce) (hid : task.Id = (k : Int)) (hnr : task.NReduce = NReduce)
    (hread : (readFile task.FileName).isSome = true) (fs : FileSystem) :
    ∃ files, doMap task mapf readFile = some files ∧
      (∀ r : Nat, (r : Int) < NReduce →
        (files.foldl renameInto fs) (sprintfMr (k : Int) (r : Int)) =
          some ((mapOutput mapf readFile task.FileName).filter
            (fun x => ihash x.Key % NReduce = (r : Int)))) ∧
      (∀ n, (∀ r : Nat, n ≠ sprintfMr (k : Int) (r : Int)) →
        (files.foldl renameInto fs) n = fs n) := by
  obtain ⟨content, hcontent⟩ := Option.isSome_iff_exists.mp hread
  obtain ⟨res, hres, hlen, hget⟩ :=
    partition_buckets (mapf task.FileName content) hpos
  have hout : mapOutput mapf readFile task.FileName = mapf task.FileName content := by
    simp [mapOutput, hcontent]
  have hfiles : ∀ f ∈ writeShards task res 0, ∃ r : Nat,
      f.name = sprintfMr (k : Int) (r : Int) ∧ res[r]? = some f.records := by
    intro f hf
    obtain ⟨r, hr⟩ := List.getElem?_of_mem hf
    obtain ⟨h1, h2⟩ := writeShards_get hr
    exact ⟨r, by rw [h1, hid, zero_add], h2⟩
  refine ⟨writeShards task res 0, by simp [doMap, hcontent, hnr, hres], ?_, ?_⟩
  · intro r hr
    rw [hout]
    apply foldl_renameInto_hit
    · refine ⟨_, List.getElem?_mem (writeShards_get_some (hget r hr)), ?_⟩
      simp only
      rw [hid, zero_add]
    · intro f hf hname
      obtain ⟨r', hn', hrec'⟩ := hfiles f hf
      rw [hn'] at hname
      obtain ⟨-, hrr⟩ := sprintfMr_injective hname
      subst hrr
      rw [hget r' hr] at hrec'
      simp only [Option.some.injEq] at hrec'
      exact hrec'.symm
  · intro n hn
    apply foldl_renameInto_other
    intro f hf heq
    obtain ⟨r, hr, -⟩ := hfiles f hf
    exact hn r (by rw [← heq, hr])

/-- The file system after all map tasks of the job have run: the file named after
map task `k + m` and bucket `r` holds bucket `r` of the output of that task. -/
theorem runMapTasks_fileSystem (mapf : String → GoString → List KeyValue)
    (readFile : String → Option GoString) {NReduce : Int} (hpos : 0 < NReduce)
    (names : List String) (k : Nat) (fs : FileSystem)
    (hread : ∀ name ∈ names, (readFile name).isSome = true) :
    ∃ fs', runMapTasks mapf readFile
        ((makeMapTasks NReduce names (k : Int)).map TaskInfo.Task) fs = some fs' ∧
      (∀ (m r : Nat) (name : String), names[m]? = some name → (r : Int) < NReduce →
        fs' (sprintfMr ((k + m : Nat) : Int) (r : Int)) =
          some ((mapOutput mapf readFile name).filter
            (fun x => ihash x.Key % NReduce = (r : Int)))) ∧
      (∀ n, (∀ m r : Nat, m < names.length → n ≠ sprintfMr ((k + m : Nat) : Int) (r : Int)) →
        fs' n = fs n) := by
  induction names generalizing k fs with
  | nil =>
    refine ⟨fs, rfl, ?_, fun n _ => rfl⟩
    intro m r name h
    simp at h
  | cons name rest ih =>
    obtain ⟨files, hfiles, hhit, hother⟩ :=
      doMap_fileSystem mapf readFile
        { Typ := TaskType.MapTask, Id := (k : Int), FileName := name,
          NReduce := NReduce, NMap := 0 } k hpos rfl rfl
        (hread name (List.mem_cons_self _ _)) fs
    obtain ⟨fs', hrun, hi, hii⟩ := ih (k + 1) (files.foldl renameInto fs)
      (fun n hn => hread n (List.mem_cons_of_mem _ hn))
    have hcast : ((k + 1 : Nat) : Int) = (k : Int) + 1 := by push_cast; rfl
    refine ⟨fs', ?_, ?_, ?_⟩
    · simp only [makeMapTasks, List.map_cons, runMapTasks, hfiles]
      rw [← hcast]
      exact hrun
    · intro m r nm hm hr
      cases m with
      | zero =>
        simp only [List.getElem?_cons_zero, Option.some.injEq] at hm
        subst hm
        rw [hii, Nat.add_zero]
        · exact hhit r hr
        · intro m' r' _ heq
          have := (sprintfMr_injective heq).1
          omega
      | succ m' =>
        simp only [List.getElem?_cons_succ] at hm
        have := hi m' r nm hm hr
        have harith : k + 1 + m' = k + (m' + 1) := by omega
        rw [harith] at this
        exact this
    · intro n hn
      rw [hii]
      · apply hother
        intro r
        have := hn 0 r (by simp)
        simpa using this
      · intro m' r' hm' heq
        have harith : k + 1 + m' = k + (m' + 1) := by omega
        rw [harith] at heq
        exact hn (m' + 1) r' (by simp only [List.length_cons]; omega) heq

/-- What `doReduce` reads when the file of every map task opens and decodes. -/
theorem readShards_names (task : Task) (openFile : String → Option (List (Option KeyValue)))
    (bucket : String → List KeyValue) (names : List String) (k : Nat)
    (h : ∀ (m : Nat) (name : String), names[m]? = some name →
      openFile (sprintfMr ((k + m : Nat) : Int) task.Id) =
        some ((bucket name).map (fun x => some (roundTripRecord x)))) :
    readShards task openFile names.length (k : Int) =
      names.flatMap (fun name => (bucket name).map roundTripRecord) := by
  induction names generalizing k with
  | nil => rfl
  | cons name rest ih =>
    have h0 := h 0 name (by simp)
    rw [Nat.add_zero] at h0
    have hdec : ∀ l : List KeyValue,
        decodeAll (l.map (fun x => some (roundTripRecord x))) = l.map roundTripRecord := by
      intro l
      induction l with
      | nil => rfl
      | cons y ys ihy => simp [decodeAll, ihy]
    have hrest := ih (k + 1) (fun m nm hm => by
      have := h (m + 1) nm (by simpa using hm)
      have harith : k + (m + 1) = k + 1 + m := by omega
      rw [harith] at this
      exact this)
    have hcast : ((k + 1 : Nat) : Int) = (k : Int) + 1 := by push_cast; rfl
    rw [hcast] at hrest
    simp only [List.length_cons, readShards, h0, hdec, hrest, List.flatMap_cons]

/-! From the map outputs to the pairs a reduce task reads -/

theorem flatMap_filter_map (names : List String) (out : String → List KeyValue)
    (p : KeyValue → Bool) (f : KeyValue → KeyValue) :
    names.flatMap (fun name => ((out name).filter p).map f) =
      ((names.flatMap out).filter p).map f := by
  induction names with
  | nil => rfl
  | cons n ns ih => simp [List.flatMap_cons, List.filter_append, List.map_append, ih]

/-- The values read for a key whose round trip is the key itself. -/
theorem values_of_key (all : List KeyValue) (NReduce : Int) (r : Nat) (k : GoString)
    (hkeys : ∀ x ∈ all, jsonRoundTrip x.Key = x.Key) (hk : ihash k % NReduce = (r : Int)) :
    ((((all.filter (fun x => ihash x.Key % NReduce = (r : Int))).map roundTripRecord).filter
        (fun x => x.Key = k)).map KeyValue.Value) =
      (all.filter (fun x => x.Key = k)).map (fun x => jsonRoundTrip x.Value) := by
  induction all with
  | nil => rfl
  | cons x xs ih =>
    have ih' := ih (fun y hy => hkeys y (List.mem_cons_of_mem _ hy))
    have hx := hkeys x (List.mem_cons_self _ _)
    have hrk : (roundTripRecord x).Key = x.Key := hx
    by_cases hxk : x.Key = k
    · have hh : ihash x.Key % NReduce = (r : Int) := by rw [hxk]; exact hk
      rw [List.filter_cons_of_pos (by simpa using hh), List.map_cons,
        List.filter_cons_of_pos (by simpa [hrk] using hxk), List.map_cons,
        List.filter_cons_of_pos (by simpa using hxk), List.map_cons, ih']
      rfl
    · by_cases hh : ihash x.Key % NReduce = (r : Int)
      · rw [List.filter_cons_of_pos (by simpa using hh), List.map_cons,
          List.filter_cons_of_neg (by simpa [hrk] using hxk),
          List.filter_cons_of_neg (by simpa using hxk), ih']
      · rw [List.filter_cons_of_neg (by simpa using hh),
          List.filter_cons_of_neg (by simpa using hxk), ih']

/-- The pairs reduce task `r` reads once the map phase of the job is over: the
round trips of the pairs hashed to `r`, in the order of the map tasks. -/
theorem job_reduce_input (mapf : String → GoString → List KeyValue)
    (readFile : String → Option GoString) {NReduce : Int} (hpos : 0 < NReduce)
    (fileNames : List String) (hread : ∀ name ∈ fileNames, (readFile name).isSome = true) :
    ∃ fs, runMapTasks mapf readFile
        ((makeMapTasks NReduce fileNames 0).map TaskInfo.Task) emptyFS = some fs ∧
      ∀ (r : Nat) (t : TaskInfo),
        (makeReduceTasks (fileNames.length : Int) NReduce.toNat 0)[r]? = some t →
          (r : Int) < NReduce ∧
          readShards t.Task (openDecoded fs) t.Task.NMap.toNat 0 =
            ((fileNames.flatMap (mapOutput mapf readFile)).filter
              (fun x => ihash x.Key % NReduce = (r : Int))).map roundTripRecord := by
  obtain ⟨fs, hrun, hi, -⟩ := runMapTasks_fileSystem mapf readFile hpos fileNames 0 emptyFS hread
  simp only [Nat.cast_zero, Nat.zero_add] at hrun hi
  refine ⟨fs, hrun, ?_⟩
  intro r t ht
  have hlt : r < NReduce.toNat := by
    have := (List.getElem?_eq_some.mp ht).1
    rw [makeReduceTasks_length] at this
    exact this
  have hr : (r : Int) < NReduce := by omega
  rw [makeReduceTasks_get_index hlt] at ht
  simp only [Option.some.injEq] at ht
  subst ht
  refine ⟨hr, ?_⟩
  simp only [zero_add, Int.toNat_ofNat]
  have := readShards_names
    { Typ := TaskType.ReduceTask, Id := (r : Int), FileName := "", NReduce := 0,
      NMap := (fileNames.length : Int) }
    (openDecoded fs)
    (fun name => (mapOutput mapf readFile name).filter
      (fun x => ihash x.Key % NReduce = (r : Int)))
    fileNames 0
    (fun m name hm => by
      simp only [Nat.zero_add, openDecoded, hi m r name hm hr])
  simp only [Nat.cast_zero] at this
  rw [this, flatMap_filter_map]

theorem sampleJob_make : MakeCoordinator sampleJobFiles 2 = some sampleJob := by
  decide

theorem latin1Job_make : MakeCoordinator ["a.txt"] 2 = some latin1Job := by
  decide

theorem sampleJob_keys :
    ∀ x ∈ sampleJobFiles.flatMap (mapOutput sampleJobMapf sampleReadFile),
      jsonRoundTrip x.Key = x.Key := by
  decide

set_option maxRecDepth 8000 in
theorem sampleJob_outputs :
    (runMapTasks sampleJobMapf sampleReadFile (sampleJob.mapTasks.map TaskInfo.Task) emptyFS).map
        (fun fs => sampleJob.reduceTasks.map
          (fun t => doReduce t.Task countValues (openDecoded fs) sortByKey)) =
      some [{ name := "mr-out-0", lines := [ascii "y 2\n"] },
            { name := "mr-out-1", lines := [ascii "x 2\n", ascii "z 1\n"] }] := by
  decide

set_option maxRecDepth 8000 in
theorem latin1Job_outputs :
    (runMapTasks latin1Mapf sampleReadFile (latin1Job.mapTasks.map TaskInfo.Task) emptyFS).map
        (fun fs => latin1Job.reduceTasks.map
          (fun t => (doReduce t.Task countValues (openDecoded fs) sortByKey,
            (doReduceCalls t.Task (openDecoded fs) sortByKey).map Prod.fst))) =
      some [({ name := "mr-out-0", lines := [keyFFFD ++ ascii " 1\n"] }, [keyFFFD]),
            ({ name := "mr-out-1", lines := [keyFFFD ++ ascii " 1\n"] }, [keyFFFD])] := by
  decide

/-! The claims -/

/-- C1, phase barrier: in every state reachable from `MakeCoordinator files nReduce`
by `RequestTask`, non-panicking `ReportTask` and sweep steps, if `RequestTask`
returns a task of kind Reduce then `mapTasksCompleted = nMap` and every map
record has status `Completed`. -/
theorem phase_barrier (files : List String) (nReduce : Int) (c : Coordinator) (now : Int)
    (hreach : Reachable files nReduce c)
    (hred : (RequestTask c now).2.1.Task.Typ = TaskType.ReduceTask) :
    c.mapTasksCompleted = c.nMap ∧ ∀ t ∈ c.mapTasks, t.Status = TaskStatus.Completed := by
  have hinv := inv_of_reachable hreach
  have hle := countCompleted_le c.mapTasks
  have hdone : ¬ c.mapTasksCompleted < c.nMap := by
    rcases RequestTask_cases c now with
      ⟨hm, i, t, hfi, heq⟩ | ⟨hm, -, heq⟩ | ⟨hm, -⟩ | ⟨hm, -⟩ | ⟨hm, -⟩
    · rw [heq] at hred
      rw [(hinv.mapDesc i t hfi.1).1] at hred
      exact absurd hred (by decide)
    · rw [heq] at hred
      simp [taskOfType] at hred
    · exact hm
    · exact hm
    · exact hm
  have hcount : countCompleted c.mapTasks = c.mapTasks.length := by
    have h1 := hinv.mapCount
    have h2 := hinv.nMap_eq
    have h3 := hinv.mapLen
    omega
  refine ⟨?_, countCompleted_eq_length hcount⟩
  rw [hinv.mapCount, hinv.nMap_eq, hcount, hinv.mapLen]

/-- Witness of C1 on the one-file job whose map task has been reported. -/
theorem phase_barrier_witness :
    Reachable ["a.txt"] 1 sampleMapDone ∧
    (RequestTask sampleMapDone 7).2.1.Task.Typ = TaskType.ReduceTask ∧
    (sampleMapDone.mapTasksCompleted = sampleMapDone.nMap ∧
      ∀ t ∈ sampleMapDone.mapTasks, t.Status = TaskStatus.Completed) :=
  ⟨sampleMapDone_reachable, by decide,
    phase_barrier ["a.txt"] 1 sampleMapDone 7 sampleMapDone_reachable (by decide)⟩

/-- C3, counter invariant: in every state reachable from
`MakeCoordinator files nReduce`, `mapTasksCompleted` is the number of map
records with status `Completed` and `reduceTasksCompleted` is the number of
reduce records with status `Completed`; hence both counters lie between 0 and
the task count of their phase. -/
theorem counter_invariant (files : List String) (nReduce : Int) (c : Coordinator)
    (hreach : Reachable files nReduce c) :
    c.mapTasksCompleted =
      (c.mapTasks.filter (fun t => t.Status = TaskStatus.Completed)).length ∧
    c.reduceTasksCompleted =
      (c.reduceTasks.filter (fun t => t.Status = TaskStatus.Completed)).length ∧
    0 ≤ c.mapTasksCompleted ∧ c.mapTasksCompleted ≤ c.nMap ∧
    0 ≤ c.reduceTasksCompleted ∧ c.reduceTasksCompleted ≤ c.nReduce := by
  have hinv := inv_of_reachable hreach
  have h1 := countCompleted_le c.mapTasks
  have h2 := countCompleted_le c.reduceTasks
  have h3 := hinv.mapCount
  have h4 := hinv.reduceCount
  have h5 := hinv.nMap_eq
  have h6 := hinv.mapLen
  have h7 := hinv.nReduce_eq
  have h8 := hinv.reduceLen
  refine ⟨?_, ?_, ?_, ?_, ?_, ?_⟩
  · rw [h3, countCompleted_eq_filter]
  · rw [h4, countCompleted_eq_filter]
  · omega
  · omega
  · omega
  · omega

/-- Witness of C3 on the one-file job whose map task has been reported. -/
theorem counter_invariant_witness :
    Reachable ["a.txt"] 1 sampleMapDone ∧
    (sampleMapDone.mapTasksCompleted =
      (sampleMapDone.mapTasks.filter (fun t => t.Status = TaskStatus.Completed)).length ∧
    sampleMapDone.reduceTasksCompleted =
      (sampleMapDone.reduceTasks.filter (fun t => t.Status = TaskStatus.Completed)).length ∧
    0 ≤ sampleMapDone.mapTasksCompleted ∧
    sampleMapDone.mapTasksCompleted ≤ sampleMapDone.nMap ∧
    0 ≤ sampleMapDone.reduceTasksCompleted ∧
    sampleMapDone.reduceTasksCompleted ≤ sampleMapDone.nReduce) :=
  ⟨sampleMapDone_reachable, counter_invariant ["a.txt"] 1 sampleMapDone sampleMapDone_reachable⟩

/-- C2, at-most-once accounting: from every coordinator state and along every
sequence of events (requests, sweeps, reports of any task), the reports of one
fixed pair `(TaskId, TaskType)` raise the completion counter of that kind by
at most 1 in total, and never lower it; and `n ≥ 1` consecutive reports of the
pair leave the same state as a single one.  This holds for every pair, in
particular for the in-range pairs of kind Map or Reduce. -/
theorem report_counted_once (c : Coordinator) (args : ReportTaskArgs) (evs : List Event) :
    (0 ≤ reportGain args c evs ∧ reportGain args c evs ≤ 1) ∧
    ∀ n : Nat, 1 ≤ n →
      run c (List.replicate n (Event.report args)) = run c [Event.report args] := by
  refine ⟨reportGain_bounds args evs c, ?_⟩
  intro n hn
  obtain ⟨k, rfl⟩ : ∃ k, n = k + 1 := ⟨n - 1, by omega⟩
  simp only [List.replicate_succ, run, step]
  cases hr : ReportTask c args with
  | none => rfl
  | some p =>
    obtain ⟨c', e⟩ := p
    simp only [Option.map_some']
    exact run_replicate_report (report_again hr) k

set_option maxRecDepth 8000 in
theorem crashTrace_gain :
    reportGain { TaskId := 0, TaskType := TaskType.MapTask } sampleInit crashTrace = 1 := by
  decide

/-- Witness of C2 on the crash scenario: the two reports of map task 0 raise
the map counter by exactly 1. -/
theorem report_counted_once_witness :
    reportGain { TaskId := 0, TaskType := TaskType.MapTask } sampleInit crashTrace = 1 ∧
    ((0 ≤ reportGain { TaskId := 0, TaskType := TaskType.MapTask } sampleInit crashTrace ∧
      reportGain { TaskId := 0, TaskType := TaskType.MapTask } sampleInit crashTrace ≤ 1) ∧
    ∀ n : Nat, 1 ≤ n →
      run sampleInit (List.replicate n
        (Event.report { TaskId := 0, TaskType := TaskType.MapTask })) =
      run sampleInit [Event.report { TaskId := 0, TaskType := TaskType.MapTask }]) :=
  ⟨crashTrace_gain,
    report_counted_once sampleInit { TaskId := 0, TaskType := TaskType.MapTask } crashTrace⟩

/-- C5, transition of `ReportTask`: for every coordinator state and every pair
`(TaskId, TaskType)` that names a record `t` (so the kind is Map or Reduce and
the id is in range), if `t` is `InProgress` the call succeeds with error `nil`,
the named record becomes `t` with status `Completed`, the counter of that kind
grows by exactly 1, and every other record of that kind, the records and the
counter of the other kind, `nMap` and `nReduce` are unchanged; if `t` is `Idle`
or `Completed` the call succeeds and leaves the whole state unchanged. -/
theorem reportTask_transition (c : Coordinator) (args : ReportTaskArgs) (t : TaskInfo)
    (hrec : index (recordsOf args.TaskType c) args.TaskId = some t) :
    (args.TaskType = TaskType.MapTask ∨ args.TaskType = TaskType.ReduceTask) ∧
    (t.Status = TaskStatus.InProgress →
      ∃ c', ReportTask c args = some (c', none) ∧
        index (recordsOf args.TaskType c') args.TaskId =
          some { t with Status := TaskStatus.Completed } ∧
        (∀ j : Nat, j ≠ args.TaskId.toNat →
          (recordsOf args.TaskType c')[j]? = (recordsOf args.TaskType c)[j]?) ∧
        counterOf args.TaskType c' = counterOf args.TaskType c + 1 ∧
        (args.TaskType = TaskType.MapTask →
          c'.reduceTasks = c.reduceTasks ∧ c'.reduceTasksCompleted = c.reduceTasksCompleted) ∧
        (args.TaskType = TaskType.ReduceTask →
          c'.mapTasks = c.mapTasks ∧ c'.mapTasksCompleted = c.mapTasksCompleted) ∧
        c'.nMap = c.nMap ∧ c'.nReduce = c.nReduce) ∧
    (t.Status ≠ TaskStatus.InProgress → ReportTask c args = some (c, none)) := by
  obtain ⟨id, ty⟩ := args
  simp only at hrec ⊢
  obtain ⟨hnn, hget⟩ := index_eq_some.mp hrec
  obtain ⟨hlt, -⟩ := List.getElem?_eq_some.mp hget
  cases ty with
  | MapTask =>
    simp only [recordsOf] at hrec hget hlt
    refine ⟨Or.inl rfl, fun hip => ?_, fun hnip => ?_⟩
    · refine ⟨{ c with mapTasks := c.mapTasks.set id.toNat (completed t)
                       mapTasksCompleted := c.mapTasksCompleted + 1 }, ?_, ?_, ?_, rfl,
        fun _ => ⟨rfl, rfl⟩, fun h => absurd h (by decide), rfl, rfl⟩
      · simp [ReportTask, hrec, hip, completed]
      · exact index_eq_some.mpr ⟨hnn, List.getElem?_set_self hlt⟩
      · intro j hj
        simp only [recordsOf]
        exact List.getElem?_set_ne (Ne.symm hj)
    · simp [ReportTask, hrec, hnip]
  | ReduceTask =>
    simp only [recordsOf] at hrec hget hlt
    refine ⟨Or.inr rfl, fun hip => ?_, fun hnip => ?_⟩
    · refine ⟨{ c with reduceTasks := c.reduceTasks.set id.toNat (completed t)
                       reduceTasksCompleted := c.reduceTasksCompleted + 1 }, ?_, ?_, ?_, rfl,
        fun h => absurd h (by decide), fun _ => ⟨rfl, rfl⟩, rfl, rfl⟩
      · simp [ReportTask, hrec, hip, completed]
      · exact index_eq_some.mpr ⟨hnn, List.getElem?_set_self hlt⟩
      · intro j hj
        simp only [recordsOf]
        exact List.getElem?_set_ne (Ne.symm hj)
    · simp [ReportTask, hrec, hnip]
  | NoTask => simp [recordsOf] at hlt
  | ExitTask => simp [recordsOf] at hlt

/-- Witness of C5: reporting the in-progress map task of the one-file job. -/
theorem reportTask_transition_witness :
    index (recordsOf TaskType.MapTask sampleMapClaimed) 0 =
      some (sampleMapRecord TaskStatus.InProgress 0) ∧
    ReportTask sampleMapClaimed { TaskId := 0, TaskType := TaskType.MapTask } =
      some (sampleMapDone, none) ∧
    ((TaskType.MapTask = TaskType.MapTask ∨ TaskType.MapTask = TaskType.ReduceTask) ∧
    ((sampleMapRecord TaskStatus.InProgress 0).Status = TaskStatus.InProgress →
      ∃ c', ReportTask sampleMapClaimed { TaskId := 0, TaskType := TaskType.MapTask } =
          some (c', none) ∧
        index (recordsOf TaskType.MapTask c') 0 =
          some { sampleMapRecord TaskStatus.InProgress 0 with Status := TaskStatus.Completed } ∧
        (∀ j : Nat, j ≠ (0 : Int).toNat →
          (recordsOf TaskType.MapTask c')[j]? = (recordsOf TaskType.MapTask sampleMapClaimed)[j]?) ∧
        counterOf TaskType.MapTask c' = counterOf TaskType.MapTask sampleMapClaimed + 1 ∧
        (TaskType.MapTask = TaskType.MapTask →
          c'.reduceTasks = sampleMapClaimed.reduceTasks ∧
          c'.reduceTasksCompleted = sampleMapClaimed.reduceTasksCompleted) ∧
        (TaskType.MapTask = TaskType.ReduceTask →
          c'.mapTasks = sampleMapClaimed.mapTasks ∧
          c'.mapTasksCompleted = sampleMapClaimed.mapTasksCompleted) ∧
        c'.nMap = sampleMapClaimed.nMap ∧ c'.nReduce = sampleMapClaimed.nReduce) ∧
    ((sampleMapRecord TaskStatus.InProgress 0).Status ≠ TaskStatus.InProgress →
      ReportTask sampleMapClaimed { TaskId := 0, TaskType := TaskType.MapTask } =
        some (sampleMapClaimed, none))) :=
  ⟨by decide, by decide,
    reportTask_transition sampleMapClaimed { TaskId := 0, TaskType := TaskType.MapTask }
      (sampleMapRecord TaskStatus.InProgress 0) (by decide)⟩

/-- C6 as stated fails: on the job built from one file and one reduce task, a
report of map task 1 and a report of reduce task -1 both panic on the slice
index instead of returning. -/
theorem reportTask_out_of_range_panics :
    MakeCoordinator ["a.txt"] 1 = some sampleInit ∧
    ReportTask sampleInit { TaskId := 1, TaskType := TaskType.MapTask } = none ∧
    ReportTask sampleInit { TaskId := -1, TaskType := TaskType.ReduceTask } = none :=
  ⟨sampleInit_make, by decide, by decide⟩

/-- C6, amended: in every coordinator state `ReportTask` completes normally
exactly when the task id is in range for the record slice of the reported
kind (`0 ≤ TaskId < len`) or the kind is neither Map nor Reduce, and whenever
it completes it returns the error `nil`. -/
theorem reportTask_completes_iff (c : Coordinator) (args : ReportTaskArgs) :
    ((ReportTask c args).isSome = true ↔
      (args.TaskType = TaskType.MapTask →
        0 ≤ args.TaskId ∧ args.TaskId < c.mapTasks.length) ∧
      (args.TaskType = TaskType.ReduceTask →
        0 ≤ args.TaskId ∧ args.TaskId < c.reduceTasks.length)) ∧
    ∀ c' e, ReportTask c args = some (c', e) → e = none := by
  refine ⟨?_, fun c' e h => (ReportTask_cases h).1⟩
  obtain ⟨id, ty⟩ := args
  cases ty with
  | MapTask =>
    simp only [ReportTask, if_true, true_implies, reduceCtorEq, false_implies, and_true]
    rw [← index_isSome]
    cases hidx : index c.mapTasks id with
    | none => simp
    | some t => by_cases hst : t.Status = TaskStatus.InProgress <;> simp [hst]
  | ReduceTask =>
    simp only [ReportTask, if_true, true_implies, reduceCtorEq, false_implies, true_and,
      reduceIte]
    rw [← index_isSome]
    cases hidx : index c.reduceTasks id with
    | none => simp
    | some t => by_cases hst : t.Status = TaskStatus.InProgress <;> simp [hst]
  | NoTask => simp [ReportTask]
  | ExitTask => simp [ReportTask]

/-- C8, `Done` is stable: `Done()` is true exactly when
`reduceTasksCompleted = nReduce`, and from every reachable state in which
`Done()` is true, after any further sequence of `RequestTask`, non-panicking
`ReportTask` and sweep steps `Done()` is still true, the reduce counter still
being equal to `nReduce`. -/
theorem done_forever (files : List String) (nReduce : Int) (c c' : Coordinator)
    (evs : List Event)
    (hreach : Reachable files nReduce c) (hdone : Done c = true)
    (hrun : run c evs = some c') :
    (∀ c0 : Coordinator, Done c0 = true ↔ c0.reduceTasksCompleted = c0.nReduce) ∧
    Done c' = true ∧ c'.reduceTasksCompleted = nReduce ∧ c'.nReduce = nReduce := by
  have hiff : ∀ c0 : Coordinator, Done c0 = true ↔ c0.reduceTasksCompleted = c0.nReduce := by
    intro c0
    unfold Done
    by_cases h : c0.reduceTasksCompleted = c0.nReduce <;> simp [h]
  have hinv := inv_of_reachable hreach
  have hinv' := inv_run hinv hrun
  have h' := (phase_done_run hinv hrun).2 ((hiff c).mp hdone)
  refine ⟨hiff, (hiff c').mpr h', ?_, hinv'.nReduce_eq⟩
  rw [h', hinv'.nReduce_eq]

/-- Witness of C8 on the one-file job with both tasks completed, followed by a
duplicate report, a sweep and a request. -/
theorem done_forever_witness :
    Reachable ["a.txt"] 1 sampleAllDone ∧ Done sampleAllDone = true ∧
    run sampleAllDone
      [Event.report { TaskId := 0, TaskType := TaskType.ReduceTask }, Event.sweep 30,
       Event.request 31] = some sampleAllDone ∧
    ((∀ c0 : Coordinator, Done c0 = true ↔ c0.reduceTasksCompleted = c0.nReduce) ∧
    Done sampleAllDone = true ∧ sampleAllDone.reduceTasksCompleted = 1 ∧
    sampleAllDone.nReduce = 1) :=
  ⟨sampleAllDone_reachable, by decide, by decide,
    done_forever ["a.txt"] 1 sampleAllDone sampleAllDone
      [Event.report { TaskId := 0, TaskType := TaskType.ReduceTask }, Event.sweep 30,
       Event.request 31]
      sampleAllDone_reachable (by decide) (by decide)⟩

/-- C9, timeout sweep: one sweep pass at time `now` rewrites each map and each
reduce record `t` to `t` with status `Idle` when `t` is `InProgress` and
`now - StartTime` is strictly greater than 10 s, and leaves it as it is
otherwise; it keeps every task descriptor and start time, both slice lengths,
both completion counters, `nMap` and `nReduce`; in particular a `Completed`
record is never reclaimed. -/
theorem sweep_effect (c : Coordinator) (now : Int) :
    (∀ (i : Nat) (t : TaskInfo), c.mapTasks[i]? = some t →
      (checkTimeouts c now).mapTasks[i]? =
        some (if t.Status = TaskStatus.InProgress ∧ now - t.StartTime > 10 * 1000000000
              then { t with Status := TaskStatus.Idle } else t)) ∧
    (∀ (i : Nat) (t : TaskInfo), c.reduceTasks[i]? = some t →
      (checkTimeouts c now).reduceTasks[i]? =
        some (if t.Status = TaskStatus.InProgress ∧ now - t.StartTime > 10 * 1000000000
              then { t with Status := TaskStatus.Idle } else t)) ∧
    (checkTimeouts c now).mapTasks.length = c.mapTasks.length ∧
    (checkTimeouts c now).reduceTasks.length = c.reduceTasks.length ∧
    (checkTimeouts c now).mapTasks.map TaskInfo.Task = c.mapTasks.map TaskInfo.Task ∧
    (checkTimeouts c now).reduceTasks.map TaskInfo.Task = c.reduceTasks.map TaskInfo.Task ∧
    (checkTimeouts c now).mapTasksCompleted = c.mapTasksCompleted ∧
    (checkTimeouts c now).reduceTasksCompleted = c.reduceTasksCompleted ∧
    (checkTimeouts c now).nMap = c.nMap ∧ (checkTimeouts c now).nReduce = c.nReduce ∧
    (∀ (i : Nat) (t : TaskInfo), t.Status = TaskStatus.Completed →
      (c.mapTasks[i]? = some t → (checkTimeouts c now).mapTasks[i]? = some t) ∧
      (c.reduceTasks[i]? = some t → (checkTimeouts c now).reduceTasks[i]? = some t)) := by
  have key : ∀ (l : List TaskInfo) (i : Nat) (t : TaskInfo), l[i]? = some t →
      (sweepRecords now l)[i]? =
        some (if t.Status = TaskStatus.InProgress ∧ now - t.StartTime > 10 * 1000000000
              then { t with Status := TaskStatus.Idle } else t) := by
    intro l i t hl
    rw [sweepRecords_get, hl]
    simp only [Option.map_some', sweepRecord, since_gt_timeout]
  have keyDone : ∀ (l : List TaskInfo) (i : Nat) (t : TaskInfo),
      t.Status = TaskStatus.Completed → l[i]? = some t → (sweepRecords now l)[i]? = some t := by
    intro l i t hc hl
    rw [sweepRecords_get, hl, Option.map_some', sweepRecord_of_completed hc]
  refine ⟨key c.mapTasks, key c.reduceTasks, ?_, ?_, sweepRecords_map_task now c.mapTasks,
    sweepRecords_map_task now c.reduceTasks, rfl, rfl, rfl, rfl,
    fun i t hc => ⟨keyDone c.mapTasks i t hc, keyDone c.reduceTasks i t hc⟩⟩
  · exact length_of_map_task_eq (sweepRecords_map_task now c.mapTasks)
  · exact length_of_map_task_eq (sweepRecords_map_task now c.reduceTasks)

/-- C10, reassignment after a crash: let `c0` be reachable from
`MakeCoordinator files nReduce` and let `RequestTask` at time `t0` hand out the
task of kind `ty` (Map or Reduce) with id `i`.  Let any events follow that
leave the claim in place: requests, reports of other tasks, sweeps no later
than `t0 + 10 s`.  Then after a sweep pass at a time `now > t0 + 10 s` the next
`RequestTask` call returns the task of the lowest-index `Idle` record `j` of
that kind; that task has kind `ty` and id `j`, record `j` becomes `InProgress`
again, `j ≤ i`, and `j = i` whenever no record below `i` is `Idle` after the
sweep, in particular when every other record of that kind is `Completed`. -/
theorem reassigned_after_timeout (files : List String) (nReduce : Int) (c0 c2 : Coordinator)
    (ty : TaskType) (i : Nat) (t0 now now' : Int) (evs : List Event)
    (hreach : Reachable files nReduce c0)
    (hty : ty = TaskType.MapTask ∨ ty = TaskType.ReduceTask)
    (htyp : (RequestTask c0 t0).2.1.Task.Typ = ty)
    (hid : (RequestTask c0 t0).2.1.Task.Id = (i : Int))
    (hquiet : ∀ e ∈ evs, leavesClaim ty i t0 e)
    (hrun : run (RequestTask c0 t0).1 evs = some c2)
    (hlate : now > t0 + 10 * 1000000000) :
    ∃ (j : Nat) (t : TaskInfo),
      FirstIdle (recordsOf ty (checkTimeouts c2 now)) j t ∧
      (RequestTask (checkTimeouts c2 now) now').2.1.Task = t.Task ∧
      t.Task.Typ = ty ∧ t.Task.Id = (j : Int) ∧
      (recordsOf ty (RequestTask (checkTimeouts c2 now) now').1)[j]? = some (claimed now' t) ∧
      j ≤ i ∧
      ((∀ (k : Nat) (u : TaskInfo), k < i →
          (recordsOf ty (checkTimeouts c2 now))[k]? = some u → u.Status ≠ TaskStatus.Idle) →
        j = i) ∧
      ((∀ (k : Nat) (u : TaskInfo), k ≠ i →
          (recordsOf ty c2)[k]? = some u → u.Status = TaskStatus.Completed) →
        j = i) := by
  have hinv0 := inv_of_reachable hreach
  have hinv1 := inv_request hinv0 t0
  have hinv2 := inv_run hinv1 hrun
  have hinv3 := inv_sweep hinv2 now
  obtain ⟨r0, hr0⟩ := handout_record hinv0 hty htyp hid
  have hr2 := quiet_run hr0 rfl rfl hquiet hrun
  -- the sweep reverts record `i`
  have hsw : ∀ (k : Nat) (u : TaskInfo), (recordsOf ty c2)[k]? = some u →
      (recordsOf ty (checkTimeouts c2 now))[k]? = some (sweepRecord now u) := by
    intro k u hu
    rcases hty with h | h <;> subst h <;>
    · simp only [recordsOf, checkTimeouts] at hu ⊢
      rw [sweepRecords_get, hu]
      rfl
  have hr3 := hsw i _ hr2
  have hidle : (sweepRecord now (claimed t0 r0)).Status = TaskStatus.Idle := by
    have : since now (claimed t0 r0).StartTime > timeout := by
      rw [since_gt_timeout]
      simp only [claimed]
      omega
    unfold sweepRecord
    rw [if_pos ⟨rfl, this⟩]
  -- the phase of kind `ty` is the current one
  have hnc : (sweepRecord now (claimed t0 r0)).Status ≠ TaskStatus.Completed := by
    rw [hidle]; decide
  have hlow : ∀ (j : Nat) (t : TaskInfo), FirstIdle (recordsOf ty (checkTimeouts c2 now)) j t →
      j ≤ i ∧
      ((∀ (k : Nat) (u : TaskInfo), k < i →
          (recordsOf ty (checkTimeouts c2 now))[k]? = some u → u.Status ≠ TaskStatus.Idle) →
        j = i) ∧
      ((∀ (k : Nat) (u : TaskInfo), k ≠ i →
          (recordsOf ty c2)[k]? = some u → u.Status = TaskStatus.Completed) →
        j = i) := by
    intro j t hfi
    have hji : j ≤ i := by
      by_contra hgt
      exact hfi.2.2 i _ (by omega) hr3 hidle
    refine ⟨hji, fun hnone => ?_, fun hall => ?_⟩
    · by_contra hne
      exact hnone j t (by omega) hfi.1 hfi.2.1
    · by_contra hne
      have hjlt : j < (recordsOf ty (checkTimeouts c2 now)).length :=
        (List.getElem?_eq_some.mp hfi.1).1
      have hlen : (recordsOf ty (checkTimeouts c2 now)).length = (recordsOf ty c2).length :=
        recordsOf_length_step (c := c2) (e := Event.sweep now) rfl
      rw [hlen] at hjlt
      have hget : (recordsOf ty c2)[j]? = some ((recordsOf ty c2)[j]) :=
        List.getElem?_eq_getElem hjlt
      have hc := hall j _ hne hget
      have h3 := hsw j _ hget
      rw [sweepRecord_of_completed hc, hfi.1] at h3
      simp only [Option.some.injEq] at h3
      rw [← h3, hfi.2.1] at hc
      exact absurd hc (by decide)
  rcases hty with h | h
  · subst h
    simp only [recordsOf] at hr3 hlow ⊢
    have hopen : (checkTimeouts c2 now).mapTasksCompleted < (checkTimeouts c2 now).nMap := by
      have h1 := countCompleted_lt_of_get hr3 hnc
      have h2 := hinv3.mapCount
      have h3 := hinv3.nMap_eq
      have h4 := hinv3.mapLen
      omega
    rcases RequestTask_cases (checkTimeouts c2 now) now' with
      ⟨-, j, t, hfi, heq⟩ | ⟨-, hno, -⟩ | ⟨hm, -⟩ | ⟨hm, -⟩ | ⟨hm, -⟩
    · obtain ⟨hd1, hd2⟩ := hinv3.mapDesc j t hfi.1
      obtain ⟨hlt, -⟩ := List.getElem?_eq_some.mp hfi.1
      obtain ⟨hl1, hl2, hl3⟩ := hlow j t hfi
      refine ⟨j, t, hfi, by rw [heq], hd1, hd2, ?_, hl1, hl2, hl3⟩
      rw [heq]
      exact List.getElem?_set_self hlt
    · exact absurd hidle (hno _ (List.getElem?_mem hr3))
    · exact absurd hopen hm
    · exact absurd hopen hm
    · exact absurd hopen hm
  · subst h
    simp only [recordsOf] at hr2 hr3 hlow ⊢
    have hmapDone : ¬ (checkTimeouts c2 now).mapTasksCompleted < (checkTimeouts c2 now).nMap := by
      intro hlt
      have := hinv2.barrier hlt _ (List.getElem?_mem hr2)
      simp [claimed] at this
    have hopen : (checkTimeouts c2 now).reduceTasksCompleted < (checkTimeouts c2 now).nReduce := by
      have h1 := countCompleted_lt_of_get hr3 hnc
      have h2 := hinv3.reduceCount
      have h3 := hinv3.nReduce_eq
      have h4 := hinv3.reduceLen
      omega
    rcases RequestTask_cases (checkTimeouts c2 now) now' with
      ⟨hm, -⟩ | ⟨hm, -⟩ | ⟨-, -, j, t, hfi, heq⟩ | ⟨-, -, hno, -⟩ | ⟨-, hr, -⟩
    · exact absurd hm hmapDone
    · exact absurd hm hmapDone
    · obtain ⟨hd1, hd2⟩ := hinv3.reduceDesc j t hfi.1
      obtain ⟨hlt, -⟩ := List.getElem?_eq_some.mp hfi.1
      obtain ⟨hl1, hl2, hl3⟩ := hlow j t hfi
      refine ⟨j, t, hfi, by rw [heq], hd1, hd2, ?_, hl1, hl2, hl3⟩
      rw [heq]
      exact List.getElem?_set_self hlt
    · exact absurd hidle (hno _ (List.getElem?_mem hr3))
    · exact absurd hopen hr

/-- Witness of C10 on the two-file job: map task 0 is handed out at time 3 and
never reported, map task 1 completes meanwhile; after a sweep later than
`3 + 10 s` the next request hands out map task 0 again. -/
theorem reassigned_after_timeout_witness :
    Reachable ["a.txt", "b.txt"] 1 sampleTwoInit ∧
    (RequestTask sampleTwoInit 3).2.1.Task.Typ = TaskType.MapTask ∧
    (RequestTask sampleTwoInit 3).2.1.Task.Id = ((0 : Nat) : Int) ∧
    run (RequestTask sampleTwoInit 3).1 quietEvents = some sampleTwoCrashed ∧
    (RequestTask (checkTimeouts sampleTwoCrashed 10000000004) 10000000005).2.1.Task.Id = 0 ∧
    ∃ (j : Nat) (t : TaskInfo),
      FirstIdle (recordsOf TaskType.MapTask (checkTimeouts sampleTwoCrashed 10000000004)) j t ∧
      (RequestTask (checkTimeouts sampleTwoCrashed 10000000004) 10000000005).2.1.Task = t.Task ∧
      t.Task.Typ = TaskType.MapTask ∧ t.Task.Id = (j : Int) ∧
      (recordsOf TaskType.MapTask
        (RequestTask (checkTimeouts sampleTwoCrashed 10000000004) 10000000005).1)[j]? =
          some (claimed 10000000005 t) ∧
      j ≤ 0 ∧
      ((∀ (k : Nat) (u : TaskInfo), k < 0 →
          (recordsOf TaskType.MapTask (checkTimeouts sampleTwoCrashed 10000000004))[k]? = some u →
          u.Status ≠ TaskStatus.Idle) →
        j = 0) ∧
      ((∀ (k : Nat) (u : TaskInfo), k ≠ 0 →
          (recordsOf TaskType.MapTask sampleTwoCrashed)[k]? = some u →
          u.Status = TaskStatus.Completed) →
        j = 0) :=
  ⟨⟨sampleTwoInit, [], sampleTwoInit_make, rfl⟩, by decide, by decide, quietEvents_run,
    sampleTwoCrashed_reassigned,
    reassigned_after_timeout ["a.txt", "b.txt"] 1 sampleTwoInit sampleTwoCrashed
      TaskType.MapTask 0 3 10000000004 10000000005 quietEvents
      ⟨sampleTwoInit, [], sampleTwoInit_make, rfl⟩ (Or.inl rfl) (by decide) (by decide)
      quietEvents_leave quietEvents_run (by decide)⟩

/-- C18, status transitions: along every step (a `RequestTask` call, a
non-panicking `ReportTask` call, a sweep pass) from any coordinator state, each
record keeps its task descriptor, and its status either stays the same or
changes by exactly one of `Idle → InProgress` (the step being a request),
`InProgress → Completed` (the step being a report) or `InProgress → Idle` (the
step being a sweep); a `Completed` record is left exactly as it is by the step
and by every run that follows; neither record slice changes its length or any
of its task descriptors. -/
theorem status_transitions (c c' : Coordinator) (e : Event) (hs : step c e = some c') :
    c'.mapTasks.length = c.mapTasks.length ∧
    c'.reduceTasks.length = c.reduceTasks.length ∧
    c'.mapTasks.map TaskInfo.Task = c.mapTasks.map TaskInfo.Task ∧
    c'.reduceTasks.map TaskInfo.Task = c.reduceTasks.map TaskInfo.Task ∧
    ∀ (ty : TaskType) (i : Nat) (t : TaskInfo), (recordsOf ty c)[i]? = some t →
      ∃ t', (recordsOf ty c')[i]? = some t' ∧ t'.Task = t.Task ∧
        (t'.Status = t.Status ∨
         (t.Status = TaskStatus.Idle ∧ t'.Status = TaskStatus.InProgress ∧
            ∃ now, e = Event.request now) ∨
         (t.Status = TaskStatus.InProgress ∧ t'.Status = TaskStatus.Completed ∧
            ∃ args, e = Event.report args) ∨
         (t.Status = TaskStatus.InProgress ∧ t'.Status = TaskStatus.Idle ∧
            ∃ now, e = Event.sweep now)) ∧
        (t.Status = TaskStatus.Completed →
          t' = t ∧ ∀ (evs : List Event) (c'' : Coordinator), run c' evs = some c'' →
            (recordsOf ty c'')[i]? = some t) := by
  refine ⟨(step_lengths hs).1, (step_lengths hs).2, (step_descriptors hs).1,
    (step_descriptors hs).2, ?_⟩
  intro ty i t hi
  have hdone : ∀ t', (recordsOf ty c')[i]? = some t' → t.Status = TaskStatus.Completed →
      t' = t ∧ ∀ (evs : List Event) (c'' : Coordinator), run c' evs = some c'' →
        (recordsOf ty c'')[i]? = some t := by
    intro t' ht' hc
    have h1 := step_completed hi hc hs
    rw [ht'] at h1
    simp only [Option.some.injEq] at h1
    subst h1
    exact ⟨rfl, fun evs c'' hrun => run_completed ht' hc hrun⟩
  rcases step_record hi hs with h | ⟨now, he, hst, h⟩ | ⟨he, hst, h⟩ | ⟨now, he, hst, -, h⟩
  · exact ⟨t, h, rfl, Or.inl rfl, hdone t h⟩
  · exact ⟨claimed now t, h, rfl, Or.inr (Or.inl ⟨hst, rfl, now, he⟩), hdone _ h⟩
  · exact ⟨completed t, h, rfl, Or.inr (Or.inr (Or.inl ⟨hst, rfl, _, he⟩)), hdone _ h⟩
  · exact ⟨{ t with Status := TaskStatus.Idle }, h, rfl,
      Or.inr (Or.inr (Or.inr ⟨hst, rfl, now, he⟩)), hdone _ h⟩

/-- Witness of C18: the report of the in-progress map task of the one-file job. -/
theorem status_transitions_witness :
    step sampleMapClaimed (Event.report { TaskId := 0, TaskType := TaskType.MapTask }) =
      some sampleMapDone ∧
    (recordsOf TaskType.MapTask sampleMapDone)[0]? =
      some (sampleMapRecord TaskStatus.Completed 0) ∧
    (sampleMapDone.mapTasks.length = sampleMapClaimed.mapTasks.length ∧
    sampleMapDone.reduceTasks.length = sampleMapClaimed.reduceTasks.length ∧
    sampleMapDone.mapTasks.map TaskInfo.Task = sampleMapClaimed.mapTasks.map TaskInfo.Task ∧
    sampleMapDone.reduceTasks.map TaskInfo.Task =
      sampleMapClaimed.reduceTasks.map TaskInfo.Task ∧
    ∀ (ty : TaskType) (i : Nat) (t : TaskInfo), (recordsOf ty sampleMapClaimed)[i]? = some t →
      ∃ t', (recordsOf ty sampleMapDone)[i]? = some t' ∧ t'.Task = t.Task ∧
        (t'.Status = t.Status ∨
         (t.Status = TaskStatus.Idle ∧ t'.Status = TaskStatus.InProgress ∧
            ∃ now, Event.report { TaskId := 0, TaskType := TaskType.MapTask } =
              Event.request now) ∨
         (t.Status = TaskStatus.InProgress ∧ t'.Status = TaskStatus.Completed ∧
            ∃ args, Event.report { TaskId := 0, TaskType := TaskType.MapTask } =
              Event.report args) ∨
         (t.Status = TaskStatus.InProgress ∧ t'.Status = TaskStatus.Idle ∧
            ∃ now, Event.report { TaskId := 0, TaskType := TaskType.MapTask } =
              Event.sweep now)) ∧
        (t.Status = TaskStatus.Completed →
          t' = t ∧ ∀ (evs : List Event) (c'' : Coordinator), run sampleMapDone evs = some c'' →
            (recordsOf ty c'')[i]? = some t)) :=
  ⟨by decide, by decide,
    status_transitions sampleMapClaimed sampleMapDone
      (Event.report { TaskId := 0, TaskType := TaskType.MapTask }) (by decide)⟩

/-- C19, the reduce phase is untouched until the map phase ends: in every state
reachable from `MakeCoordinator files nReduce`, if `mapTasksCompleted < nMap`
then every reduce record is `Idle` and `reduceTasksCompleted = 0`, and a
`ReportTask` call for any reduce task id that returns leaves the state
unchanged. -/
theorem reduce_untouched (files : List String) (nReduce : Int) (c : Coordinator)
    (hreach : Reachable files nReduce c) (hopen : c.mapTasksCompleted < c.nMap) :
    (∀ t ∈ c.reduceTasks, t.Status = TaskStatus.Idle) ∧
    c.reduceTasksCompleted = 0 ∧
    ∀ (id : Int) (c' : Coordinator) (e : error),
      ReportTask c { TaskId := id, TaskType := TaskType.ReduceTask } = some (c', e) →
        c' = c := by
  have hinv := inv_of_reachable hreach
  have hidle := hinv.barrier hopen
  refine ⟨hidle, ?_, ?_⟩
  · have hzero : countCompleted c.reduceTasks = 0 :=
      countCompleted_of_none (fun t ht => by rw [hidle t ht]; decide)
    rw [hinv.reduceCount, hzero]
    rfl
  · intro id c' e hr
    refine report_noop (fun t ht hip => ?_) hr
    simp only [recordsOf] at ht
    have := hidle t (List.getElem?_mem (index_eq_some.mp ht).2)
    rw [this] at hip
    exact absurd hip (by decide)

/-- Witness of C19: the one-file job with its map task handed out. -/
theorem reduce_untouched_witness :
    Reachable ["a.txt"] 1 sampleMapClaimed ∧
    sampleMapClaimed.mapTasksCompleted < sampleMapClaimed.nMap ∧
    ((∀ t ∈ sampleMapClaimed.reduceTasks, t.Status = TaskStatus.Idle) ∧
    sampleMapClaimed.reduceTasksCompleted = 0 ∧
    ∀ (id : Int) (c' : Coordinator) (e : error),
      ReportTask sampleMapClaimed { TaskId := id, TaskType := TaskType.ReduceTask } =
        some (c', e) → c' = sampleMapClaimed) :=
  ⟨⟨sampleInit, [Event.request 0], sampleInit_make, by decide⟩, by decide,
    reduce_untouched ["a.txt"] 1 sampleMapClaimed
      ⟨sampleInit, [Event.request 0], sampleInit_make, by decide⟩ (by decide)⟩

/-- C12, initial job state: for every list `files` and every `nReduce ≥ 0`,
`MakeCoordinator files nReduce` returns a coordinator with exactly `len(files)`
map records and `nReduce` reduce records, `nMap = len(files)`, both completion
counters 0; map record `i` is `Idle` and holds the task of kind Map with
`Id = i`, `FileName = files[i]`, `NReduce = nReduce`; reduce record `j` is
`Idle` and holds the task of kind Reduce with `Id = j`, `NMap = len(files)`. -/
theorem makeCoordinator_initial (files : List String) (nReduce : Int) (hn : 0 ≤ nReduce) :
    ∃ c, MakeCoordinator files nReduce = some c ∧
      c.mapTasks.length = files.length ∧ (c.reduceTasks.length : Int) = nReduce ∧
      c.nMap = files.length ∧ c.nReduce = nReduce ∧
      c.mapTasksCompleted = 0 ∧ c.reduceTasksCompleted = 0 ∧
      (∀ (i : Nat) (f : String), files[i]? = some f →
        c.mapTasks[i]? =
          some { Status := TaskStatus.Idle, StartTime := 0,
                 Task := { Typ := TaskType.MapTask, Id := (i : Int), FileName := f,
                           NReduce := nReduce, NMap := 0 } }) ∧
      (∀ j : Nat, (j : Int) < nReduce →
        c.reduceTasks[j]? =
          some { Status := TaskStatus.Idle, StartTime := 0,
                 Task := { Typ := TaskType.ReduceTask, Id := (j : Int), FileName := "",
                           NReduce := 0, NMap := (files.length : Int) } }) := by
  have hnot : ¬ nReduce < 0 := by omega
  refine ⟨_, by rw [MakeCoordinator, if_neg hnot], makeMapTasks_length _ _ _, ?_, rfl, rfl,
    rfl, rfl, ?_, ?_⟩
  · simp only [makeReduceTasks_length]
    omega
  · intro i f hf
    simp only
    rw [makeMapTasks_get_file hf, zero_add]
  · intro j hj
    simp only
    rw [makeReduceTasks_get_index (by omega), zero_add]

/-- Witness of C12 on two files and one reduce task. -/
theorem makeCoordinator_initial_witness :
    (0 : Int) ≤ 1 ∧ MakeCoordinator ["a.txt", "b.txt"] 1 = some sampleTwoInit ∧
    ∃ c, MakeCoordinator ["a.txt", "b.txt"] 1 = some c ∧
      c.mapTasks.length = ["a.txt", "b.txt"].length ∧ (c.reduceTasks.length : Int) = 1 ∧
      c.nMap = ["a.txt", "b.txt"].length ∧ c.nReduce = 1 ∧
      c.mapTasksCompleted = 0 ∧ c.reduceTasksCompleted = 0 ∧
      (∀ (i : Nat) (f : String), ["a.txt", "b.txt"][i]? = some f →
        c.mapTasks[i]? =
          some { Status := TaskStatus.Idle, StartTime := 0,
                 Task := { Typ := TaskType.MapTask, Id := (i : Int), FileName := f,
                           NReduce := 1, NMap := 0 } }) ∧
      (∀ j : Nat, (j : Int) < 1 →
        c.reduceTasks[j]? =
          some { Status := TaskStatus.Idle, StartTime := 0,
                 Task := { Typ := TaskType.ReduceTask, Id := (j : Int), FileName := "",
                           NReduce := 0, NMap := (["a.txt", "b.txt"].length : Int) } }) :=
  ⟨by decide, sampleTwoInit_make, makeCoordinator_initial ["a.txt", "b.txt"] 1 (by decide)⟩

/-- C11, exclusivity: from every coordinator state whose task ids are unique
within their kind (as in every state built by `MakeCoordinator`), along every
sequence of `RequestTask` and `ReportTask` calls with no sweep pass in
between, no two `RequestTask` calls return the same Map or Reduce task: the
pairs (kind, id) of the tasks handed out are pairwise different, and each of
them was held by a record that was `Idle` at the start. -/
theorem exclusive_handouts (c : Coordinator) (evs : List Event)
    (hids : TaskIdsUnique c) (hns : ∀ e ∈ evs, notSweep e) :
    ((handouts c evs).map (fun task => (task.Typ, task.Id))).Nodup ∧
    ∀ task ∈ handouts c evs, Available c task :=
  ⟨(handouts_exclusive evs c hids hns).2, (handouts_exclusive evs c hids hns).1⟩

/-- Witness of C11: four requests and a report on the fresh two-file job hand
out map task 0 and map task 1, once each. -/
theorem exclusive_handouts_witness :
    TaskIdsUnique sampleTwoInit ∧ (∀ e ∈ requestBurst, notSweep e) ∧
    (handouts sampleTwoInit requestBurst).map (fun task => (task.Typ, task.Id)) =
      [(TaskType.MapTask, 0), (TaskType.MapTask, 1)] ∧
    (((handouts sampleTwoInit requestBurst).map (fun task => (task.Typ, task.Id))).Nodup ∧
    ∀ task ∈ handouts sampleTwoInit requestBurst, Available sampleTwoInit task) :=
  ⟨taskIdsUnique_of_inv (inv_init sampleTwoInit_make), requestBurst_notSweep,
    requestBurst_handouts,
    exclusive_handouts sampleTwoInit requestBurst
      (taskIdsUnique_of_inv (inv_init sampleTwoInit_make)) requestBurst_notSweep⟩

/-- C14, map partitioning: for every map output `kva` and every `NReduce > 0`
the partitioning of `doMap` does not panic and produces exactly `NReduce`
buckets; bucket `r` is the sublist of `kva`, in the original order, of
precisely the pairs with `ihash(Key) mod NReduce = r`; so a pair is in bucket
`r` exactly when it is in `kva` and hashes to `r`, and the buckets together
are a permutation of `kva`. -/
theorem doMap_partition (kva : List KeyValue) (NReduce : Int) (hpos : 0 < NReduce) :
    ∃ intermediate, partition kva NReduce = some intermediate ∧
      (intermediate.length : Int) = NReduce ∧
      (∀ r : Nat, (r : Int) < NReduce →
        intermediate[r]? = some (kva.filter (fun x => ihash x.Key % NReduce = (r : Int)))) ∧
      (∀ (r : Nat) (bucket : List KeyValue) (x : KeyValue), intermediate[r]? = some bucket →
        (x ∈ bucket ↔ x ∈ kva ∧ ihash x.Key % NReduce = (r : Int))) ∧
      intermediate.flatten.Perm kva := by
  have hlen : ((List.replicate NReduce.toNat ([] : List KeyValue)).length : Int) = NReduce := by
    rw [List.length_replicate]
    omega
  obtain ⟨res, hres, hl, hget, hperm⟩ := partitionLoop_spec hpos kva _ hlen
  have hbuckets : ∀ r : Nat, (r : Int) < NReduce →
      res[r]? = some (kva.filter (fun x => ihash x.Key % NReduce = (r : Int))) := by
    intro r hr
    have hr' : r < NReduce.toNat := by omega
    have := hget r [] (by simp [List.getElem?_replicate, hr'])
    simpa using this
  refine ⟨res, ?_, ?_, hbuckets, ?_, ?_⟩
  · rw [partition, if_neg (by omega)]
    exact hres
  · rw [hl]; exact hlen
  · intro r bucket x hb
    have hr : (r : Int) < NReduce := by
      have := (List.getElem?_eq_some.mp hb).1
      rw [hl] at this
      omega
    rw [hbuckets r hr] at hb
    simp only [Option.some.injEq] at hb
    rw [← hb]
    simp
  · have : (List.replicate NReduce.toNat ([] : List KeyValue)).flatten = [] := by
      induction NReduce.toNat with
      | zero => rfl
      | succ n ih => simp [List.replicate_succ, ih]
    rw [this] at hperm
    simpa using hperm

/-- Witness of C14: the map output of `x y x` split into two buckets. -/
theorem doMap_partition_witness :
    (0 : Int) < 2 ∧
    partition sampleKva 2 =
      some [[asciiPair "y" "1"], [asciiPair "x" "1", asciiPair "x" "1"]] ∧
    ∃ intermediate, partition sampleKva 2 = some intermediate ∧
      (intermediate.length : Int) = 2 ∧
      (∀ r : Nat, (r : Int) < 2 →
        intermediate[r]? = some (sampleKva.filter (fun x => ihash x.Key % 2 = (r : Int)))) ∧
      (∀ (r : Nat) (bucket : List KeyValue) (x : KeyValue), intermediate[r]? = some bucket →
        (x ∈ bucket ↔ x ∈ sampleKva ∧ ihash x.Key % 2 = (r : Int))) ∧
      intermediate.flatten.Perm sampleKva :=
  ⟨by decide, by decide, doMap_partition sampleKva 2 (by decide)⟩

/-- C20, the bucket index is always in range: for every key, `ihash(key)` is
the 32-bit FNV-1a hash of the key's bytes masked with `0x7fffffff`, so
`0 ≤ ihash(key) < 2^31`; hence for every `NReduce > 0` the index
`ihash(key) % NReduce` computed by `doMap` equals the mathematical remainder,
satisfies `0 ≤ index < NReduce`, and the access to a slice of `NReduce`
buckets at that index does not panic. -/
theorem ihash_bucket_in_range (key : GoString) :
    ihash key = ((fnv1a32 key &&& 0x7fffffff : Nat) : Int) ∧
    0 ≤ ihash key ∧ ihash key < 2 ^ 31 ∧
    ∀ NReduce : Int, 0 < NReduce →
      (ihash key).tmod NReduce = ihash key % NReduce ∧
      0 ≤ (ihash key).tmod NReduce ∧ (ihash key).tmod NReduce < NReduce ∧
      ∀ (intermediate : List (List KeyValue)) (x : KeyValue),
        (intermediate.length : Int) = NReduce →
          (appendAt intermediate ((ihash key).tmod NReduce) x).isSome = true := by
  refine ⟨?_, ihash_nonneg key, ihash_lt key, ?_⟩
  · unfold ihash fnv1a32
    rw [sum32aWrite_eq_foldl]
    rfl
  · intro NReduce hpos
    obtain ⟨h1, h2, h3⟩ := bucket_index key hpos
    refine ⟨h1, h2, h3, ?_⟩
    intro intermediate x hlen
    obtain ⟨bucket, -, happ⟩ := appendAt_eq_some (x := x) h2 (by rw [hlen]; exact h3)
    rw [happ]
    rfl

/-- C20 at the key `x`: its hash is 2097959047 and its bucket among two is 1. -/
theorem ihash_bucket_in_range_witness :
    ihash (ascii "x") = 2097959047 ∧ (ihash (ascii "x")).tmod 2 = 1 ∧
    (ihash (ascii "x") = ((fnv1a32 (ascii "x") &&& 0x7fffffff : Nat) : Int) ∧
    0 ≤ ihash (ascii "x") ∧ ihash (ascii "x") < 2 ^ 31 ∧
    ∀ NReduce : Int, 0 < NReduce →
      (ihash (ascii "x")).tmod NReduce = ihash (ascii "x") % NReduce ∧
      0 ≤ (ihash (ascii "x")).tmod NReduce ∧ (ihash (ascii "x")).tmod NReduce < NReduce ∧
      ∀ (intermediate : List (List KeyValue)) (x : KeyValue),
        (intermediate.length : Int) = NReduce →
          (appendAt intermediate ((ihash (ascii "x")).tmod NReduce) x).isSome = true) :=
  ⟨by decide, by decide, ihash_bucket_in_range (ascii "x")⟩

/-- C13 as stated fails: map task 0 of a job with two reduce tasks leaves the
intermediate files `mr-0-0` and `mr-0-1`, not `partition-0-0` and
`partition-0-1`, and reduce task 0 leaves the output file `mr-out-0`, not
`output-0`. -/
theorem file_names_are_not_partition_output :
    (doMap sampleMapTask sampleMapf sampleReadFile).map (fun fs => fs.map ShardFile.name) =
      some ["mr-0-0", "mr-0-1"] ∧
    "mr-0-0" ≠ "partition-0-0" ∧
    (doReduce sampleReduceTask countValues sampleBrokenShard sortByKey).name = "mr-out-0" ∧
    "mr-out-0" ≠ "output-0" := by
  decide

/-- C13, amended: for every map task id `m` and bucket index `r`, the
intermediate file that `doMap` leaves for bucket `r` is named exactly
`mr-<m>-<r>` and holds bucket `r`; `doReduce` for reduce task `r` reads, for
each `m` with `0 ≤ m < NMap`, the file named `mr-<m>-<r>` and depends on no
other file; and the output file of reduce task `r` is named exactly
`mr-out-<r>`; the numbers are in decimal. -/
theorem file_names (task : Task) (mapf : String → GoString → List KeyValue)
    (reducef : GoString → List GoString → GoString) (readFile : String → Option GoString)
    (openFile openFile' : String → Option (List (Option KeyValue)))
    (sort : List KeyValue → List KeyValue) :
    (∀ files, doMap task mapf readFile = some files →
      ∃ intermediate,
        (∃ content, readFile task.FileName = some content ∧
          partition (mapf task.FileName content) task.NReduce = some intermediate) ∧
        files.length = intermediate.length ∧
        ∀ (r : Nat) (f : ShardFile), files[r]? = some f →
          f.name = "mr-" ++ formatInt task.Id ++ "-" ++ formatInt (r : Int) ∧
          intermediate[r]? = some f.records) ∧
    (doReduce task reducef openFile sort).name = "mr-out-" ++ formatInt task.Id ∧
    (doReduce task reducef openFile sort).lines =
      reduceOutput reducef (sort ((List.range task.NMap.toNat).flatMap (fun m =>
        shardRecords openFile ("mr-" ++ formatInt (m : Int) ++ "-" ++ formatInt task.Id)))) ∧
    ((∀ m : Nat, (m : Int) < task.NMap →
        openFile' ("mr-" ++ formatInt (m : Int) ++ "-" ++ formatInt task.Id) =
          openFile ("mr-" ++ formatInt (m : Int) ++ "-" ++ formatInt task.Id)) →
      doReduce task reducef openFile' sort = doReduce task reducef openFile sort) ∧
    (∀ n : Nat, formatInt (n : Int) = Nat.repr n) := by
  have hlines : ∀ o : String → Option (List (Option KeyValue)),
      (doReduce task reducef o sort).lines =
        reduceOutput reducef (sort ((List.range task.NMap.toNat).flatMap (fun m =>
          shardRecords o ("mr-" ++ formatInt (m : Int) ++ "-" ++ formatInt task.Id)))) := by
    intro o
    simp only [doReduce, readShards_eq, zero_add]
    rfl
  refine ⟨?_, rfl, hlines openFile, ?_, fun n => rfl⟩
  · intro files hfiles
    unfold doMap at hfiles
    cases hread : readFile task.FileName with
    | none => simp [hread] at hfiles
    | some content =>
      simp only [hread] at hfiles
      cases hpart : partition (mapf task.FileName content) task.NReduce with
      | none => simp [hpart] at hfiles
      | some intermediate =>
        simp only [hpart, Option.some.injEq] at hfiles
        subst hfiles
        refine ⟨intermediate, ⟨content, rfl, hpart⟩, ?_, ?_⟩
        · exact writeShards_length task intermediate 0
        · intro r f hf
          obtain ⟨h1, h2⟩ := writeShards_get hf
          refine ⟨?_, h2⟩
          rw [h1, zero_add]
          rfl
  · intro hagree
    have hname : (doReduce task reducef openFile' sort).name =
        (doReduce task reducef openFile sort).name := rfl
    have hl : (doReduce task reducef openFile' sort).lines =
        (doReduce task reducef openFile sort).lines := by
      rw [hlines openFile', hlines openFile]
      congr 2
      apply List.flatMap_congr
      intro m hm
      have hm' : (m : Int) < task.NMap := by
        have := List.mem_range.mp hm
        omega
      simp only [shardRecords, hagree m hm']
    cases h1 : doReduce task reducef openFile' sort
    cases h2 : doReduce task reducef openFile sort
    rw [h1] at hname hl
    rw [h2] at hname hl
    simp only at hname hl
    rw [hname, hl]

/-- C17 as stated fails: reduce task 0 reads the file `mr-0-0` holding the
record `x 1`, a record that cannot be decoded, and the record `y 1`; the worker
does not die: it writes `mr-out-0` with the single line `x 1` and reports the
task. -/
theorem malformed_shard_is_not_fatal :
    workerIteration sampleReduceTask sampleMapf countValues sampleReadFile sampleBrokenShard
        sortByKey =
      [WorkerEffect.wroteOutput { name := "mr-out-0", lines := [ascii "x 1\n"] },
       WorkerEffect.reported { TaskId := 0, TaskType := TaskType.ReduceTask }] ∧
    WorkerEffect.died ∉
      workerIteration sampleReduceTask sampleMapf countValues sampleReadFile sampleBrokenShard
        sortByKey := by
  decide

/-- C17, amended: for every reduce task and every content of the intermediate
files, the worker does not die in `doReduce`; from each file that opens it
takes the records decoded before the first record that cannot be decoded (or
before the end of the file) and drops the rest of that file, goes on with the
next file, writes the output file from the records taken, and reports the
task. -/
theorem malformed_shard_truncates (task : Task) (mapf : String → GoString → List KeyValue)
    (reducef : GoString → List GoString → GoString) (readFile : String → Option GoString)
    (openFile : String → Option (List (Option KeyValue)))
    (sort : List KeyValue → List KeyValue) (hty : task.Typ = TaskType.ReduceTask) :
    workerIteration task mapf reducef readFile openFile sort =
      [WorkerEffect.wroteOutput (doReduce task reducef openFile sort),
       WorkerEffect.reported { TaskId := task.Id, TaskType := TaskType.ReduceTask }] ∧
    WorkerEffect.died ∉ workerIteration task mapf reducef readFile openFile sort ∧
    (doReduce task reducef openFile sort).lines =
      reduceOutput reducef (sort ((List.range task.NMap.toNat).flatMap (fun m =>
        match openFile (sprintfMr (m : Int) task.Id) with
        | none => []
        | some stream => (stream.takeWhile Option.isSome).filterMap id))) ∧
    ∀ (good : List KeyValue) (rest : List (Option KeyValue)),
      decodeAll (good.map some ++ none :: rest) = good := by
  have hiter : workerIteration task mapf reducef readFile openFile sort =
      [WorkerEffect.wroteOutput (doReduce task reducef openFile sort),
       WorkerEffect.reported { TaskId := task.Id, TaskType := TaskType.ReduceTask }] := by
    simp only [workerIteration, hty]
  refine ⟨hiter, ?_, ?_, ?_⟩
  · rw [hiter]
    simp
  · simp only [doReduce, readShards_eq, zero_add]
    rfl
  · intro good rest
    induction good with
    | nil => rfl
    | cons g gs ih => simp [decodeAll, ih]

/-- Witness of the amended C17 on the broken file `mr-0-0`. -/
theorem malformed_shard_truncates_witness :
    sampleReduceTask.Typ = TaskType.ReduceTask ∧
    (doReduce sampleReduceTask countValues sampleBrokenShard sortByKey).lines =
      [ascii "x 1\n"] ∧
    (workerIteration sampleReduceTask sampleMapf countValues sampleReadFile sampleBrokenShard
        sortByKey =
      [WorkerEffect.wroteOutput
        (doReduce sampleReduceTask countValues sampleBrokenShard sortByKey),
       WorkerEffect.reported { TaskId := sampleReduceTask.Id, TaskType := TaskType.ReduceTask }] ∧
    WorkerEffect.died ∉
      workerIteration sampleReduceTask sampleMapf countValues sampleReadFile sampleBrokenShard
        sortByKey ∧
    (doReduce sampleReduceTask countValues sampleBrokenShard sortByKey).lines =
      reduceOutput countValues (sortByKey
        ((List.range sampleReduceTask.NMap.toNat).flatMap (fun m =>
          match sampleBrokenShard (sprintfMr (m : Int) sampleReduceTask.Id) with
          | none => []
          | some stream => (stream.takeWhile Option.isSome).filterMap id))) ∧
    ∀ (good : List KeyValue) (rest : List (Option KeyValue)),
      decodeAll (good.map some ++ none :: rest) = good) :=
  ⟨rfl, by decide,
    malformed_shard_truncates sampleReduceTask sampleMapf countValues sampleReadFile
      sampleBrokenShard sortByKey rfl⟩

/-- C15, reduce output: for every list `intermediate` of decoded pairs and every
reduce callback `reducef`, when `sort.Sort` leaves a sorted permutation of the
list, `doReduce` writes one line per call of `reducef`, each line being the
key, one space, `reducef(key, values)` and a newline; the keys of the calls
are in strictly ascending bytewise order, hence pairwise different; they are
exactly the keys that occur in `intermediate`; and the values passed with a key
are exactly the values of the pairs of `intermediate` with that key, as a
multiset. -/
theorem doReduce_output (reducef : GoString → List GoString → GoString)
    (sort : List KeyValue → List KeyValue) (intermediate : List KeyValue)
    (hperm : (sort intermediate).Perm intermediate)
    (hsorted : IsSorted (sort intermediate) = true) :
    (∀ (task : Task) (openFile : String → Option (List (Option KeyValue))),
      readShards task openFile task.NMap.toNat 0 = intermediate →
        (doReduce task reducef openFile sort).lines =
          reduceOutput reducef (sort intermediate)) ∧
    reduceOutput reducef (sort intermediate) =
      (reduceCalls (sort intermediate).length (sort intermediate)).map
        (fun p => p.1 ++ [32] ++ reducef p.1 p.2 ++ [10]) ∧
    (reduceCalls (sort intermediate).length (sort intermediate)).Pairwise
      (fun p q => stringLess p.1 q.1 = true) ∧
    ((reduceCalls (sort intermediate).length (sort intermediate)).map Prod.fst).Nodup ∧
    (∀ k, k ∈ (reduceCalls (sort intermediate).length (sort intermediate)).map Prod.fst ↔
      ∃ x ∈ intermediate, x.Key = k) ∧
    (∀ p ∈ reduceCalls (sort intermediate).length (sort intermediate),
      p.2.Perm ((intermediate.filter (fun x => x.Key = p.1)).map KeyValue.Value)) := by
  obtain ⟨h1, h2, h3, h4⟩ := reduceCalls_of_sorted_perm hperm hsorted
  refine ⟨?_, rfl, h1, h2, h3, h4⟩
  intro task openFile hread
  simp only [doReduce, hread]

/-- Witness of C15: word count over the pairs of `x y x` writes the lines
`x 2` and `y 1`. -/
theorem doReduce_output_witness :
    (sortByKey sampleKva).Perm sampleKva ∧ IsSorted (sortByKey sampleKva) = true ∧
    reduceOutput countValues (sortByKey sampleKva) = [ascii "x 2\n", ascii "y 1\n"] ∧
    ((∀ (task : Task) (openFile : String → Option (List (Option KeyValue))),
      readShards task openFile task.NMap.toNat 0 = sampleKva →
        (doReduce task countValues openFile sortByKey).lines =
          reduceOutput countValues (sortByKey sampleKva)) ∧
    reduceOutput countValues (sortByKey sampleKva) =
      (reduceCalls (sortByKey sampleKva).length (sortByKey sampleKva)).map
        (fun p => p.1 ++ [32] ++ countValues p.1 p.2 ++ [10]) ∧
    (reduceCalls (sortByKey sampleKva).length (sortByKey sampleKva)).Pairwise
      (fun p q => stringLess p.1 q.1 = true) ∧
    ((reduceCalls (sortByKey sampleKva).length (sortByKey sampleKva)).map Prod.fst).Nodup ∧
    (∀ k, k ∈ (reduceCalls (sortByKey sampleKva).length (sortByKey sampleKva)).map Prod.fst ↔
      ∃ x ∈ sampleKva, x.Key = k) ∧
    (∀ p ∈ reduceCalls (sortByKey sampleKva).length (sortByKey sampleKva),
      p.2.Perm ((sampleKva.filter (fun x => x.Key = p.1)).map KeyValue.Value))) :=
  ⟨(sortByKey_contract sampleKva).1, (sortByKey_contract sampleKva).2, by decide,
    doReduce_output countValues sortByKey sampleKva (sortByKey_contract sampleKva).1
      (sortByKey_contract sampleKva).2⟩

/-- C16 as stated fails: in the job over one file with two reduce tasks whose
map task emits the keys `caf E9` and `caf E8` (not well-formed UTF-8), the key
`caf E9` occurs in the map output and hashes to bucket 0, yet the output of
reduce task 0 has no line for it: after the JSON encoding of the intermediate
files both keys are read back as `caf U+FFFD`, which has a line in the output
of reduce task 0 and a line in the output of reduce task 1. -/
theorem non_utf8_key_in_two_outputs :
    MakeCoordinator ["a.txt"] 2 = some latin1Job ∧
    mapOutput latin1Mapf sampleReadFile "a.txt" =
      [{ Key := keyE9, Value := ascii "1" }, { Key := keyE8, Value := ascii "1" }] ∧
    ihash keyE9 % 2 = 0 ∧ ihash keyE8 % 2 = 1 ∧
    (runMapTasks latin1Mapf sampleReadFile (latin1Job.mapTasks.map TaskInfo.Task) emptyFS).map
        (fun fs => latin1Job.reduceTasks.map
          (fun t => (doReduce t.Task countValues (openDecoded fs) sortByKey,
            (doReduceCalls t.Task (openDecoded fs) sortByKey).map Prod.fst))) =
      some [({ name := "mr-out-0", lines := [keyFFFD ++ ascii " 1\n"] }, [keyFFFD]),
            ({ name := "mr-out-1", lines := [keyFFFD ++ ascii " 1\n"] }, [keyFFFD])] ∧
    keyE9 ∉ [keyFFFD] :=
  ⟨latin1Job_make, by decide, by decide, by decide, latin1Job_outputs, by decide⟩

/-- C16, amended: for every list of input files, every `NReduce > 0` and every
family of map outputs whose keys the JSON encoding of the intermediate files
leaves unchanged (keys that are well-formed UTF-8), when every map task of the
coordinator runs `doMap` and then every reduce task `r` runs `doReduce` on the
files left (with `sort.Sort` meeting its contract): `doReduce` writes one line
per call of `reducef`; a key has a line in the output of reduce task `r`
exactly when it occurs in some map output and `r = ihash(key) mod NReduce`;
within one output the keys are pairwise different; the values passed to
`reducef` with a key are the values emitted for that key by all map tasks, as
read back from the files, as a multiset; so every key emitted is in the output
of exactly one reduce task. -/
theorem end_to_end_placement (fileNames : List String) (NReduce : Int)
    (mapf : String → GoString → List KeyValue) (readFile : String → Option GoString)
    (reducef : GoString → List GoString → GoString) (sort : List KeyValue → List KeyValue)
    (c : Coordinator)
    (hpos : 0 < NReduce)
    (hc : MakeCoordinator fileNames NReduce = some c)
    (hsort : ∀ l, (sort l).Perm l ∧ IsSorted (sort l) = true)
    (hread : ∀ name ∈ fileNames, (readFile name).isSome = true)
    (hkeys : ∀ x ∈ fileNames.flatMap (mapOutput mapf readFile), jsonRoundTrip x.Key = x.Key) :
    ∃ fs, runMapTasks mapf readFile (c.mapTasks.map TaskInfo.Task) emptyFS = some fs ∧
      (∀ (r : Nat) (t : TaskInfo), c.reduceTasks[r]? = some t →
        (doReduce t.Task reducef (openDecoded fs) sort).lines =
          (doReduceCalls t.Task (openDecoded fs) sort).map
            (fun p => p.1 ++ [32] ++ reducef p.1 p.2 ++ [10]) ∧
        (∀ k, k ∈ (doReduceCalls t.Task (openDecoded fs) sort).map Prod.fst ↔
          (∃ name ∈ fileNames, ∃ x ∈ mapOutput mapf readFile name, x.Key = k) ∧
            ihash k % NReduce = (r : Int)) ∧
        ((doReduceCalls t.Task (openDecoded fs) sort).map Prod.fst).Nodup ∧
        (∀ p ∈ doReduceCalls t.Task (openDecoded fs) sort,
          p.2.Perm (((fileNames.flatMap (mapOutput mapf readFile)).filter
            (fun x => x.Key = p.1)).map (fun x => jsonRoundTrip x.Value)))) ∧
      (∀ k, (∃ name ∈ fileNames, ∃ x ∈ mapOutput mapf readFile name, x.Key = k) →
        ∃ (r : Nat) (t : TaskInfo), c.reduceTasks[r]? = some t ∧
          k ∈ (doReduceCalls t.Task (openDecoded fs) sort).map Prod.fst ∧
          ∀ (r' : Nat) (t' : TaskInfo), c.reduceTasks[r']? = some t' →
            k ∈ (doReduceCalls t'.Task (openDecoded fs) sort).map Prod.fst → r' = r) := by
  have hnot : ¬ NReduce < 0 := by omega
  rw [MakeCoordinator, if_neg hnot] at hc
  simp only [Option.some.injEq] at hc
  subst hc
  obtain ⟨fs, hrun, hinput⟩ := job_reduce_input mapf readFile hpos fileNames hread
  have hmemAll : ∀ x, x ∈ fileNames.flatMap (mapOutput mapf readFile) ↔
      ∃ name ∈ fileNames, x ∈ mapOutput mapf readFile name := by
    intro x
    simp [List.mem_flatMap]
  have hkeyIff : ∀ (r : Nat) (t : TaskInfo),
      (makeReduceTasks (fileNames.length : Int) NReduce.toNat 0)[r]? = some t →
      ∀ k, k ∈ (doReduceCalls t.Task (openDecoded fs) sort).map Prod.fst ↔
        (∃ name ∈ fileNames, ∃ x ∈ mapOutput mapf readFile name, x.Key = k) ∧
          ihash k % NReduce = (r : Int) := by
    intro r t ht k
    obtain ⟨-, hin⟩ := hinput r t ht
    obtain ⟨-, -, h3, -⟩ := reduceCalls_of_sorted_perm (hsort _).1 (hsort _).2
    rw [doReduceCalls, h3 k, hin]
    constructor
    · rintro ⟨y, hy, rfl⟩
      obtain ⟨x, hx, rfl⟩ := List.mem_map.mp hy
      simp only [List.mem_filter, decide_eq_true_eq] at hx
      have hxk : (roundTripRecord x).Key = x.Key := hkeys x hx.1
      obtain ⟨name, hname, hxn⟩ := (hmemAll x).mp hx.1
      exact ⟨⟨name, hname, x, hxn, hxk.symm⟩, by rw [hxk]; exact hx.2⟩
    · rintro ⟨⟨name, hname, x, hx, rfl⟩, hmod⟩
      have hxa := (hmemAll x).mpr ⟨name, hname, hx⟩
      refine ⟨roundTripRecord x, List.mem_map.mpr ⟨x, ?_, rfl⟩, hkeys x hxa⟩
      simp only [List.mem_filter, decide_eq_true_eq]
      exact ⟨hxa, hmod⟩
  refine ⟨fs, hrun, ?_, ?_⟩
  · intro r t ht
    obtain ⟨-, hin⟩ := hinput r t ht
    obtain ⟨-, h2, -, h4⟩ := reduceCalls_of_sorted_perm (hsort _).1 (hsort _).2
    refine ⟨rfl, hkeyIff r t ht, h2, ?_⟩
    intro p hp
    have hpk : ihash p.1 % NReduce = (r : Int) :=
      ((hkeyIff r t ht p.1).mp (List.mem_map.mpr ⟨p, hp, rfl⟩)).2
    have := h4 p hp
    rw [hin, values_of_key _ NReduce r p.1 hkeys hpk] at this
    exact this
  · intro k hk
    have hnn : 0 ≤ ihash k % NReduce := Int.emod_nonneg _ (by omega)
    have hlt : ihash k % NReduce < NReduce := Int.emod_lt_of_pos _ hpos
    have hidx : (ihash k % NReduce).toNat < NReduce.toNat := by omega
    refine ⟨(ihash k % NReduce).toNat, _, makeReduceTasks_get_index hidx, ?_, ?_⟩
    · exact (hkeyIff _ _ (makeReduceTasks_get_index hidx) k).mpr ⟨hk, by omega⟩
    · intro r' t' ht' hmem
      have := ((hkeyIff r' t' ht' k).mp hmem).2
      omega

/-- Witness of the amended C16: word count over `x y x` in `a.txt` and `y z` in
`b.txt` with two reduce tasks leaves `y 2` in `mr-out-0` and `x 2`, `z 1` in
`mr-out-1`. -/
theorem end_to_end_placement_witness :
    (0 : Int) < 2 ∧ MakeCoordinator sampleJobFiles 2 = some sampleJob ∧
    (∀ l, (sortByKey l).Perm l ∧ IsSorted (sortByKey l) = true) ∧
    (∀ name ∈ sampleJobFiles, (sampleReadFile name).isSome = true) ∧
    (∀ x ∈ sampleJobFiles.flatMap (mapOutput sampleJobMapf sampleReadFile),
      jsonRoundTrip x.Key = x.Key) ∧
    (runMapTasks sampleJobMapf sampleReadFile (sampleJob.mapTasks.map TaskInfo.Task) emptyFS).map
        (fun fs => sampleJob.reduceTasks.map
          (fun t => doReduce t.Task countValues (openDecoded fs) sortByKey)) =
      some [{ name := "mr-out-0", lines := [ascii "y 2\n"] },
            { name := "mr-out-1", lines := [ascii "x 2\n", ascii "z 1\n"] }] ∧
    ∃ fs, runMapTasks sampleJobMapf sampleReadFile (sampleJob.mapTasks.map TaskInfo.Task)
        emptyFS = some fs ∧
      (∀ (r : Nat) (t : TaskInfo), sampleJob.reduceTasks[r]? = some t →
        (doReduce t.Task countValues (openDecoded fs) sortByKey).lines =
          (doReduceCalls t.Task (openDecoded fs) sortByKey).map
            (fun p => p.1 ++ [32] ++ countValues p.1 p.2 ++ [10]) ∧
        (∀ k, k ∈ (doReduceCalls t.Task (openDecoded fs) sortByKey).map Prod.fst ↔
          (∃ name ∈ sampleJobFiles, ∃ x ∈ mapOutput sampleJobMapf sampleReadFile name,
            x.Key = k) ∧ ihash k % 2 = (r : Int)) ∧
        ((doReduceCalls t.Task (openDecoded fs) sortByKey).map Prod.fst).Nodup ∧
        (∀ p ∈ doReduceCalls t.Task (openDecoded fs) sortByKey,
          p.2.Perm (((sampleJobFiles.flatMap (mapOutput sampleJobMapf sampleReadFile)).filter
            (fun x => x.Key = p.1)).map (fun x => jsonRoundTrip x.Value)))) ∧
      (∀ k, (∃ name ∈ sampleJobFiles, ∃ x ∈ mapOutput sampleJobMapf sampleReadFile name,
          x.Key = k) →
        ∃ (r : Nat) (t : TaskInfo), sampleJob.reduceTasks[r]? = some t ∧
          k ∈ (doReduceCalls t.Task (openDecoded fs) sortByKey).map Prod.fst ∧
          ∀ (r' : Nat) (t' : TaskInfo), sampleJob.reduceTasks[r']? = some t' →
            k ∈ (doReduceCalls t'.Task (openDecoded fs) sortByKey).map Prod.fst → r' = r) :=
  ⟨by decide, sampleJob_make, sortByKey_contract, fun _ _ => rfl, sampleJob_keys,
    sampleJob_outputs,
    end_to_end_placement sampleJobFiles 2 sampleJobMapf sampleReadFile countValues sortByKey
      sampleJob (by decide) sampleJob_make sortByKey_contract (fun _ _ => rfl) sampleJob_keys⟩

end MapReduce
